import Mathlib

/-! The tsm1 in-memory write cache (`tsdb/engine/tsm1/cache.go`)

A shallow embedding of the cache of the tsm1 storage engine, followed by
theorems about its operations.

Conventions of the embedding.

* Go maps are association lists; a lookup returns the first binding of a key,
  an assignment replaces that binding or appends a new one, `delete` removes
  every binding of the key.  `range` over a map visits the bindings in list
  order (Go leaves the order unspecified; the theorems below are stated on
  what is observable per key).
* `*entry` pointers are modelled by value: after `Snapshot` the live cache no
  longer refers to the entries it handed to the sibling, so no entry is ever
  shared between two places that are both still in use.  Slices are immutable
  sequences: aliasing between a batch the caller passes in and the entry that
  stores it is not followed.
* `uint64` fields are natural numbers, every `uint64` operation is reduced
  modulo `2 ^ 64` explicitly.
* A Go panic (nil dereference, index out of range) is the result `none`.
* The id counter `ownedStringIDAcc` and `snapshotAttempts` are natural
  numbers: they only count up from zero, one step per call, and their wrap
  after `2 ^ 63` steps is not followed.
* Locks, the clock (`lastSnapshot`, `cacheAgeMs`) and the entry pool are not
  modelled: every operation runs to completion without interleaving, and the
  pool hands out zero-initialised entries.
-/

namespace Tsm1

/-! ## Values -/

/-- Smallest `int64`, Go's `math.MinInt64`. -/
def MinInt64 : Int := -9223372036854775808

/-- Largest `int64`, Go's `math.MaxInt64`. -/
def MaxInt64 : Int := 9223372036854775807

/-- Go's `int64`: the integers between `math.MinInt64` and `math.MaxInt64`. -/
abbrev Int64 : Type := { i : Int // MinInt64 ≤ i ∧ i ≤ MaxInt64 }

/-- Modelled from the spec: the `Value` interface of the value codec, which is
not part of `cache.go`.  A value is a timestamped sample: `UnixNano()` is its
timestamp, the payload is opaque, and `Size()` is its byte footprint. -/
structure Value where
  unixNano : Int64
  payload : Nat
  size : Nat
deriving DecidableEq, Repr

/-- Go's `type Values []Value`. -/
abbrev Values : Type := List Value

/-- Timestamp of a value as an integer. -/
def Value.ts (v : Value) : Int := v.unixNano.val

/-- Whether the timestamp of `v` lies in the closed range `[min, max]`. -/
def inRange (min max : Int64) (v : Value) : Bool :=
  decide (min.val ≤ v.ts) && decide (v.ts ≤ max.val)

/-- Modelled from the spec: `Values.Size` of the value codec, the byte
footprint of a sequence, a function of its contents that is additive over the
values it holds. -/
def Values.Size (a : Values) : Nat := (a.map Value.size).sum

/-- Modelled from the spec: `Values.Exclude` of the value codec, which removes
all values with `min ≤ ts ≤ max` and keeps the relative order of the rest. -/
def Values.Exclude (a : Values) (min max : Int64) : Values :=
  a.filter (fun v => !(inRange min max v))

/-- Places `v` in a sequence that is increasing by timestamp; a value that is
already there under the same timestamp is replaced by `v`. -/
def insertValue (v : Value) : Values → Values
  | [] => [v]
  | w :: ws =>
    if v.ts < w.ts then v :: w :: ws
    else if v.ts = w.ts then v :: ws
    else w :: insertValue v ws

/-- Modelled from the spec: `Values.Deduplicate` of the value codec.  It
returns a sequence strictly increasing by timestamp; on a collision the value
written last (greatest arrival index) wins.  The values are taken in arrival
order, each one replacing an earlier value of the same timestamp. -/
def Values.Deduplicate (a : Values) : Values :=
  a.foldl (fun acc v => insertValue v acc) []

/-- Strictly increasing by timestamp. -/
def StrictlyIncreasing (a : Values) : Prop :=
  a.Pairwise (fun x y => x.ts < y.ts)

instance (a : Values) : Decidable (StrictlyIncreasing a) := by
  unfold StrictlyIncreasing; infer_instance

/-- The value that arrived last in `a` under timestamp `t`, if any. -/
def lastAt (t : Int) : Values → Option Value
  | [] => none
  | v :: vs =>
    (lastAt t vs).or (if v.ts = t then some v else none)

/-! ## Machine integers -/

/-- Conversion to `uint64`: reduction modulo `2 ^ 64`. -/
def uint64 (n : Int) : Nat := (n % 18446744073709551616).toNat

/-- Conversion to `int64`: the representative of `n` modulo `2 ^ 64` that lies
between `math.MinInt64` and `math.MaxInt64`. -/
def int64 (n : Int) : Int :=
  (n + 9223372036854775808) % 18446744073709551616 - 9223372036854775808

/-! ## Go maps -/

/-- Map lookup `m[k]` with the `ok` result: the first binding of `k`. -/
def mapGet {κ β : Type} [DecidableEq κ] : List (κ × β) → κ → Option β
  | [], _ => none
  | (k', v) :: m, k => if k' = k then some v else mapGet m k

/-- Map assignment `m[k] = v`. -/
def mapSet {κ β : Type} [DecidableEq κ] : List (κ × β) → κ → β → List (κ × β)
  | [], k, v => [(k, v)]
  | (k', v') :: m, k, v => if k' = k then (k, v) :: m else (k', v') :: mapSet m k v

/-- Map deletion `delete(m, k)`. -/
def mapDelete {κ β : Type} [DecidableEq κ] (m : List (κ × β)) (k : κ) : List (κ × β) :=
  m.filter (fun p => decide (p.1 ≠ k))

/-- The keys of a map, in the order `range` visits them. -/
def mapKeys {κ β : Type} (m : List (κ × β)) : List κ := m.map Prod.fst

/-! ## The string arena -/

/-- Go's `OwnedString`: the canonical form of a key.  Equal byte content gives
the same owned string, so an owned string is identified with its content. -/
abbrev OwnedString : Type := String

/-- Go's `type OwnedStringID int64`; the counter only grows, from zero. -/
abbrev OwnedStringID : Type := Nat

/-- Modelled from the spec: `CacheLocalArena`, declared outside `cache.go`.
The arena is a map from canonical key to reference count. -/
abbrev CacheLocalArena : Type := List (OwnedString × Nat)

/-- Modelled from the spec: `CacheLocalArena.GetOwnedString`, which returns the
canonical owned string of the bytes and raises its reference count by one. -/
def CacheLocalArena.GetOwnedString (a : CacheLocalArena) (s : String) :
    CacheLocalArena × OwnedString :=
  (mapSet a s ((mapGet a s).getD 0 + 1), s)

/-- Modelled from the spec: `CacheLocalArena.Inc`, which raises the reference
count of `os` by `n`. -/
def CacheLocalArena.Inc (a : CacheLocalArena) (os : OwnedString) (n : Nat) : CacheLocalArena :=
  mapSet a os ((mapGet a os).getD 0 + n)

/-- Modelled from the spec: `CacheLocalArena.Dec`, which lowers the reference
count of `os` by `n` and removes `os` from the arena when the count reaches
zero. -/
def CacheLocalArena.Dec (a : CacheLocalArena) (os : OwnedString) (n : Nat) : CacheLocalArena :=
  match mapGet a os with
  | none => a
  | some r => if r ≤ n then mapDelete a os else mapSet a os (r - n)

/-! ## Entries -/

/-- Go's `entry`: a set of values and the flag that they may be out of order. -/
structure entry where
  values : Values
  needSort : Bool
deriving DecidableEq, Repr

/-- Go's `newEntry`: the pool hands out a zero-initialised entry. -/
def newEntry : entry := { values := [], needSort := false }

/-- The loop of `entry.add` over the new values: whether some timestamp is not
above the previous one, `prevTime` starting at zero. -/
def addNeedSort : Int → Values → Bool
  | _, [] => false
  | prevTime, v :: vs => if v.ts ≤ prevTime then true else addNeedSort v.ts vs

/-- Go's `entry.add`.  With a non-empty entry the code reads `values[0]`, which
panics on an empty batch. -/
def entry.add (e : entry) (values : Values) : Option entry :=
  let needSort := addNeedSort 0 values
  let e1 : entry := if needSort then { e with needSort := needSort } else e
  match e1.values.getLast? with
  | none => some { e1 with values := values }
  | some last =>
    match values with
    | [] => none
    | v0 :: _ =>
      let lastValTime := last.ts
      let e2 : entry := if lastValTime ≥ v0.ts then { e1 with needSort := true } else e1
      some { e2 with values := e2.values ++ values }

/-- Go's `entry.deduplicate`. -/
def entry.deduplicate (e : entry) : entry :=
  if !e.needSort || e.values.length == 0 then e
  else { values := Values.Deduplicate e.values, needSort := false }

/-- Go's `entry.count`. -/
def entry.count (e : entry) : Nat := e.values.length

/-- Go's `entry.filter`. -/
def entry.filter (e : entry) (min max : Int64) : entry :=
  { e with values := Values.Exclude e.values min max }

/-- Go's `entry.size`. -/
def entry.size (e : entry) : Nat := Values.Size e.values

/-! ## The cache -/

/-- The error values of the package. -/
inductive Error where
  | ErrCacheMemoryExceeded
  | ErrCacheInvalidCheckpoint
  | ErrSnapshotInProgress
deriving DecidableEq, Repr

/-- Go's `CacheStatistics`, without the two fields driven by the clock
(`CacheAgeMs`, `WALCompactionTimeMs`). -/
structure CacheStatistics where
  MemSizeBytes : Int
  DiskSizeBytes : Int
  SnapshotCount : Int
  CachedBytes : Int
deriving DecidableEq, Repr

/-- The sibling cache built by `Snapshot`.  In Go it is a `Cache` of which only
the store, the two interning maps and the id counter are ever set; its arena is
the process-wide one, kept in the owning cache. -/
structure SnapshotCache where
  store : List (OwnedStringID × entry)
  internedOwnedStrings : List (OwnedString × OwnedStringID)
  internedOwnedStringsReverse : List (OwnedStringID × OwnedString)
  ownedStringIDAcc : Nat
deriving DecidableEq, Repr

/-- Go's `Cache`. -/
structure Cache where
  store : List (OwnedStringID × entry)
  internedOwnedStrings : List (OwnedString × OwnedStringID)
  internedOwnedStringsReverse : List (OwnedStringID × OwnedString)
  size : Nat
  maxSize : Nat
  snapshot : Option SnapshotCache
  snapshotSize : Nat
  snapshotting : Bool
  snapshotAttempts : Nat
  stats : CacheStatistics
  arena : CacheLocalArena
  ownedStringIDAcc : Nat
deriving DecidableEq, Repr

/-- Go's `NewCache`; `globalCacheArena` is the process-wide arena. -/
def NewCache (maxSize : Nat) (globalCacheArena : CacheLocalArena) : Cache :=
  { store := [], internedOwnedStrings := [], internedOwnedStringsReverse := [],
    size := 0, maxSize := uint64 maxSize, snapshot := none, snapshotSize := 0,
    snapshotting := false, snapshotAttempts := 0,
    stats := { MemSizeBytes := 0, DiskSizeBytes := 0, SnapshotCount := 0, CachedBytes := 0 },
    arena := globalCacheArena, ownedStringIDAcc := 0 }

/-- Go's `reclaimStore`: one `Dec` for every key of the forward interning map. -/
def reclaimStore (cla : CacheLocalArena) (m0 : List (OwnedString × OwnedStringID)) :
    CacheLocalArena :=
  m0.foldl (fun a p => CacheLocalArena.Dec a p.1 1) cla

/-- Go's `Cache.updateMemSize`. -/
def Cache.updateMemSize (c : Cache) (b : Int) : Cache :=
  { c with stats := { c.stats with MemSizeBytes := int64 (c.stats.MemSizeBytes + b) } }

/-- Go's `Cache.updateCachedBytes`. -/
def Cache.updateCachedBytes (c : Cache) (b : Nat) : Cache :=
  { c with stats := { c.stats with CachedBytes := int64 (c.stats.CachedBytes + int64 b) } }

/-- Go's `Cache.updateSnapshots`. -/
def Cache.updateSnapshots (c : Cache) : Cache :=
  { c with stats := { c.stats with DiskSizeBytes := int64 c.snapshotSize,
                                   SnapshotCount := int64 c.snapshotAttempts } }

/-- Go's `Cache.write`. -/
def Cache.write (c : Cache) (strangerKey : String) (values : Values) : Option Cache :=
  match mapGet c.internedOwnedStrings strangerKey with
  | some osId =>
    match mapGet c.store osId with
    | none => none
    | some e =>
      match e.add values with
      | none => none
      | some e' => some { c with store := mapSet c.store osId e' }
  | none =>
    let e := newEntry
    let (arena, os) := CacheLocalArena.GetOwnedString c.arena strangerKey
    let osId := c.ownedStringIDAcc + 1
    match e.add values with
    | none => none
    | some e' =>
      some { c with
        arena := arena
        ownedStringIDAcc := osId
        store := mapSet c.store osId e'
        internedOwnedStrings := mapSet c.internedOwnedStrings os osId
        internedOwnedStringsReverse := mapSet c.internedOwnedStringsReverse osId os }

/-- Go's `Cache.Write`: the cache after the call and the error returned. -/
def Cache.Write (c : Cache) (key : String) (values : Values) : Option (Cache × Option Error) :=
  let addedSize := Values.Size values
  let newSize := uint64 (c.size + uint64 addedSize)
  if c.maxSize > 0 ∧ uint64 (newSize + c.snapshotSize) > c.maxSize then
    some (c, some Error.ErrCacheMemoryExceeded)
  else
    match c.write key values with
    | none => none
    | some c1 => some (({ c1 with size := newSize }).updateMemSize (int64 addedSize), none)

/-- Go's `Cache.entry`: the cache after the call and the id under which the
returned entry is stored (standing for the pointer); `none` is a nil entry. -/
def Cache.entry (c : Cache) (strangerKey : String) : Cache × Option OwnedStringID :=
  match mapGet c.internedOwnedStrings strangerKey with
  | some osId => (c, (mapGet c.store osId).map (fun _ => osId))
  | none =>
    let (arena, os) := CacheLocalArena.GetOwnedString c.arena strangerKey
    let osId := c.ownedStringIDAcc + 1
    ({ c with
        arena := arena
        ownedStringIDAcc := osId
        store := mapSet c.store osId newEntry
        internedOwnedStrings := mapSet c.internedOwnedStrings os osId
        internedOwnedStringsReverse := mapSet c.internedOwnedStringsReverse osId os },
      some osId)

/-- The loop `c.entry(k).add(v)` of `Cache.WriteMulti` over the batches. -/
def Cache.writeMultiLoop : Cache → List (String × Values) → Option Cache
  | c, [] => some c
  | c, (k, v) :: rest =>
    match c.entry k with
    | (_, none) => none
    | (c1, some osId) =>
      match mapGet c1.store osId with
      | none => none
      | some e =>
        match e.add v with
        | none => none
        | some e' => Cache.writeMultiLoop { c1 with store := mapSet c1.store osId e' } rest

/-- Go's `Cache.WriteMulti`; the Go map of batches is the list of its
bindings. -/
def Cache.WriteMulti (c : Cache) (values : List (String × Values)) :
    Option (Cache × Option Error) :=
  let totalSz := (values.map (fun p => Values.Size p.2)).sum
  let newSize := uint64 (c.size + uint64 totalSz)
  if c.maxSize > 0 ∧ uint64 (newSize + c.snapshotSize) > c.maxSize then
    some (c, some Error.ErrCacheMemoryExceeded)
  else
    match c.writeMultiLoop values with
    | none => none
    | some c1 =>
      some (({ c1 with size := uint64 (c1.size + uint64 totalSz) }).updateMemSize (int64 totalSz),
            none)

/-- What the loop of `Cache.Snapshot` changes: the sibling, the arena and
`snapshotSize`. -/
structure SnapshotLoop where
  snapshot : SnapshotCache
  arena : CacheLocalArena
  snapshotSize : Nat
deriving DecidableEq, Repr

/-- One round of the loop of `Cache.Snapshot`, for the live binding
`osId ↦ e`; `reverse` is the live reverse interning map. -/
def snapshotAppend (reverse : List (OwnedStringID × OwnedString)) (st : SnapshotLoop)
    (osId : OwnedStringID) (e : entry) : Option SnapshotLoop :=
  let os := (mapGet reverse osId).getD ""
  let snapshotSize := uint64 (st.snapshotSize + uint64 (Values.Size e.values))
  match mapGet st.snapshot.internedOwnedStrings os with
  | some osId2 =>
    match mapGet st.snapshot.store osId2 with
    | none => none
    | some se =>
      match se.add e.values with
      | none => none
      | some se' =>
        let se2 : entry := if e.needSort then { se' with needSort := true } else se'
        some { st with
          snapshot := { st.snapshot with store := mapSet st.snapshot.store osId2 se2 }
          snapshotSize := snapshotSize }
  | none =>
    let arena := CacheLocalArena.Inc st.arena os 1
    let osId2 := st.snapshot.ownedStringIDAcc + 1
    let e2 : entry := if e.needSort then { e with needSort := true } else e
    some {
      snapshot := {
        store := mapSet st.snapshot.store osId2 e2
        internedOwnedStrings := mapSet st.snapshot.internedOwnedStrings os osId2
        internedOwnedStringsReverse := mapSet st.snapshot.internedOwnedStringsReverse osId2 os
        ownedStringIDAcc := osId2 }
      arena := arena
      snapshotSize := snapshotSize }

/-- The loop of `Cache.Snapshot` over the live store. -/
def snapshotLoop (reverse : List (OwnedStringID × OwnedString)) :
    List (OwnedStringID × entry) → SnapshotLoop → Option SnapshotLoop
  | [], st => some st
  | (osId, e) :: rest, st =>
    match snapshotAppend reverse st osId e with
    | none => none
    | some st' => snapshotLoop reverse rest st'

/-- The empty sibling `Cache.Snapshot` creates when none exists. -/
def SnapshotCache.empty : SnapshotCache :=
  { store := [], internedOwnedStrings := [], internedOwnedStringsReverse := [],
    ownedStringIDAcc := 0 }

/-- Go's `Cache.Snapshot`: the cache after the call and either the error or the
sibling returned. -/
def Cache.Snapshot (c : Cache) : Option (Cache × Except Error SnapshotCache) :=
  if c.snapshotting then some (c, Except.error Error.ErrSnapshotInProgress)
  else
    let snapshotAttempts := c.snapshotAttempts + 1
    let snapshot := match c.snapshot with
      | none => SnapshotCache.empty
      | some s => s
    match snapshotLoop c.internedOwnedStringsReverse c.store
        { snapshot := snapshot, arena := c.arena, snapshotSize := c.snapshotSize } with
    | none => none
    | some st =>
      let snapshotSize := c.size
      let oldM0 := c.internedOwnedStrings
      let c1 : Cache := { c with
        snapshotting := true
        snapshotAttempts := snapshotAttempts
        snapshot := some st.snapshot
        snapshotSize := st.snapshotSize
        arena := reclaimStore st.arena oldM0
        store := []
        internedOwnedStrings := []
        internedOwnedStringsReverse := []
        size := 0 }
      let c2 := ((c1.updateMemSize (-(int64 snapshotSize))).updateCachedBytes
        snapshotSize).updateSnapshots
      some (c2, Except.ok st.snapshot)

/-- Go's `Cache.Deduplicate`. -/
def Cache.Deduplicate (c : Cache) : Cache :=
  { c with store := c.store.map (fun p => (p.1, p.2.deduplicate)) }

/-- Go's `Cache.Deduplicate` called on the sibling, as the consumer of a
snapshot does before reading it. -/
def SnapshotCache.Deduplicate (s : SnapshotCache) : SnapshotCache :=
  { s with store := s.store.map (fun p => (p.1, p.2.deduplicate)) }

/-- Go's `Cache.ClearSnapshot`.  With `success` the code reads
`old.internedOwnedStrings`, which panics when no sibling is held. -/
def Cache.ClearSnapshot (c : Cache) (success : Bool) : Option Cache :=
  let c1 : Cache := { c with snapshotting := false }
  if success then
    let c2 : Cache := { c1 with snapshotAttempts := 0, snapshotSize := 0 }
    let old := c2.snapshot
    let c3 : Cache := ({ c2 with snapshot := none }).updateSnapshots
    match old with
    | none => none
    | some s => some { c3 with arena := reclaimStore c3.arena s.internedOwnedStrings }
  else some c1

/-- Go's `Cache.Size`. -/
def Cache.Size (c : Cache) : Nat := c.size

/-- Go's `Cache.MaxSize`. -/
def Cache.MaxSize (c : Cache) : Nat := c.maxSize

/-- Go's `Cache.SetMaxSize`. -/
def Cache.SetMaxSize (c : Cache) (size : Nat) : Cache := { c with maxSize := uint64 size }

/-- The copy loop of `Cache.merged`: `values` is the part of the buffer filled
so far (`values[:n]`). -/
def mergeLoop : Bool → Values → List entry → Bool × Values
  | needSort, values, [] => (needSort, values)
  | needSort, values, e :: es =>
    let needSort' :=
      match values.getLast?, e.values.head? with
      | some last, some first => if !needSort then decide (last.ts ≥ first.ts) else needSort
      | _, _ => needSort
    mergeLoop needSort' (values ++ e.values) es

/-- Go's `Cache.merged`: the cache after the call (the entries read are
deduplicated in place) and the merged copy. -/
def Cache.merged (c : Cache) (strangerKey : String) : Option (Cache × Values) :=
  -- the live entry, deduplicated in place
  let live : Option (Option (Cache × Option Tsm1.entry)) :=
    match mapGet c.internedOwnedStrings strangerKey with
    | none => if c.snapshot.isNone then none else some (some (c, none))
    | some osId =>
      match mapGet c.store osId with
      | none => some none
      | some e =>
        let e' := e.deduplicate
        some (some ({ c with store := mapSet c.store osId e' }, some e'))
  match live with
  | none => some (c, [])
  | some none => none
  | some (some (c1, e)) =>
    -- the sibling's entry, deduplicated in place
    let snap : Option (Cache × List Tsm1.entry) :=
      match c1.snapshot with
      | none => some (c1, [])
      | some s =>
        match mapGet s.internedOwnedStrings strangerKey with
        | none => some (c1, [])
        | some snapshotEntriesId =>
          match mapGet s.store snapshotEntriesId with
          | none => none
          | some snapshotEntries =>
            let se := snapshotEntries.deduplicate
            some ({ c1 with snapshot := some { s with store := mapSet s.store snapshotEntriesId se } },
                  [se])
    match snap with
    | none => none
    | some (c2, entries0) =>
      let entries := match e with
        | none => entries0
        | some e => entries0 ++ [e]
      let sz := (entries.map Tsm1.entry.count).sum
      if sz == 0 then some (c2, [])
      else
        let (needSort, values) := mergeLoop false [] entries
        some (c2, if needSort then Values.Deduplicate values else values)

/-- Go's `Cache.Values`. -/
def Cache.Values (c : Cache) (key : String) : Option (Cache × Values) := c.merged key

/-- One round of the loop of `Cache.DeleteRange`, for the key `sk`. -/
def Cache.deleteRangeKey (c : Cache) (sk : String) (min max : Int64) : Option Cache :=
  match mapGet c.internedOwnedStrings sk with
  | none => some c
  | some osId =>
    match mapGet c.store osId with
    | none => none
    | some e =>
      let origSize := e.size
      if min.val = MinInt64 ∧ max.val = MaxInt64 then
        let os := (mapGet c.internedOwnedStringsReverse osId).getD ""
        some { c with
          size := uint64 (c.size - uint64 origSize)
          store := mapDelete c.store osId
          internedOwnedStrings := mapDelete c.internedOwnedStrings os
          internedOwnedStringsReverse := mapDelete c.internedOwnedStringsReverse osId
          arena := CacheLocalArena.Dec c.arena os 1 }
      else
        let e' := e.filter min max
        if e'.count = 0 then
          let os := (mapGet c.internedOwnedStringsReverse osId).getD ""
          some { c with
            store := mapDelete c.store osId
            internedOwnedStrings := mapDelete c.internedOwnedStrings os
            internedOwnedStringsReverse := mapDelete c.internedOwnedStringsReverse osId
            arena := CacheLocalArena.Dec c.arena os 1
            size := uint64 (c.size - uint64 origSize) }
        else
          some { c with
            store := mapSet c.store osId e'
            size := uint64 (c.size - uint64 ((origSize : Int) - (e'.size : Int))) }

/-- Go's `Cache.DeleteRange`. -/
def Cache.DeleteRange : Cache → List String → Int64 → Int64 → Option Cache
  | c, [], _, _ => some c
  | c, sk :: rest, min, max =>
    match c.deleteRangeKey sk min max with
    | none => none
    | some c1 => Cache.DeleteRange c1 rest min max

/-- Go's `Cache.Delete`. -/
def Cache.Delete (c : Cache) (keys : List String) : Option Cache :=
  c.DeleteRange keys ⟨MinInt64, by decide⟩ ⟨MaxInt64, by decide⟩

/-! ## Reachable states -/

/-- The calls a client of the cache can make. -/
inductive Op where
  | Write (key : String) (values : Values)
  | WriteMulti (values : List (String × Values))
  | Values (key : String)
  | Deduplicate
  | DeduplicateSnapshot
  | Snapshot
  | ClearSnapshot (success : Bool)
  | Delete (keys : List String)
  | DeleteRange (keys : List String) (min max : Int64)
  | SetMaxSize (size : Nat)
deriving DecidableEq, Repr

/-- A call is well formed when its argument is a value of its Go type: the
batches of `WriteMulti` form a Go map, so no key occurs twice. -/
def Op.wellFormed : Op → Prop
  | Op.WriteMulti values => (values.map Prod.fst).Nodup
  | _ => True

instance (op : Op) : Decidable op.wellFormed := by
  cases op <;> unfold Op.wellFormed <;> infer_instance

/-- The cache after a call; `none` when the call panics.  A call that returns
an error leaves the cache as the operation left it. -/
def Cache.step (c : Cache) : Op → Option Cache
  | Op.Write key values => (c.Write key values).map Prod.fst
  | Op.WriteMulti values => (c.WriteMulti values).map Prod.fst
  | Op.Values key => (c.Values key).map Prod.fst
  | Op.Deduplicate => some c.Deduplicate
  | Op.DeduplicateSnapshot => some { c with snapshot := c.snapshot.map SnapshotCache.Deduplicate }
  | Op.Snapshot => c.Snapshot.map Prod.fst
  | Op.ClearSnapshot success => c.ClearSnapshot success
  | Op.Delete keys => c.Delete keys
  | Op.DeleteRange keys min max => c.DeleteRange keys min max
  | Op.SetMaxSize size => some (c.SetMaxSize size)

/-- The states a cache built by `NewCache` can be in after any sequence of
well-formed calls, none of which panicked. -/
inductive Reachable : Cache → Prop where
  | init (maxSize : Nat) (arena : CacheLocalArena) : Reachable (NewCache maxSize arena)
  | step {c c' : Cache} (op : Op) :
      Reachable c → op.wellFormed → c.step op = some c' → Reachable c'

/-- The calls that do not write data: reads, deduplication,
`ClearSnapshot(false)` and `SetMaxSize`. -/
def Op.quiet : Op → Bool
  | Op.Values _ => true
  | Op.Deduplicate => true
  | Op.DeduplicateSnapshot => true
  | Op.ClearSnapshot success => !success
  | Op.SetMaxSize _ => true
  | _ => false

/-- The cache after a sequence of calls; `none` when one of them panics. -/
def Cache.run : Cache → List Op → Option Cache
  | c, [] => some c
  | c, op :: ops =>
    match c.step op with
    | none => none
    | some c1 => Cache.run c1 ops

/-! ## Views and invariants -/

/-- The entry a cache holds for a key: the forward interning map gives the id,
the store gives the entry. -/
def lookupEntry (store : List (OwnedStringID × entry))
    (forward : List (OwnedString × OwnedStringID)) (key : String) : Option entry :=
  (mapGet forward key).bind (mapGet store)

/-- The live entry for a key. -/
def Cache.liveEntry (c : Cache) (key : String) : Option Tsm1.entry :=
  lookupEntry c.store c.internedOwnedStrings key

/-- The sibling's entry for a key. -/
def SnapshotCache.entryOf (s : SnapshotCache) (key : String) : Option entry :=
  lookupEntry s.store s.internedOwnedStrings key

/-- The entry for a key in the sibling, if a sibling is held. -/
def Cache.snapshotEntry (c : Cache) (key : String) : Option Tsm1.entry :=
  c.snapshot.bind (fun s => s.entryOf key)

/-- The value sequence of an optional entry, empty when there is none. -/
def valuesOf (e : Option entry) : Values :=
  match e with
  | none => []
  | some e => e.values

/-- The live value sequence for a key (`L`). -/
def Cache.liveValues (c : Cache) (key : String) : Tsm1.Values := valuesOf (c.liveEntry key)

/-- The sibling's value sequence for a key (`S`). -/
def Cache.snapshotValues (c : Cache) (key : String) : Tsm1.Values := valuesOf (c.snapshotEntry key)

/-- Invariant of an entry: when `needSort` is false the values are strictly
increasing by timestamp. -/
def entry.Inv (e : entry) : Prop := e.needSort = false → StrictlyIncreasing e.values

/-- Representation invariant of a store with its interning maps: no key is
bound twice, the interning maps are mutual inverses and cover exactly the ids
of the store, no id exceeds the counter, and an entry whose `needSort` is
false is strictly increasing. -/
structure MapsWF (store : List (OwnedStringID × entry))
    (forward : List (OwnedString × OwnedStringID))
    (reverse : List (OwnedStringID × OwnedString)) (acc : Nat) : Prop where
  nodupStore : (mapKeys store).Nodup
  nodupForward : (mapKeys forward).Nodup
  nodupReverse : (mapKeys reverse).Nodup
  inverse : ∀ k id, mapGet forward k = some id ↔ mapGet reverse id = some k
  covers : ∀ id, (mapGet store id).isSome ↔ (mapGet reverse id).isSome
  bound : ∀ id : Nat, (mapGet reverse id).isSome → id ≤ acc
  sorted : ∀ id e, mapGet store id = some e → e.Inv

/-- Representation invariant of a cache. -/
structure Cache.WF (c : Cache) : Prop where
  live : MapsWF c.store c.internedOwnedStrings c.internedOwnedStringsReverse c.ownedStringIDAcc
  sibling : ∀ s, c.snapshot = some s →
    MapsWF s.store s.internedOwnedStrings s.internedOwnedStringsReverse s.ownedStringIDAcc
  sizeBound : c.size < 18446744073709551616
  snapshotSizeBound : c.snapshotSize < 18446744073709551616
  maxSizeBound : c.maxSize < 18446744073709551616

/-- The fields of a cache that the store-level helpers (`write`, `entry`)
leave alone are the same in `c` and `c'`. -/
structure Cache.SameControl (c c' : Cache) : Prop where
  size : c'.size = c.size
  maxSize : c'.maxSize = c.maxSize
  snapshot : c'.snapshot = c.snapshot
  snapshotSize : c'.snapshotSize = c.snapshotSize
  snapshotting : c'.snapshotting = c.snapshotting
  snapshotAttempts : c'.snapshotAttempts = c.snapshotAttempts
  stats : c'.stats = c.stats

/-- What appending the batch `values` under `key` does to the live store. -/
structure Cache.Appended (c : Cache) (key : String) (values : Tsm1.Values) (c' : Cache) :
    Prop where
  entry : ∃ e', c'.liveEntry key = some e' ∧ e'.values = c.liveValues key ++ values
  others : ∀ k2, k2 ≠ key → c'.liveEntry k2 = c.liveEntry k2
  interned : ∃ id, mapGet c'.internedOwnedStrings key = some id ∧
    mapGet c'.internedOwnedStringsReverse id = some key ∧
    (∀ id0, mapGet c.internedOwnedStrings key = some id0 → id = id0) ∧
    (mapGet c.internedOwnedStrings key = none →
      id = c.ownedStringIDAcc + 1 ∧ mapGet c.store id = none ∧
      mapGet c.internedOwnedStringsReverse id = none ∧
      ∀ k2, mapGet c.internedOwnedStrings k2 ≠ some id)
  othersInterned : ∀ k2, k2 ≠ key →
    mapGet c'.internedOwnedStrings k2 = mapGet c.internedOwnedStrings k2
  wf : MapsWF c'.store c'.internedOwnedStrings c'.internedOwnedStringsReverse c'.ownedStringIDAcc
  control : c.SameControl c'

/-- The store after the entry of `key`, if there is one, was deduplicated in
place. -/
def dedupAt (store : List (OwnedStringID × entry))
    (forward : List (OwnedString × OwnedStringID)) (key : String) :
    List (OwnedStringID × entry) :=
  match mapGet forward key with
  | none => store
  | some id =>
    match mapGet store id with
    | none => store
    | some e => mapSet store id e.deduplicate

/-- The cache after the live entry and the sibling's entry of `key` were
deduplicated in place: the state a read of `key` leaves behind. -/
def Cache.dedupKey (c : Cache) (key : String) : Cache :=
  { c with
    store := dedupAt c.store c.internedOwnedStrings key
    snapshot := c.snapshot.map
      (fun s => { s with store := dedupAt s.store s.internedOwnedStrings key }) }

/-- The buffer `merged` builds from the entries it collected: empty when they
hold no value, else their concatenation, deduplicated when the copy loop found
a boundary that is not increasing. -/
def mergedBuffer (entries : List entry) : Values :=
  if ((entries.map entry.count).sum == 0) = true then []
  else if (mergeLoop false [] entries).1 = true then
    Values.Deduplicate (mergeLoop false [] entries).2
  else (mergeLoop false [] entries).2

/-- What `DeleteRange` leaves of an entry: the entry without the values in
the range, or nothing when no value remains. -/
def excludedEntry (min max : Int64) (e : entry) : Option entry :=
  if (e.filter min max).count = 0 then none else some (e.filter min max)

/-- The fields `DeleteRange` never writes are the same in `c` and `c'`. -/
structure Cache.SameSnapshot (c c' : Cache) : Prop where
  maxSize : c'.maxSize = c.maxSize
  snapshot : c'.snapshot = c.snapshot
  snapshotSize : c'.snapshotSize = c.snapshotSize
  snapshotting : c'.snapshotting = c.snapshotting
  snapshotAttempts : c'.snapshotAttempts = c.snapshotAttempts
  stats : c'.stats = c.stats

/-- What one round of `DeleteRange`, for the key `key`, does to the cache. -/
structure Cache.Excluded (c : Cache) (key : String) (min max : Int64) (c' : Cache) : Prop where
  entry : c'.liveEntry key = (c.liveEntry key).bind (excludedEntry min max)
  others : ∀ k2, k2 ≠ key → c'.liveEntry k2 = c.liveEntry k2
  othersInterned : ∀ k2, k2 ≠ key →
    mapGet c'.internedOwnedStrings k2 = mapGet c.internedOwnedStrings k2
  size : c'.size = uint64 ((c.size : Int)
    - (Values.Size ((c.liveValues key).filter (inRange min max)) : Int))
  wf : MapsWF c'.store c'.internedOwnedStrings c'.internedOwnedStringsReverse c'.ownedStringIDAcc
  control : c.SameSnapshot c'

/-- The footprint of the live values with a timestamp in `[min, max]` under
the keys of `keys`, each key counted once. -/
def Cache.removedSize (c : Cache) (keys : List String) (min max : Int64) : Nat :=
  ((keys.dedup).map (fun k => Values.Size ((c.liveValues k).filter (inRange min max)))).sum

/-- The key `Snapshot` files a live binding under: `c.internedOwnedStringsReverse[osId]`,
the zero string when the id is not bound. -/
def keyOf (reverse : List (OwnedStringID × OwnedString)) (osId : OwnedStringID) : OwnedString :=
  (mapGet reverse osId).getD ""

/-- Sum of the footprints of the entries of a store. -/
def storeSize (store : List (OwnedStringID × entry)) : Nat :=
  (store.map (fun p => p.2.size)).sum

/-- What a successful `Snapshot` that returns the sibling `s` does to the
cache. -/
structure Cache.Snapshotted (c c' : Cache) (s : SnapshotCache) : Prop where
  wf : c'.WF
  sibling : c'.snapshot = some s
  snapshotting : c'.snapshotting = true
  snapshotAttempts : c'.snapshotAttempts = c.snapshotAttempts + 1
  store : c'.store = []
  forward : c'.internedOwnedStrings = []
  reverse : c'.internedOwnedStringsReverse = []
  size : c'.size = 0
  maxSize : c'.maxSize = c.maxSize
  values : ∀ k, c'.snapshotValues k = c.snapshotValues k ++ c.liveValues k
  keys : ∀ k, (c'.snapshotEntry k).isSome ↔ ((c.snapshotEntry k).isSome ∨ (c.liveEntry k).isSome)
  snapshotSize : c'.snapshotSize = uint64 ((c.snapshotSize : Int) + (storeSize c.store : Int))

/-! ## Concrete values and states used in the examples -/

/-- A value with timestamp 1 and a footprint of 60 bytes. -/
def v60 : Value := ⟨⟨1, by decide⟩, 0, 60⟩

/-- Two values whose footprints add up to `2 ^ 64 - 60` bytes. -/
def bigA : Value := ⟨⟨1, by decide⟩, 0, 9223372036854775778⟩

/-- The second of the two large values. -/
def bigB : Value := ⟨⟨2, by decide⟩, 0, 9223372036854775778⟩

/-- An unbounded cache that took one write of `2 ^ 64 - 60` bytes and was then
given a budget of 100 bytes. -/
def overflowState : Cache :=
  (((NewCache 0 []).Write "a" [bigA, bigB]).map (fun r => r.1.SetMaxSize 100)).getD
    (NewCache 0 [])

/-- A cache with a budget of 100 bytes after one accepted write of 60 bytes. -/
def sixtyState : Cache :=
  (((NewCache 100 []).Write "k" [v60]).map Prod.fst).getD (NewCache 100 [])

/-- Values used in the snapshot examples. -/
def v1a : Value := ⟨⟨1, by decide⟩, 1, 10⟩

/-- A value with timestamp 5. -/
def v5a : Value := ⟨⟨5, by decide⟩, 2, 10⟩

/-- A later value with the same timestamp 5. -/
def v5b : Value := ⟨⟨5, by decide⟩, 7, 10⟩

/-- A value with timestamp 6. -/
def v6a : Value := ⟨⟨6, by decide⟩, 3, 10⟩

/-- A value with timestamp 10. -/
def v10a : Value := ⟨⟨10, by decide⟩, 4, 10⟩

/-- The cache after `Write("k", [(1,_),(5,_)])` on a fresh cache. -/
def writtenState : Cache :=
  (((NewCache 0 []).Write "k" [v1a, v5a]).map Prod.fst).getD (NewCache 0 [])

/-- The cache after `Write("k", [(1,_),(5,_)])` and `Snapshot()`. -/
def snapshotState : Cache :=
  (writtenState.Snapshot.map Prod.fst).getD (NewCache 0 [])

/-- The cache after `Write("k", [(1,_),(5,_)])`, `Snapshot()` and a second
`Write("k", [(5,_),(6,_)])`: the sibling and the live cache both hold `k`. -/
def handoffState : Cache :=
  ((snapshotState.Write "k" [v5b, v6a]).map Prod.fst).getD (NewCache 0 [])

/-- The cache after `Write("k", [(1,_),(5,_)])`, `Snapshot()` and
`ClearSnapshot(false)`: the sibling of the failed attempt is still held. -/
def failedState : Cache :=
  (snapshotState.ClearSnapshot false).getD (NewCache 0 [])

/-- The cache `failedState` after `Write("k", [])`: the live cache holds an
entry without values for `k`, the sibling an entry with two values. -/
def emptyBatchState : Cache :=
  ((failedState.Write "k" []).map Prod.fst).getD (NewCache 0 [])

/-- The cache `handoffState` after `ClearSnapshot(false)`: it holds the
sibling of a failed attempt (`k ↦ [1, 5]`) and new live data (`k ↦ [5, 6]`). -/
def retryState : Cache :=
  (handoffState.ClearSnapshot false).getD (NewCache 0 [])

/-- The cache after `Write("k", [(1,_),(5,_),(10,_)])` on a fresh cache, each
value with a footprint of 10 bytes. -/
def tripleState : Cache :=
  (((NewCache 0 []).Write "k" [v1a, v5a, v10a]).map Prod.fst).getD (NewCache 0 [])

/-! ## Entries on their own, statistics -/

/-- The calls that change an entry. -/
inductive EntryOp where
  | add (values : Values)
  | deduplicate
  | filter (min max : Int64)
deriving DecidableEq, Repr

/-- The entry after one call; `none` when the call panics. -/
def entry.apply (e : entry) : EntryOp → Option entry
  | EntryOp.add values => e.add values
  | EntryOp.deduplicate => some e.deduplicate
  | EntryOp.filter min max => some (e.filter min max)

/-- The entry after a sequence of calls; `none` when one of them panics. -/
def entry.run : entry → List EntryOp → Option entry
  | e, [] => some e
  | e, op :: ops =>
    match e.apply op with
    | none => none
    | some e1 => entry.run e1 ops

/-- Go's `statCacheMemoryBytes`, the name of the gauge documented as "Size of
in-memory cache in bytes". -/
def statCacheMemoryBytes : String := "memBytes"

/-- Go's `statCacheDiskBytes`. -/
def statCacheDiskBytes : String := "diskBytes"

/-- Go's `statSnapshots`. -/
def statSnapshots : String := "snapshotCount"

/-- Go's `statCachedBytes`. -/
def statCachedBytes : String := "cachedBytes"

/-- Go's `Cache.Statistics`: the `Values` map of the one statistic it returns,
without the name, the tags and the two fields driven by the clock. -/
def Cache.Statistics (c : Cache) : List (String × Int) :=
  [(statCacheMemoryBytes, c.stats.MemSizeBytes),
   (statCacheDiskBytes, c.stats.DiskSizeBytes),
   (statSnapshots, c.stats.SnapshotCount),
   (statCachedBytes, c.stats.CachedBytes)]

/-- A value with timestamp 0. -/
def vZero : Value := ⟨⟨0, by decide⟩, 1, 10⟩

/-- A value with timestamp -5. -/
def vMinus5 : Value := ⟨⟨-5, by decide⟩, 2, 10⟩

/-- A value with timestamp -3. -/
def vMinus3 : Value := ⟨⟨-3, by decide⟩, 3, 10⟩

/-- The cache `sixtyState` (one write of 60 bytes under `k`) after
`Delete(["k"])`. -/
def deletedState : Cache :=
  (sixtyState.Delete ["k"]).getD (NewCache 100 [])

/-! ## Keys -/

/-- Go's `sort.Strings`: the strings in ascending order. -/
def sortStrings (a : List String) : List String := a.insertionSort (· ≤ ·)

/-- Go's `Cache.Keys`.  The result has one slot per entry of the store and is
filled from the forward interning map; writing past its end panics, slots
that are not filled keep the zero string. -/
def Cache.Keys (c : Cache) : Option (List String) :=
  let n := c.store.length
  let keys := mapKeys c.internedOwnedStrings
  if keys.length ≤ n then some (sortStrings (keys ++ List.replicate (n - keys.length) ""))
  else none

/-! ## Entries that ask for a sort hold values -/

/-- An entry whose `needSort` is true holds at least one value. -/
def entry.Filled (e : entry) : Prop := e.needSort = true → e.values ≠ []

/-- Every entry of a store that asks for a sort holds values. -/
def StoreFilled (store : List (OwnedStringID × entry)) : Prop :=
  ∀ id e, mapGet store id = some e → e.Filled

/-- Every entry of the live store and of the sibling's store that asks for a
sort holds values. -/
def Cache.Filled (c : Cache) : Prop :=
  StoreFilled c.store ∧ ∀ s, c.snapshot = some s → StoreFilled s.store

/-! ## Reachability under a restriction on the calls -/

/-- The states a cache built by `NewCache` can be in after any sequence of
well-formed calls, none of which panicked, when every call satisfies
`allowed` in the state it is made in. -/
inductive ReachableVia (allowed : Cache → Op → Prop) : Cache → Prop where
  | init (maxSize : Nat) (arena : CacheLocalArena) : ReachableVia allowed (NewCache maxSize arena)
  | step {c c' : Cache} (op : Op) :
      ReachableVia allowed c → op.wellFormed → allowed c op → c.step op = some c' →
      ReachableVia allowed c'

/-- The calls that deduplicate live entries in place: a read of a key and
`Deduplicate`. -/
def Op.deduplicates : Op → Bool
  | Op.Values _ => true
  | Op.Deduplicate => true
  | _ => false

/-- The restriction to calls that do not deduplicate live entries. -/
def keepsEntries (_ : Cache) (op : Op) : Prop := op.deduplicates = false

/-- The footprint of the values a call hands to the cache. -/
def Op.added : Op → Nat
  | Op.Write _ values => Values.Size values
  | Op.WriteMulti values => (values.map (fun p => Values.Size p.2)).sum
  | _ => 0

/-- The restriction under which the budget is kept: the footprint held and
handed in stays below `2 ^ 64`, so that no addition of the admission check
wraps, and `SetMaxSize` does not set a positive budget below what is held. -/
def withinBudget (c : Cache) (op : Op) : Prop :=
  c.size + c.snapshotSize + op.added < 18446744073709551616 ∧
  match op with
  | Op.SetMaxSize size => uint64 size = 0 ∨ c.size + c.snapshotSize ≤ uint64 size
  | _ => True

instance (c : Cache) (op : Op) : Decidable (withinBudget c op) := by
  cases op <;> unfold withinBudget <;> infer_instance

/-- The cache after `Write("k", [(5,_),(1,_),(5,_)])` and a read of `k`, each
value with a footprint of 10 bytes. -/
def shrunkState : Cache :=
  ((NewCache 0 []).run [Op.Write "k" [v5a, v1a, v5b], Op.Values "k"]).getD (NewCache 0 [])

/-- The cache `sixtyState` (budget 100, 60 bytes held) after `SetMaxSize(10)`. -/
def loweredState : Cache := sixtyState.SetMaxSize 10

/-! ## Ranges of timestamps -/

/-- The smaller of two timestamps. -/
def min64 (a c : Int64) : Int64 := if a.val ≤ c.val then a else c

/-- The greater of two timestamps. -/
def max64 (b d : Int64) : Int64 := if b.val ≤ d.val then d else b

/-- The closed ranges `[a, b]` and `[c, d]` are not empty and overlap or are
adjacent: no timestamp lies strictly between them. -/
def rangesTouch (a b c d : Int64) : Prop :=
  a.val ≤ b.val ∧ c.val ≤ d.val ∧ c.val ≤ b.val + 1 ∧ a.val ≤ d.val + 1

instance (a b c d : Int64) : Decidable (rangesTouch a b c d) := by
  unfold rangesTouch; infer_instance

/-! ## Reference counts -/

/-- The reference count the arena keeps for a key, zero when the arena does
not hold the key. -/
def refcount (a : CacheLocalArena) (k : OwnedString) : Nat := (mapGet a k).getD 0

/-- One when the forward interning map binds the key, else zero. -/
def holds (forward : List (OwnedString × OwnedStringID)) (k : OwnedString) : Nat :=
  if (mapGet forward k).isSome then 1 else 0

/-- The number of caches, among the live cache and the sibling, whose forward
interning map binds the key. -/
def Cache.holders (c : Cache) (k : OwnedString) : Nat :=
  holds c.internedOwnedStrings k +
    (match c.snapshot with
     | none => 0
     | some s => holds s.internedOwnedStrings k)

/-- Every key has a reference count of at least the number of caches that
hold it. -/
def Cache.Counted (c : Cache) : Prop := ∀ k, c.holders k ≤ refcount c.arena k

/-! ## Restrictions used for the snapshot flag and for the size bound -/

/-- The restriction to calls other than `ClearSnapshot(false)`. -/
def noFailedClear (_ : Cache) (op : Op) : Prop := op ≠ Op.ClearSnapshot false

instance (c : Cache) (op : Op) : Decidable (noFailedClear c op) := by
  unfold noFailedClear; infer_instance

/-- The restriction under which the addition to `size` in `Write` and
`WriteMulti` does not wrap: the footprint booked plus the footprint handed in
stays below `2 ^ 64`. -/
def noWrap (c : Cache) (op : Op) : Prop := c.size + op.added < 18446744073709551616

instance (c : Cache) (op : Op) : Decidable (noWrap c op) := by
  unfold noWrap; infer_instance

/-- The cache `overflowState` (`size = 2 ^ 64 - 60`) after the accepted
`Write("k", 60 bytes)`, whose addition to `size` wraps to zero. -/
def wrappedState : Cache :=
  ((overflowState.Write "k" [v60]).map Prod.fst).getD (NewCache 0 [])

/-! ### Facts about the value sequence primitives -/

theorem lastAt_cons_of_some {t : Int} {v x : Value} {vs : Values} (h : lastAt t vs = some x) :
    lastAt t (v :: vs) = some x := by
  simp [lastAt, h, Option.or]

theorem lastAt_cons_of_none {t : Int} {v : Value} {vs : Values} (h : lastAt t vs = none) :
    lastAt t (v :: vs) = if v.ts = t then some v else none := by
  simp [lastAt, h, Option.or]

theorem lastAt_append (t : Int) (a b : Values) :
    lastAt t (a ++ b) = (lastAt t b).or (lastAt t a) := by
  induction a with
  | nil => rw [List.nil_append]; cases lastAt t b <;> rfl
  | cons v vs ih =>
    show (lastAt t (vs ++ b)).or _ = _
    rw [ih]
    show _ = (lastAt t b).or ((lastAt t vs).or _)
    cases lastAt t b <;> cases lastAt t vs <;> rfl

theorem lastAt_ts {t : Int} {a : Values} {v : Value} (h : lastAt t a = some v) :
    v.ts = t ∧ v ∈ a := by
  induction a with
  | nil => simp [lastAt] at h
  | cons w ws ih =>
    cases hw : lastAt t ws with
    | some x =>
      rw [lastAt_cons_of_some hw] at h
      cases h
      exact ⟨(ih hw).1, List.mem_cons_of_mem _ (ih hw).2⟩
    | none =>
      rw [lastAt_cons_of_none hw] at h
      by_cases hv : w.ts = t
      · simp [hv] at h; subst h; exact ⟨hv, List.mem_cons_self _ _⟩
      · simp [hv] at h

theorem lastAt_eq_none {t : Int} {a : Values} :
    lastAt t a = none ↔ ∀ v ∈ a, v.ts ≠ t := by
  induction a with
  | nil => simp [lastAt]
  | cons w ws ih =>
    cases hw : lastAt t ws with
    | some x =>
      rw [lastAt_cons_of_some hw]
      simp only [false_iff, reduceCtorEq]
      intro hall
      exact absurd (lastAt_ts hw).1 (hall x (List.mem_cons_of_mem _ (lastAt_ts hw).2))
    | none =>
      rw [lastAt_cons_of_none hw]
      have := ih.mp hw
      by_cases hv : w.ts = t
      · simp [hv]
      · simp only [hv, if_false, true_iff]
        intro y hy
        rcases List.mem_cons.mp hy with rfl | hy
        · exact hv
        · exact this y hy

theorem lastAt_isSome {t : Int} {a : Values} :
    (lastAt t a).isSome ↔ ∃ v ∈ a, v.ts = t := by
  rw [← not_iff_not]
  simp only [Bool.not_eq_true, Option.not_isSome, Option.isNone_iff_eq_none, not_exists, not_and]
  exact lastAt_eq_none

theorem mem_insertValue {v x : Value} {a : Values} (h : x ∈ insertValue v a) :
    x = v ∨ x ∈ a := by
  induction a with
  | nil => simp [insertValue] at h; exact Or.inl h
  | cons w ws ih =>
    simp only [insertValue] at h
    split_ifs at h with h1 h2
    · simp only [List.mem_cons] at h ⊢; tauto
    · simp only [List.mem_cons] at h ⊢; tauto
    · simp only [List.mem_cons] at h ⊢
      rcases h with h | h
      · tauto
      · rcases ih h with h | h <;> tauto

theorem insertValue_increasing (v : Value) {a : Values} (h : StrictlyIncreasing a) :
    StrictlyIncreasing (insertValue v a) := by
  unfold StrictlyIncreasing at *
  induction a with
  | nil => simp [insertValue]
  | cons w ws ih =>
    rw [List.pairwise_cons] at h
    simp only [insertValue]
    split_ifs with h1 h2
    · refine List.pairwise_cons.mpr ⟨?_, List.pairwise_cons.mpr h⟩
      intro y hy
      rcases List.mem_cons.mp hy with rfl | hy
      · exact h1
      · exact lt_trans h1 (h.1 y hy)
    · refine List.pairwise_cons.mpr ⟨?_, h.2⟩
      intro y hy
      rw [h2]; exact h.1 y hy
    · refine List.pairwise_cons.mpr ⟨?_, ih h.2⟩
      intro y hy
      rcases mem_insertValue hy with rfl | hy
      · omega
      · exact h.1 y hy

theorem lastAt_of_increasing_cons {t : Int} {w : Value} {ws : Values}
    (h : StrictlyIncreasing (w :: ws)) (hw : w.ts = t) : lastAt t ws = none := by
  rw [lastAt_eq_none]
  intro v hv
  have := (List.pairwise_cons.mp h).1 v hv
  omega

theorem lastAt_cons_of_increasing {t : Int} {w : Value} {ws : Values}
    (h : StrictlyIncreasing (w :: ws)) (hw : w.ts = t) : lastAt t (w :: ws) = some w := by
  rw [lastAt_cons_of_none (lastAt_of_increasing_cons h hw)]; simp [hw]

theorem lastAt_cons_of_ne {t : Int} {w : Value} {ws : Values} (hw : w.ts ≠ t) :
    lastAt t (w :: ws) = lastAt t ws := by
  cases h : lastAt t ws with
  | some x => exact lastAt_cons_of_some h
  | none => rw [lastAt_cons_of_none h]; simp [hw]

theorem lastAt_insertValue (t : Int) (v : Value) {a : Values} (h : StrictlyIncreasing a) :
    lastAt t (insertValue v a) = if v.ts = t then some v else lastAt t a := by
  induction a with
  | nil => by_cases hvt : v.ts = t <;> simp [insertValue, lastAt, Option.or, hvt]
  | cons w ws ih =>
    have hws : StrictlyIncreasing ws := (List.pairwise_cons.mp h).2
    have hlt : ∀ y ∈ ws, w.ts < y.ts := (List.pairwise_cons.mp h).1
    have hinc := insertValue_increasing v h
    simp only [insertValue] at hinc ⊢
    split_ifs at hinc ⊢ with h1 hvt h2 hvt hvt
    · exact lastAt_cons_of_increasing hinc hvt
    · exact lastAt_cons_of_ne hvt
    · exact lastAt_cons_of_increasing hinc hvt
    · rw [lastAt_cons_of_ne hvt, lastAt_cons_of_ne (by omega)]
    · rw [lastAt_cons_of_ne (by omega), ih hws, if_pos hvt]
    · by_cases hwt : w.ts = t
      · rw [lastAt_cons_of_increasing h hwt, lastAt_cons_of_increasing hinc hwt]
      · rw [lastAt_cons_of_ne hwt, lastAt_cons_of_ne hwt, ih hws, if_neg hvt]

theorem foldl_insertValue_increasing (b : Values) {acc : Values} (h : StrictlyIncreasing acc) :
    StrictlyIncreasing (b.foldl (fun acc v => insertValue v acc) acc) := by
  induction b generalizing acc with
  | nil => exact h
  | cons v vs ih => exact ih (insertValue_increasing v h)

theorem lastAt_foldl_insertValue (t : Int) (b : Values) {acc : Values}
    (h : StrictlyIncreasing acc) :
    lastAt t (b.foldl (fun acc v => insertValue v acc) acc)
      = (lastAt t b).or (lastAt t acc) := by
  induction b generalizing acc with
  | nil => simp [lastAt]
  | cons v vs ih =>
    rw [List.foldl_cons, ih (insertValue_increasing v h), lastAt_insertValue t v h]
    show _ = ((lastAt t vs).or _).or _
    cases lastAt t vs <;> by_cases hv : v.ts = t <;> simp [hv, Option.or]

/-- The result of `Deduplicate` is strictly increasing by timestamp. -/
theorem Deduplicate_increasing (a : Values) : StrictlyIncreasing (Values.Deduplicate a) :=
  foldl_insertValue_increasing a List.Pairwise.nil

/-- Under every timestamp `Deduplicate` keeps the value that arrived last. -/
theorem lastAt_Deduplicate (t : Int) (a : Values) :
    lastAt t (Values.Deduplicate a) = lastAt t a := by
  unfold Values.Deduplicate
  rw [lastAt_foldl_insertValue t a List.Pairwise.nil]
  cases lastAt t a <;> simp [lastAt, Option.or]

/-- The model of `Deduplicate` on the first scenario of the spec: the batch
`[(3,_),(1,_),(2,_),(1,_)]` becomes `[(1,_),(2,_),(3,_)]` with the value
written last at timestamp 1. -/
theorem Deduplicate_scenario :
    Values.Deduplicate [⟨⟨3, by decide⟩, 3, 16⟩, ⟨⟨1, by decide⟩, 1, 16⟩,
        ⟨⟨2, by decide⟩, 2, 16⟩, ⟨⟨1, by decide⟩, 9, 16⟩]
      = [⟨⟨1, by decide⟩, 9, 16⟩, ⟨⟨2, by decide⟩, 2, 16⟩, ⟨⟨3, by decide⟩, 3, 16⟩] := by
  decide

/-- A strictly increasing sequence is determined by the value it holds under
each timestamp. -/
theorem increasing_ext {a b : Values} (ha : StrictlyIncreasing a) (hb : StrictlyIncreasing b)
    (h : ∀ t, lastAt t a = lastAt t b) : a = b := by
  induction a generalizing b with
  | nil =>
    cases b with
    | nil => rfl
    | cons w ws =>
      have := h w.ts
      rw [lastAt_cons_of_increasing hb rfl] at this
      simp [lastAt] at this
  | cons v vs ih =>
    cases b with
    | nil =>
      have := h v.ts
      rw [lastAt_cons_of_increasing ha rfl] at this
      simp [lastAt] at this
    | cons w ws =>
      have hvs := List.pairwise_cons.mp ha
      have hws := List.pairwise_cons.mp hb
      have hv := h v.ts
      have hw := h w.ts
      rw [lastAt_cons_of_increasing ha rfl] at hv
      rw [lastAt_cons_of_increasing hb rfl] at hw
      have hvw : v = w := by
        have h1 := lastAt_ts hv.symm
        have h2 := lastAt_ts hw
        rcases List.mem_cons.mp h1.2 with e | m1
        · exact e
        · rcases List.mem_cons.mp h2.2 with e | m2
          · exact e.symm
          · have := hws.1 v m1
            have := hvs.1 w m2
            omega
      subst hvw
      congr 1
      apply ih hvs.2 hws.2
      intro t
      have ht := h t
      by_cases hvt : v.ts = t
      · rw [lastAt_of_increasing_cons ha hvt, lastAt_of_increasing_cons hb hvt]
      · rwa [lastAt_cons_of_ne hvt, lastAt_cons_of_ne hvt] at ht

theorem Deduplicate_of_increasing {a : Values} (h : StrictlyIncreasing a) :
    Values.Deduplicate a = a :=
  increasing_ext (Deduplicate_increasing a) h (fun t => lastAt_Deduplicate t a)


/-! ### Facts about maps -/

section MapFacts
variable {κ β : Type} [DecidableEq κ]

theorem mapGet_mapSet_self (m : List (κ × β)) (k : κ) (v : β) :
    mapGet (mapSet m k v) k = some v := by
  induction m with
  | nil => simp [mapSet, mapGet]
  | cons p m ih =>
    obtain ⟨k', v'⟩ := p
    by_cases h : k' = k <;> simp [mapSet, mapGet, h, ih]

theorem mapGet_mapSet_of_ne (m : List (κ × β)) {k k2 : κ} (v : β) (h : k ≠ k2) :
    mapGet (mapSet m k v) k2 = mapGet m k2 := by
  induction m with
  | nil => simp [mapSet, mapGet, h]
  | cons p m ih =>
    obtain ⟨k', v'⟩ := p
    by_cases h1 : k' = k
    · subst h1; simp [mapSet, mapGet, h]
    · by_cases h2 : k' = k2
      · subst h2; simp [mapSet, mapGet, h1]
      · simp [mapSet, mapGet, h1, h2, ih]

theorem mapGet_mapSet (m : List (κ × β)) (k k2 : κ) (v : β) :
    mapGet (mapSet m k v) k2 = if k = k2 then some v else mapGet m k2 := by
  by_cases h : k = k2
  · subst h; simp [mapGet_mapSet_self]
  · simp [h, mapGet_mapSet_of_ne]

theorem mapGet_mapDelete (m : List (κ × β)) (k k2 : κ) :
    mapGet (mapDelete m k) k2 = if k = k2 then none else mapGet m k2 := by
  induction m with
  | nil => simp [mapDelete, mapGet]
  | cons p m ih =>
    obtain ⟨k', v'⟩ := p
    unfold mapDelete at ih ⊢
    by_cases h1 : k' = k
    · subst h1
      by_cases h2 : k' = k2
      · simp [List.filter, h2] at ih ⊢; simpa [h2] using ih
      · have h3 : ¬ k2 = k' := fun e => h2 e.symm
        simp [List.filter, mapGet, h2] at ih ⊢; simpa [h2] using ih
    · by_cases h2 : k = k2
      · subst h2; simp [List.filter, mapGet, h1] at ih ⊢; simpa using ih
      · simp [List.filter, mapGet, h1, h2] at ih ⊢
        by_cases h3 : k' = k2 <;> simp [h3]
        simpa [h2] using ih

theorem mapGet_isSome_iff_mem_keys (m : List (κ × β)) (k : κ) :
    (mapGet m k).isSome ↔ k ∈ mapKeys m := by
  induction m with
  | nil => simp [mapGet, mapKeys]
  | cons p m ih =>
    obtain ⟨k', v'⟩ := p
    unfold mapKeys at ih ⊢
    by_cases h : k' = k
    · simp [mapGet, h]
    · have h2 : ¬ k = k' := fun e => h e.symm
      simp [mapGet, h, h2, ih]

theorem mapGet_eq_none_iff (m : List (κ × β)) (k : κ) :
    mapGet m k = none ↔ k ∉ mapKeys m := by
  rw [← mapGet_isSome_iff_mem_keys]
  cases mapGet m k <;> simp

theorem mem_of_mapGet {m : List (κ × β)} {k : κ} {v : β} (h : mapGet m k = some v) :
    (k, v) ∈ m := by
  induction m with
  | nil => simp [mapGet] at h
  | cons p m ih =>
    obtain ⟨k', v'⟩ := p
    by_cases h1 : k' = k
    · simp [mapGet, h1] at h; simp [h1, h]
    · simp [mapGet, h1] at h; exact List.mem_cons_of_mem _ (ih h)

theorem mapGet_of_mem {m : List (κ × β)} {k : κ} {v : β} (hn : (mapKeys m).Nodup)
    (h : (k, v) ∈ m) : mapGet m k = some v := by
  induction m with
  | nil => simp at h
  | cons p m ih =>
    obtain ⟨k', v'⟩ := p
    simp only [mapKeys, List.map_cons, List.nodup_cons] at hn
    rcases List.mem_cons.mp h with e | hm
    · cases e; simp [mapGet]
    · have : k' ≠ k := by
        rintro rfl
        exact hn.1 (List.mem_map.mpr ⟨(k', v), hm, rfl⟩)
      simp only [mapGet, this, if_false]
      exact ih hn.2 hm

theorem mapKeys_mapSet_of_mem (m : List (κ × β)) {k : κ} (v : β) (h : k ∈ mapKeys m) :
    mapKeys (mapSet m k v) = mapKeys m := by
  induction m with
  | nil => simp [mapKeys] at h
  | cons p m ih =>
    obtain ⟨k', v'⟩ := p
    by_cases h1 : k' = k
    · simp [mapSet, mapKeys, h1]
    · have : k ∈ mapKeys m := by
        simp only [mapKeys, List.map_cons, List.mem_cons] at h
        rcases h with h | h
        · exact absurd h.symm h1
        · exact h
      simp only [mapSet, h1, if_false, mapKeys, List.map_cons]
      exact congrArg _ (ih this)

theorem mapKeys_mapSet_of_not_mem (m : List (κ × β)) {k : κ} (v : β) (h : k ∉ mapKeys m) :
    mapKeys (mapSet m k v) = mapKeys m ++ [k] := by
  induction m with
  | nil => simp [mapKeys, mapSet]
  | cons p m ih =>
    obtain ⟨k', v'⟩ := p
    simp only [mapKeys, List.map_cons, List.mem_cons, not_or] at h
    have h1 : ¬ k' = k := fun e => h.1 e.symm
    simp only [mapSet, h1, if_false, mapKeys, List.map_cons, List.cons_append]
    exact congrArg _ (ih h.2)

theorem nodup_mapSet {m : List (κ × β)} (k : κ) (v : β) (h : (mapKeys m).Nodup) :
    (mapKeys (mapSet m k v)).Nodup := by
  by_cases hk : k ∈ mapKeys m
  · rw [mapKeys_mapSet_of_mem m v hk]; exact h
  · rw [mapKeys_mapSet_of_not_mem m v hk]
    exact List.Nodup.append h (List.nodup_singleton k) (by simpa using hk)

theorem nodup_mapDelete {m : List (κ × β)} (k : κ) (h : (mapKeys m).Nodup) :
    (mapKeys (mapDelete m k)).Nodup := by
  unfold mapKeys mapDelete at *
  exact (List.Nodup.sublist (List.Sublist.map _ (List.filter_sublist m)) h)

end MapFacts


/-! ### Facts about entries -/

theorem addNeedSort_false {prevTime : Int} {values : Values}
    (h : addNeedSort prevTime values = false) :
    StrictlyIncreasing values ∧ ∀ x ∈ values, prevTime < x.ts := by
  induction values generalizing prevTime with
  | nil => exact ⟨List.Pairwise.nil, by simp⟩
  | cons v vs ih =>
    simp only [addNeedSort] at h
    split_ifs at h with h1
    have := ih h
    refine ⟨List.pairwise_cons.mpr ⟨this.2, this.1⟩, ?_⟩
    intro x hx
    rcases List.mem_cons.mp hx with rfl | hx
    · omega
    · have := this.2 x hx; omega

theorem increasing_append {a b : Values} (ha : StrictlyIncreasing a) (hb : StrictlyIncreasing b)
    (h : ∀ x ∈ a.getLast?, ∀ y ∈ b.head?, x.ts < y.ts) : StrictlyIncreasing (a ++ b) := by
  unfold StrictlyIncreasing at *
  rw [List.pairwise_append]
  refine ⟨ha, hb, ?_⟩
  intro x hx y hy
  cases b with
  | nil => simp at hy
  | cons y0 ys =>
    have hlast : ∃ l, a.getLast? = some l := by
      cases hl : a.getLast? with
      | none => rw [List.getLast?_eq_none_iff] at hl; subst hl; simp at hx
      | some l => exact ⟨l, rfl⟩
    obtain ⟨l, hl⟩ := hlast
    have h1 : l.ts < y0.ts := h l (by simp [hl]) y0 (by simp)
    have h2 : x.ts ≤ l.ts := by
      obtain ⟨a', rfl⟩ : ∃ a', a = a' ++ [l] := by
        have hne : a ≠ [] := by rintro rfl; simp at hx
        refine ⟨a.dropLast, ?_⟩
        have := List.dropLast_append_getLast? l (by simpa using hl)
        exact this.symm
      rw [List.pairwise_append] at ha
      rcases List.mem_append.mp hx with hx | hx
      · exact le_of_lt (ha.2.2 x hx l (by simp))
      · simp at hx; subst hx; exact le_refl _
    have h3 : y0.ts ≤ y.ts := by
      rcases List.mem_cons.mp hy with rfl | hy
      · exact le_refl _
      · exact le_of_lt ((List.pairwise_cons.mp hb).1 y hy)
    omega

theorem entry.add_values {e e' : entry} {values : Values} (h : e.add values = some e') :
    e'.values = e.values ++ values := by
  unfold entry.add at h
  have hv : (if addNeedSort 0 values = true then
      ({ e with needSort := addNeedSort 0 values } : entry) else e).values = e.values := by
    split_ifs <;> rfl
  simp only at h
  cases hl : (if addNeedSort 0 values = true then
      ({ e with needSort := addNeedSort 0 values } : entry) else e).values.getLast? with
  | none =>
    rw [hl] at h
    simp only [Option.some.injEq] at h
    rw [hv, List.getLast?_eq_none_iff] at hl
    subst h; simp [hl]
  | some last =>
    rw [hl] at h
    cases values with
    | nil => simp at h
    | cons v0 vs =>
      simp only [Option.some.injEq] at h
      subst h
      simp only
      split_ifs <;> simp_all

theorem entry.add_isSome (e : entry) (values : Values) (h : values ≠ [] ∨ e.values = []) :
    ∃ e', e.add values = some e' := by
  unfold entry.add
  have hv : (if addNeedSort 0 values = true then
      ({ e with needSort := addNeedSort 0 values } : entry) else e).values = e.values := by
    split_ifs <;> rfl
  simp only
  cases hl : (if addNeedSort 0 values = true then
      ({ e with needSort := addNeedSort 0 values } : entry) else e).values.getLast? with
  | none => exact ⟨_, rfl⟩
  | some last =>
    cases values with
    | nil =>
      rcases h with h | h
      · exact absurd rfl h
      · rw [hv, h] at hl; simp at hl
    | cons v0 vs => exact ⟨_, rfl⟩

theorem entry.add_none {e : entry} {values : Values} (h : e.add values = none) :
    values = [] ∧ e.values ≠ [] := by
  by_contra hc
  have : values ≠ [] ∨ e.values = [] := by
    by_cases h1 : values = []
    · right; by_contra h2; exact hc ⟨h1, h2⟩
    · left; exact h1
  obtain ⟨e', he⟩ := entry.add_isSome e values this
  rw [h] at he; cases he

theorem entry.add_inv {e e' : entry} {values : Values} (hinv : e.Inv)
    (h : e.add values = some e') : e'.Inv := by
  unfold entry.add at h
  unfold entry.Inv at *
  simp only at h
  by_cases hns : addNeedSort 0 values = true
  · -- the batch itself asks for a sort: the flag is set
    simp only [hns, if_true] at h
    cases hl : e.values.getLast? with
    | none =>
      rw [hl] at h; simp only [Option.some.injEq] at h; subst h; simp
    | some last =>
      rw [hl] at h
      cases values with
      | nil => simp at h
      | cons v0 vs =>
        simp only [Option.some.injEq] at h
        subst h
        split_ifs <;> simp
  · have hns' : addNeedSort 0 values = false := by simpa using hns
    have hb := (addNeedSort_false hns').1
    simp only [hns', if_false, Bool.false_eq_true] at h
    cases hl : e.values.getLast? with
    | none =>
      rw [hl] at h; simp only [Option.some.injEq] at h; subst h
      intro _; exact hb
    | some last =>
      rw [hl] at h
      cases values with
      | nil => simp at h
      | cons v0 vs =>
        simp only [Option.some.injEq] at h
        subst h
        by_cases hge : last.ts ≥ v0.ts
        · simp [hge]
        · simp only [hge, if_false]
          intro hf
          refine increasing_append (hinv hf) hb ?_
          intro x hx y hy
          simp only [hl, Option.mem_def, Option.some.injEq] at hx
          simp only [List.head?_cons, Option.mem_def, Option.some.injEq] at hy
          subst hx; subst hy; omega

theorem entry.deduplicate_inv {e : entry} (hinv : e.Inv) : e.deduplicate.Inv := by
  unfold entry.deduplicate entry.Inv at *
  split_ifs with h
  · exact hinv
  · intro _; exact Deduplicate_increasing _

theorem entry.deduplicate_values {e : entry} (hinv : e.Inv) :
    e.deduplicate.values = Values.Deduplicate e.values := by
  unfold entry.deduplicate entry.Inv at *
  split_ifs with h
  · simp only [Bool.or_eq_true, Bool.not_eq_true', beq_iff_eq, List.length_eq_zero] at h
    rcases h with h | h
    · exact (Deduplicate_of_increasing (hinv h)).symm
    · rw [h]; rfl
  · rfl

theorem entry.deduplicate_increasing {e : entry} (hinv : e.Inv) :
    StrictlyIncreasing e.deduplicate.values := by
  rw [entry.deduplicate_values hinv]; exact Deduplicate_increasing _

theorem Exclude_increasing {a : Values} (min max : Int64) (h : StrictlyIncreasing a) :
    StrictlyIncreasing (Values.Exclude a min max) :=
  List.Pairwise.filter _ h

theorem entry.filter_inv {e : entry} (min max : Int64) (hinv : e.Inv) :
    (e.filter min max).Inv := by
  unfold entry.filter entry.Inv at *
  intro h; exact Exclude_increasing min max (hinv h)


/-! ### Facts about the representation invariant -/

theorem mapGet_map_snd {κ β γ : Type} [DecidableEq κ] (m : List (κ × β)) (f : β → γ) (k : κ) :
    mapGet (m.map (fun p => (p.1, f p.2))) k = (mapGet m k).map f := by
  induction m with
  | nil => simp [mapGet]
  | cons p m ih =>
    obtain ⟨k', v'⟩ := p
    by_cases h : k' = k <;> simp [mapGet, h, ih]

theorem mapKeys_map_snd {κ β γ : Type} (m : List (κ × β)) (f : β → γ) :
    mapKeys (m.map (fun p => (p.1, f p.2))) = mapKeys m := by
  unfold mapKeys
  rw [List.map_map]
  rfl

theorem MapsWF.empty_wf (acc : Nat) : MapsWF [] [] [] acc where
  nodupStore := List.nodup_nil
  nodupForward := List.nodup_nil
  nodupReverse := List.nodup_nil
  inverse := by intro k id; simp [mapGet]
  covers := by intro id; simp [mapGet]
  bound := by intro id h; simp [mapGet] at h
  sorted := by intro id e h; simp [mapGet] at h

section MapsWFFacts
variable {store : List (OwnedStringID × entry)} {forward : List (OwnedString × OwnedStringID)}
  {reverse : List (OwnedStringID × OwnedString)} {acc : Nat}

theorem MapsWF.forward_injective (h : MapsWF store forward reverse acc) {k1 k2 : String}
    {id : OwnedStringID} (h1 : mapGet forward k1 = some id) (h2 : mapGet forward k2 = some id) :
    k1 = k2 := by
  have a := (h.inverse k1 id).mp h1
  have b := (h.inverse k2 id).mp h2
  rw [a] at b
  exact Option.some.inj b

theorem MapsWF.store_isSome (h : MapsWF store forward reverse acc) {k : String}
    {id : OwnedStringID} (h1 : mapGet forward k = some id) : ∃ e, mapGet store id = some e := by
  have a := (h.inverse k id).mp h1
  have b := (h.covers id).mpr (by simp [a])
  exact Option.isSome_iff_exists.mp b

theorem MapsWF.fresh (h : MapsWF store forward reverse acc) :
    mapGet store (acc + 1) = none ∧ mapGet reverse (acc + 1) = none := by
  have hr : mapGet reverse (acc + 1) = none := by
    cases hg : mapGet reverse (acc + 1) with
    | none => rfl
    | some k => exact absurd (h.bound (acc + 1) (by simp [hg])) (Nat.not_succ_le_self acc)
  refine ⟨?_, hr⟩
  cases hg : mapGet store (acc + 1) with
  | none => rfl
  | some e =>
    have := (h.covers (acc + 1)).mp (by simp [hg])
    simp [hr] at this

theorem MapsWF.setEntry (h : MapsWF store forward reverse acc) {id : OwnedStringID}
    {e' : entry} (hid : (mapGet store id).isSome) (he : e'.Inv) :
    MapsWF (mapSet store id e') forward reverse acc where
  nodupStore := nodup_mapSet id e' h.nodupStore
  nodupForward := h.nodupForward
  nodupReverse := h.nodupReverse
  inverse := h.inverse
  covers := by
    intro id2
    rw [mapGet_mapSet]
    by_cases hh : id = id2
    · subst hh; simp only [if_true, Option.isSome_some, true_iff]
      exact (h.covers id).mp hid
    · simp only [hh, if_false]; exact h.covers id2
  bound := h.bound
  sorted := by
    intro id2 e2 hg
    rw [mapGet_mapSet] at hg
    by_cases hh : id = id2
    · simp only [hh, if_true, Option.some.injEq] at hg; subst hg; exact he
    · simp only [hh, if_false] at hg; exact h.sorted id2 e2 hg

theorem MapsWF.insertFresh (h : MapsWF store forward reverse acc) {k : String} {e : entry}
    (hk : mapGet forward k = none) (he : e.Inv) :
    MapsWF (mapSet store (acc + 1) e) (mapSet forward k (acc + 1))
      (mapSet reverse (acc + 1) k) (acc + 1) where
  nodupStore := nodup_mapSet _ _ h.nodupStore
  nodupForward := nodup_mapSet _ _ h.nodupForward
  nodupReverse := nodup_mapSet _ _ h.nodupReverse
  inverse := by
    intro k2 id2
    rw [mapGet_mapSet, mapGet_mapSet]
    by_cases h1 : k = k2
    · subst h1
      by_cases h2 : acc + 1 = id2
      · simp [h2]
      · simp only [if_true, Option.some.injEq, h2, if_false, false_iff]
        intro hc
        have := (h.inverse k id2).mpr hc
        rw [hk] at this; cases this
    · by_cases h2 : acc + 1 = id2
      · subst h2
        simp only [h1, if_false, if_true, Option.some.injEq, iff_false]
        intro hc
        have := (h.inverse k2 (acc + 1)).mp hc
        rw [h.fresh.2] at this; cases this
      · simp only [h1, h2, if_false]; exact h.inverse k2 id2
  covers := by
    intro id2
    rw [mapGet_mapSet, mapGet_mapSet]
    by_cases h2 : acc + 1 = id2
    · simp [h2]
    · simp only [h2, if_false]; exact h.covers id2
  bound := by
    intro id2 hs
    rw [mapGet_mapSet] at hs
    by_cases h2 : acc + 1 = id2
    · exact Nat.le_of_eq h2.symm
    · simp only [h2, if_false] at hs
      exact Nat.le_succ_of_le (h.bound id2 hs)
  sorted := by
    intro id2 e2 hg
    rw [mapGet_mapSet] at hg
    by_cases hh : acc + 1 = id2
    · simp only [hh, if_true, Option.some.injEq] at hg; subst hg; exact he
    · simp only [hh, if_false] at hg; exact h.sorted id2 e2 hg

theorem MapsWF.delete_wf (h : MapsWF store forward reverse acc) {k : String} {id : OwnedStringID}
    (hk : mapGet forward k = some id) :
    MapsWF (mapDelete store id) (mapDelete forward k) (mapDelete reverse id) acc where
  nodupStore := nodup_mapDelete _ h.nodupStore
  nodupForward := nodup_mapDelete _ h.nodupForward
  nodupReverse := nodup_mapDelete _ h.nodupReverse
  inverse := by
    intro k2 id2
    rw [mapGet_mapDelete, mapGet_mapDelete]
    by_cases h1 : k = k2
    · subst h1
      by_cases h2 : id = id2
      · simp [h2]
      · simp only [if_true, h2, if_false, false_iff, reduceCtorEq]
        intro hc
        have := (h.inverse k id2).mpr hc
        rw [hk] at this; exact h2 (Option.some.inj this)
    · by_cases h2 : id = id2
      · subst h2
        simp only [h1, if_false, if_true, iff_false, reduceCtorEq]
        intro hc
        exact h1 (h.forward_injective hk hc)
      · simp only [h1, h2, if_false]; exact h.inverse k2 id2
  covers := by
    intro id2
    rw [mapGet_mapDelete, mapGet_mapDelete]
    by_cases h2 : id = id2
    · simp [h2]
    · simp only [h2, if_false]; exact h.covers id2
  bound := by
    intro id2 hs
    rw [mapGet_mapDelete] at hs
    by_cases h2 : id = id2
    · simp [h2] at hs
    · simp only [h2, if_false] at hs; exact h.bound id2 hs
  sorted := by
    intro id2 e2 hg
    rw [mapGet_mapDelete] at hg
    by_cases hh : id = id2
    · simp [hh] at hg
    · simp only [hh, if_false] at hg; exact h.sorted id2 e2 hg

theorem MapsWF.mapEntries (h : MapsWF store forward reverse acc) (f : entry → entry)
    (hf : ∀ e, e.Inv → (f e).Inv) :
    MapsWF (store.map (fun p => (p.1, f p.2))) forward reverse acc where
  nodupStore := by rw [mapKeys_map_snd]; exact h.nodupStore
  nodupForward := h.nodupForward
  nodupReverse := h.nodupReverse
  inverse := h.inverse
  covers := by
    intro id
    rw [mapGet_map_snd, Option.isSome_map']
    exact h.covers id
  bound := h.bound
  sorted := by
    intro id e hg
    rw [mapGet_map_snd] at hg
    cases hs : mapGet store id with
    | none => simp [hs] at hg
    | some e0 =>
      simp only [hs, Option.map_some', Option.some.injEq] at hg
      subst hg
      exact hf e0 (h.sorted id e0 hs)

/-- Reading a key after the entry of `k` was replaced. -/
theorem lookupEntry_setEntry (h : MapsWF store forward reverse acc) {k : String}
    {id : OwnedStringID} (hk : mapGet forward k = some id) (e' : entry) (k2 : String) :
    lookupEntry (mapSet store id e') forward k2
      = if k2 = k then some e' else lookupEntry store forward k2 := by
  unfold lookupEntry
  by_cases h1 : k2 = k
  · subst h1; simp [hk, mapGet_mapSet_self]
  · simp only [h1, if_false]
    cases hg : mapGet forward k2 with
    | none => rfl
    | some id2 =>
      have : id ≠ id2 := by
        rintro rfl
        exact h1 (h.forward_injective hg hk)
      simp [Option.bind, mapGet_mapSet_of_ne _ _ this]

/-- Reading a key after a new key `k` was interned under the next id. -/
theorem lookupEntry_insertFresh (h : MapsWF store forward reverse acc) {k : String}
    (e : entry) (k2 : String) :
    lookupEntry (mapSet store (acc + 1) e) (mapSet forward k (acc + 1)) k2
      = if k2 = k then some e else lookupEntry store forward k2 := by
  unfold lookupEntry
  by_cases h1 : k2 = k
  · subst h1; simp [mapGet_mapSet_self]
  · have h1' : k ≠ k2 := fun e => h1 e.symm
    simp only [h1, if_false, mapGet_mapSet_of_ne _ _ h1']
    cases hg : mapGet forward k2 with
    | none => rfl
    | some id2 =>
      have hb := h.bound id2 (by simp [(h.inverse k2 id2).mp hg])
      have : acc + 1 ≠ id2 := fun e => by
        rw [← e] at hb; exact Nat.not_succ_le_self acc hb
      simp [Option.bind, mapGet_mapSet_of_ne _ _ this]

/-- Reading a key after `k` was deleted. -/
theorem lookupEntry_delete (h : MapsWF store forward reverse acc) {k : String}
    {id : OwnedStringID} (hk : mapGet forward k = some id) (k2 : String) :
    lookupEntry (mapDelete store id) (mapDelete forward k) k2
      = if k2 = k then none else lookupEntry store forward k2 := by
  unfold lookupEntry
  by_cases h1 : k2 = k
  · subst h1; simp [mapGet_mapDelete]
  · have h1' : k ≠ k2 := fun e => h1 e.symm
    simp only [h1, if_false, mapGet_mapDelete, h1']
    cases hg : mapGet forward k2 with
    | none => rfl
    | some id2 =>
      have : id ≠ id2 := by
        rintro rfl
        exact h1 (h.forward_injective hg hk)
      simp [Option.bind, mapGet_mapDelete, this]

theorem lookupEntry_mapEntries (f : entry → entry) (k : String) :
    lookupEntry (store.map (fun p => (p.1, f p.2))) forward k
      = (lookupEntry store forward k).map f := by
  unfold lookupEntry
  cases mapGet forward k with
  | none => rfl
  | some id => simp [Option.bind, mapGet_map_snd]

end MapsWFFacts


/-! ### Facts about machine integers -/

theorem uint64_lt (n : Int) : uint64 n < 18446744073709551616 := by
  unfold uint64; omega

theorem uint64_natCast (n : Nat) : uint64 (n : Int) = n % 18446744073709551616 := by
  unfold uint64; omega

theorem uint64_of_lt {n : Nat} (h : n < 18446744073709551616) : uint64 (n : Int) = n := by
  unfold uint64; omega

/-! ### Facts about `write` and `entry` -/

theorem mapSet_mapSet {κ β : Type} [DecidableEq κ] (m : List (κ × β)) (k : κ) (v w : β) :
    mapSet (mapSet m k v) k w = mapSet m k w := by
  induction m with
  | nil => simp [mapSet]
  | cons p m ih =>
    obtain ⟨k', v'⟩ := p
    by_cases h : k' = k <;> simp [mapSet, h, ih]

theorem Cache.sameControl_refl (c : Cache) : c.SameControl c :=
  ⟨rfl, rfl, rfl, rfl, rfl, rfl, rfl⟩

theorem Cache.sameControl_trans {c c1 c2 : Cache} (h1 : c.SameControl c1)
    (h2 : c1.SameControl c2) : c.SameControl c2 :=
  ⟨h2.size.trans h1.size, h2.maxSize.trans h1.maxSize, h2.snapshot.trans h1.snapshot,
   h2.snapshotSize.trans h1.snapshotSize, h2.snapshotting.trans h1.snapshotting,
   h2.snapshotAttempts.trans h1.snapshotAttempts, h2.stats.trans h1.stats⟩

theorem lookupEntry_eq_none_iff {store : List (OwnedStringID × entry)}
    {forward : List (OwnedString × OwnedStringID)} {reverse : List (OwnedStringID × OwnedString)}
    {acc : Nat} (h : MapsWF store forward reverse acc) (k : String) :
    lookupEntry store forward k = none ↔ mapGet forward k = none := by
  unfold lookupEntry
  cases hg : mapGet forward k with
  | none => simp
  | some id =>
    obtain ⟨e, he⟩ := h.store_isSome hg
    simp [Option.bind, he]

/-- The loop body of `WriteMulti`, `c.entry(k).add(v)`, does what `write` does. -/
theorem Cache.writeMultiLoop_cons (c : Cache) (k : String) (v : Tsm1.Values)
    (rest : List (String × Tsm1.Values)) :
    Cache.writeMultiLoop c ((k, v) :: rest)
      = (c.write k v).bind (fun c1 => Cache.writeMultiLoop c1 rest) := by
  unfold Cache.write
  rw [Cache.writeMultiLoop]
  unfold Cache.entry
  cases hg : mapGet c.internedOwnedStrings k with
  | some osId =>
    simp only
    cases hs : mapGet c.store osId with
    | none => simp
    | some e =>
      simp only [Option.map_some', hs]
      cases e.add v <;> simp
  | none =>
    simp only [CacheLocalArena.GetOwnedString, mapGet_mapSet_self]
    have hne : ∃ e', newEntry.add v = some e' := entry.add_isSome newEntry v (Or.inr rfl)
    obtain ⟨e', he⟩ := hne
    simp only [he, mapSet_mapSet, Option.bind]

theorem newEntry_inv : newEntry.Inv := by
  intro _; exact List.Pairwise.nil

/-- The effect of a successful `write`. -/
theorem Cache.write_appended {c c' : Cache} {k : String} {v : Tsm1.Values}
    (hwf : MapsWF c.store c.internedOwnedStrings c.internedOwnedStringsReverse c.ownedStringIDAcc)
    (h : c.write k v = some c') : c.Appended k v c' := by
  unfold Cache.write at h
  cases hg : mapGet c.internedOwnedStrings k with
  | some osId =>
    obtain ⟨e, hs⟩ := hwf.store_isSome hg
    simp only [hg, hs] at h
    cases ha : e.add v with
    | none => simp [ha] at h
    | some e' =>
      simp only [ha, Option.some.injEq] at h
      subst h
      have hlive : c.liveEntry k = some e := by
        simp [Cache.liveEntry, lookupEntry, hg, hs, Option.bind]
      exact {
        entry := ⟨e', by
          simp only [Cache.liveEntry]
          rw [lookupEntry_setEntry hwf hg]; simp, by
          rw [entry.add_values ha]; simp [Cache.liveValues, hlive, valuesOf]⟩
        others := by
          intro k2 hk2
          simp only [Cache.liveEntry]
          rw [lookupEntry_setEntry hwf hg]; simp [hk2]
        interned := ⟨osId, hg, (hwf.inverse k osId).mp hg,
          fun id0 h0 => by rw [hg] at h0; exact Option.some.inj h0,
          fun h0 => by rw [hg] at h0; cases h0⟩
        othersInterned := fun _ _ => rfl
        wf := hwf.setEntry (by simp [hs]) (entry.add_inv (hwf.sorted osId e hs) ha)
        control := ⟨rfl, rfl, rfl, rfl, rfl, rfl, rfl⟩ }
  | none =>
    simp only [hg, CacheLocalArena.GetOwnedString] at h
    cases ha : newEntry.add v with
    | none => simp [ha] at h
    | some e' =>
      simp only [ha, Option.some.injEq] at h
      subst h
      have hlive : c.liveEntry k = none := by
        simp [Cache.liveEntry, lookupEntry, hg]
      have hv : e'.values = v := by rw [entry.add_values ha]; rfl
      exact {
        entry := ⟨e', by
          simp only [Cache.liveEntry]
          rw [lookupEntry_insertFresh hwf]; simp, by
          rw [hv]; simp [Cache.liveValues, hlive, valuesOf]⟩
        others := by
          intro k2 hk2
          simp only [Cache.liveEntry]
          rw [lookupEntry_insertFresh hwf]; simp [hk2]
        interned := by
          refine ⟨c.ownedStringIDAcc + 1, mapGet_mapSet_self _ _ _, mapGet_mapSet_self _ _ _,
            ?_, ?_⟩
          · intro id0 h0; rw [hg] at h0; cases h0
          · intro _
            refine ⟨rfl, hwf.fresh.1, hwf.fresh.2, ?_⟩
            intro k2 hk2
            have := (hwf.inverse k2 _).mp hk2
            rw [hwf.fresh.2] at this; cases this
        othersInterned := fun k2 hk2 => mapGet_mapSet_of_ne _ _ (fun e => hk2 e.symm)
        wf := hwf.insertFresh hg (entry.add_inv newEntry_inv ha)
        control := ⟨rfl, rfl, rfl, rfl, rfl, rfl, rfl⟩ }

/-- A `write` with a non-empty batch, or under a key that holds no values,
does not panic. -/
theorem Cache.write_isSome {c : Cache} (k : String) (v : Tsm1.Values)
    (hwf : MapsWF c.store c.internedOwnedStrings c.internedOwnedStringsReverse c.ownedStringIDAcc)
    (hv : v ≠ [] ∨ c.liveValues k = []) : ∃ c', c.write k v = some c' := by
  unfold Cache.write
  cases hg : mapGet c.internedOwnedStrings k with
  | some osId =>
    obtain ⟨e, hs⟩ := hwf.store_isSome hg
    have hlive : c.liveValues k = e.values := by
      simp [Cache.liveValues, Cache.liveEntry, lookupEntry, hg, hs, Option.bind, valuesOf]
    rw [hlive] at hv
    obtain ⟨e', he⟩ := entry.add_isSome e v hv
    simp [hs, he]
  | none =>
    obtain ⟨e', he⟩ := entry.add_isSome newEntry v (Or.inr rfl)
    simp [CacheLocalArena.GetOwnedString, he]


/-! ## Admission (`Write`, `WriteMulti`) -/

theorem overflowState_reachable : Reachable overflowState := by
  have h1 : Reachable (NewCache 0 []) := Reachable.init 0 []
  have h2 : ∃ c1, (NewCache 0 []).step (Op.Write "a" [bigA, bigB]) = some c1 ∧
      overflowState = c1.SetMaxSize 100 := by
    refine ⟨(((NewCache 0 []).Write "a" [bigA, bigB]).map Prod.fst).getD (NewCache 0 []), ?_, ?_⟩
    · decide
    · decide
  obtain ⟨c1, hc1, he⟩ := h2
  rw [he]
  exact Reachable.step (Op.SetMaxSize 100)
    (Reachable.step (Op.Write "a" [bigA, bigB]) h1 trivial hc1) trivial rfl

/-- C2, as stated, fails: in a reachable state with `maxSize = 100` and
`size = 2 ^ 64 - 60`, a batch of 60 bytes has
`size + snapshotSize + v.size() = 2 ^ 64 > maxSize`, yet `Write` returns nil,
because `c.size + uint64(addedSize)` wraps to zero. -/
theorem Write_admission_counterexample :
    overflowState.size < 18446744073709551616 ∧
    overflowState.snapshotSize < 18446744073709551616 ∧
    Values.Size [v60] < 18446744073709551616 ∧
    overflowState.maxSize > 0 ∧
    overflowState.size + overflowState.snapshotSize + Values.Size [v60] > overflowState.maxSize ∧
    (overflowState.Write "k" [v60]).map Prod.snd = some none := by
  decide

/-- C2, amended: with `maxSize = 0`, `Write` never returns an error (whether
or not the sums wrap).  When `size + snapshotSize + v.size()` stays below
`2 ^ 64` (the `uint64` sums do not wrap), `Write` returns
`ErrCacheMemoryExceeded` exactly when `maxSize > 0` and
`size + snapshotSize + v.size() > maxSize`, and with `maxSize > 0` a nil return
means `size + snapshotSize + v.size() ≤ maxSize`. -/
theorem Write_admission (c : Cache) (key : String) (values : Values) :
    (c.maxSize = 0 → ∀ c' e, c.Write key values ≠ some (c', some e)) ∧
    (c.size + c.snapshotSize + Values.Size values < 18446744073709551616 →
      ((∃ c', c.Write key values = some (c', some Error.ErrCacheMemoryExceeded))
          ↔ (c.maxSize > 0 ∧ c.size + c.snapshotSize + Values.Size values > c.maxSize)) ∧
      (c.maxSize > 0 → ∀ c', c.Write key values = some (c', none) →
          c.size + c.snapshotSize + Values.Size values ≤ c.maxSize)) := by
  constructor
  · intro h0 c' e hc'
    unfold Cache.Write at hc'
    have : ¬ (c.maxSize > 0 ∧ uint64 (↑(uint64 (↑c.size + ↑(uint64 ↑(Values.Size values))))
        + ↑c.snapshotSize) > c.maxSize) := by omega
    simp only [this, if_false] at hc'
    cases hw : c.write key values <;> simp [hw] at hc'
  · intro h
    have e1 : uint64 (↑(uint64 (↑c.size + ↑(uint64 ↑(Values.Size values)))) + ↑c.snapshotSize)
        = c.size + c.snapshotSize + Values.Size values := by
      unfold uint64; omega
    refine ⟨⟨?_, ?_⟩, ?_⟩
    · rintro ⟨c', hc'⟩
      unfold Cache.Write at hc'
      simp only [e1] at hc'
      split_ifs at hc' with hcond
      · exact hcond
      · cases hw : c.write key values <;> simp [hw] at hc'
    · intro hcond
      refine ⟨c, ?_⟩
      unfold Cache.Write
      simp only [e1]
      rw [if_pos hcond]
    · intro hpos c' hc'
      unfold Cache.Write at hc'
      simp only [e1] at hc'
      split_ifs at hc' with hcond
      · simp at hc'
      · omega

/-- C2 amended, at the cache with a budget of 100 bytes that holds 60 bytes:
a further batch of 60 bytes gives `60 + 0 + 60 > 100` and is rejected. -/
theorem Write_admission_witness :
    sixtyState.size + sixtyState.snapshotSize + Values.Size [v60] < 18446744073709551616 ∧
    sixtyState.maxSize > 0 ∧
    sixtyState.size + sixtyState.snapshotSize + Values.Size [v60] > sixtyState.maxSize ∧
    ∃ c', sixtyState.Write "k" [v60] = some (c', some Error.ErrCacheMemoryExceeded) :=
  ⟨by decide, by decide, by decide,
   (((Write_admission sixtyState "k" [v60]).2 (by decide)).1).mpr ⟨by decide, by decide⟩⟩

/-- C3: when `Write` or `WriteMulti` returns `ErrCacheMemoryExceeded`, the
whole cache state (store, entries, interning maps, sizes, sibling, counters)
is the one before the call. -/
theorem rejected_write_unchanged (c c' : Cache) (key : String) (values : Values)
    (batches : List (String × Values)) :
    (c.Write key values = some (c', some Error.ErrCacheMemoryExceeded) → c' = c) ∧
    (c.WriteMulti batches = some (c', some Error.ErrCacheMemoryExceeded) → c' = c) := by
  constructor
  · intro h
    unfold Cache.Write at h
    simp only at h
    split_ifs at h with hcond
    · simp only [Option.some.injEq, Prod.mk.injEq, and_true] at h; exact h.symm
    · cases hw : c.write key values <;> simp [hw] at h
  · intro h
    unfold Cache.WriteMulti at h
    simp only at h
    split_ifs at h with hcond
    · simp only [Option.some.injEq, Prod.mk.injEq, and_true] at h; exact h.symm
    · cases hw : c.writeMultiLoop batches <;> simp [hw] at h

/-- The example of C3: with `maxSize = 100`, after an accepted write of 60
bytes a second write of 60 bytes is rejected and `Size()` remains 60. -/
theorem rejected_write_unchanged_witness :
    sixtyState.maxSize = 100 ∧ sixtyState.Size = 60 ∧
    sixtyState.Write "k" [v60] = some (sixtyState, some Error.ErrCacheMemoryExceeded) ∧
    sixtyState.WriteMulti [("k", [v60])] = some (sixtyState, some Error.ErrCacheMemoryExceeded) ∧
    ((sixtyState.Write "k" [v60]).map (fun r => r.1.Size)) = some 60 := by
  have hW : sixtyState.Write "k" [v60] = some (sixtyState, some Error.ErrCacheMemoryExceeded) := by
    decide
  have hM : sixtyState.WriteMulti [("k", [v60])]
      = some (sixtyState, some Error.ErrCacheMemoryExceeded) := by decide
  have h := rejected_write_unchanged sixtyState sixtyState "k" [v60] [("k", [v60])]
  have h1 := h.1 hW
  exact ⟨by decide, by decide, hW, hM, by rw [hW]; decide⟩

/-- C4, amended: in a well-formed cache, `Write(k, v)` with a non-empty batch
does not panic, and when it returns nil the live cache holds for `k` an entry
whose values are the previous values of `k` followed by `v`; `k` is interned
in both interning maps under one id (the id it had, or an id bound nowhere
before if `k` was absent); `size` has grown by `v.size()` modulo `2 ^ 64`, and
by exactly `v.size()` when `size + v.size()` stays below `2 ^ 64`; every other
key keeps its entry. -/
theorem Write_accepted (c : Cache) (key : String) (values : Values) (hwf : c.WF)
    (hne : values ≠ []) :
    (∃ r, c.Write key values = some r) ∧
    ∀ c', c.Write key values = some (c', none) →
      (∃ e', c'.liveEntry key = some e' ∧ e'.values = c.liveValues key ++ values) ∧
      (∃ id, mapGet c'.internedOwnedStrings key = some id ∧
        mapGet c'.internedOwnedStringsReverse id = some key ∧
        (∀ id0, mapGet c.internedOwnedStrings key = some id0 → id = id0) ∧
        (c.liveEntry key = none → mapGet c.store id = none ∧
          mapGet c.internedOwnedStringsReverse id = none ∧
          ∀ k2, mapGet c.internedOwnedStrings k2 ≠ some id)) ∧
      c'.size = (c.size + Values.Size values) % 18446744073709551616 ∧
      (c.size + Values.Size values < 18446744073709551616 →
        c'.size = c.size + Values.Size values) ∧
      (∀ k2, k2 ≠ key → c'.liveEntry k2 = c.liveEntry k2) := by
  constructor
  · obtain ⟨c1, hc1⟩ := Cache.write_isSome key values hwf.live (Or.inl hne)
    unfold Cache.Write
    simp only [hc1]
    split_ifs <;> exact ⟨_, rfl⟩
  · intro c' h
    unfold Cache.Write at h
    simp only at h
    split_ifs at h with hcond
    · simp at h
    · cases hw : c.write key values with
      | none => simp [hw] at h
      | some c1 =>
        simp only [hw, Option.some.injEq, Prod.mk.injEq, and_true] at h
        have ha := Cache.write_appended hwf.live hw
        have hsz : c'.size = (c.size + Values.Size values) % 18446744073709551616 := by
          rw [← h]; simp only [Cache.updateMemSize]; unfold uint64; omega
        have hl : ∀ k2, c'.liveEntry k2 = c1.liveEntry k2 := by
          intro k2; rw [← h]; rfl
        have hi : c'.internedOwnedStrings = c1.internedOwnedStrings := by rw [← h]; rfl
        have hr : c'.internedOwnedStringsReverse = c1.internedOwnedStringsReverse := by
          rw [← h]; rfl
        refine ⟨?_, ?_, hsz, ?_, ?_⟩
        · rw [hl]; exact ha.entry
        · obtain ⟨id, h1, h2, h3, h4⟩ := ha.interned
          refine ⟨id, by rw [hi]; exact h1, by rw [hr]; exact h2, h3, ?_⟩
          intro hnone
          have := h4 ((lookupEntry_eq_none_iff hwf.live key).mp hnone)
          exact ⟨this.2.1, this.2.2.1, this.2.2.2⟩
        · intro hlt; rw [hsz]; exact Nat.mod_eq_of_lt hlt
        · intro k2 hk2; rw [hl]; exact ha.others k2 hk2


theorem NewCache_WF (maxSize : Nat) (arena : CacheLocalArena) : (NewCache maxSize arena).WF where
  live := MapsWF.empty_wf 0
  sibling := by intro s h; simp [NewCache] at h
  sizeBound := by simp [NewCache]
  snapshotSizeBound := by simp [NewCache]
  maxSizeBound := by simp only [NewCache, Cache.SetMaxSize]; exact uint64_lt _

/-- C4 (amended) at a fresh cache with a budget of 100 bytes and one batch of
60 bytes: `Write` returns nil and leaves `sixtyState`, where `k` holds the
batch, is interned in both maps under the id 1, and `size` is 60. -/
theorem Write_accepted_witness :
    (NewCache 100 []).WF ∧ [v60] ≠ [] ∧
    (NewCache 100 []).Write "k" [v60] = some (sixtyState, none) ∧
    (NewCache 100 []).size + Values.Size [v60] < 18446744073709551616 ∧
    (∃ e', sixtyState.liveEntry "k" = some e' ∧
      e'.values = (NewCache 100 []).liveValues "k" ++ [v60]) ∧
    sixtyState.liveValues "k" = [v60] ∧
    mapGet sixtyState.internedOwnedStrings "k" = some 1 ∧
    mapGet sixtyState.internedOwnedStringsReverse 1 = some "k" ∧
    sixtyState.size = (NewCache 100 []).size + Values.Size [v60] ∧
    sixtyState.size = 60 ∧
    (∀ k2, k2 ≠ "k" → sixtyState.liveEntry k2 = (NewCache 100 []).liveEntry k2) :=
  have hw : (NewCache 100 []).Write "k" [v60] = some (sixtyState, none) := by decide
  have h := (Write_accepted (NewCache 100 []) "k" [v60] (NewCache_WF 100 [])
    (by decide)).2 sixtyState hw
  ⟨NewCache_WF 100 [], by decide, hw, by decide, h.1, by decide, by decide, by decide,
    h.2.2.2.1 (by decide), by decide, h.2.2.2.2⟩

/-! ## The representation invariant is preserved -/

theorem Cache.Write_WF {c c' : Cache} {key : String} {values : Tsm1.Values} {r : Option Error}
    (hwf : c.WF) (h : c.Write key values = some (c', r)) : c'.WF := by
  unfold Cache.Write at h
  simp only at h
  split_ifs at h with hcond
  · simp only [Option.some.injEq, Prod.mk.injEq] at h; rw [← h.1]; exact hwf
  · cases hw : c.write key values with
    | none => simp [hw] at h
    | some c1 =>
      simp only [hw, Option.some.injEq, Prod.mk.injEq] at h
      have ha := Cache.write_appended hwf.live hw
      rw [← h.1]
      exact {
        live := ha.wf
        sibling := by
          intro s hs
          have : c1.snapshot = some s := hs
          rw [ha.control.snapshot] at this
          exact hwf.sibling s this
        sizeBound := by simp only [Cache.updateMemSize]; exact uint64_lt _
        snapshotSizeBound := by
          show c1.snapshotSize < _
          rw [ha.control.snapshotSize]; exact hwf.snapshotSizeBound
        maxSizeBound := by
          show c1.maxSize < _
          rw [ha.control.maxSize]; exact hwf.maxSizeBound }

/-- The effect of the loop of `WriteMulti` over a Go map of batches. -/
theorem Cache.writeMultiLoop_spec {batches : List (String × Tsm1.Values)} {c c' : Cache}
    (hwf : MapsWF c.store c.internedOwnedStrings c.internedOwnedStringsReverse c.ownedStringIDAcc)
    (hnd : (batches.map Prod.fst).Nodup) (h : c.writeMultiLoop batches = some c') :
    MapsWF c'.store c'.internedOwnedStrings c'.internedOwnedStringsReverse c'.ownedStringIDAcc ∧
    c.SameControl c' ∧
    (∀ k v, (k, v) ∈ batches →
      ∃ e', c'.liveEntry k = some e' ∧ e'.values = c.liveValues k ++ v) ∧
    (∀ k, k ∉ batches.map Prod.fst → c'.liveEntry k = c.liveEntry k) := by
  induction batches generalizing c with
  | nil =>
    simp only [Cache.writeMultiLoop, Option.some.injEq] at h
    subst h
    exact ⟨hwf, Cache.sameControl_refl c, by simp, fun _ _ => rfl⟩
  | cons p rest ih =>
    obtain ⟨k0, v0⟩ := p
    rw [Cache.writeMultiLoop_cons] at h
    cases hw : c.write k0 v0 with
    | none => simp [hw] at h
    | some c1 =>
      simp only [hw, Option.bind] at h
      have ha := Cache.write_appended hwf hw
      simp only [List.map_cons, List.nodup_cons] at hnd
      obtain ⟨ih1, ih2, ih3, ih4⟩ := ih ha.wf hnd.2 h
      refine ⟨ih1, Cache.sameControl_trans ha.control ih2, ?_, ?_⟩
      · intro k v hkv
        rcases List.mem_cons.mp hkv with e | hm
        · obtain ⟨rfl, rfl⟩ := Prod.mk.inj e
          rw [ih4 k hnd.1]
          exact ha.entry
        · have hne : k ≠ k0 := by
            rintro rfl
            exact hnd.1 (List.mem_map.mpr ⟨(k, v), hm, rfl⟩)
          obtain ⟨e', he1, he2⟩ := ih3 k v hm
          refine ⟨e', he1, ?_⟩
          rw [he2]
          simp only [Cache.liveValues, ha.others k hne]
      · intro k hk
        simp only [List.map_cons, List.mem_cons, not_or] at hk
        rw [ih4 k hk.2, ha.others k hk.1]

theorem Cache.WriteMulti_WF {c c' : Cache} {batches : List (String × Tsm1.Values)}
    {r : Option Error} (hwf : c.WF) (hnd : (batches.map Prod.fst).Nodup)
    (h : c.WriteMulti batches = some (c', r)) : c'.WF := by
  unfold Cache.WriteMulti at h
  simp only at h
  split_ifs at h with hcond
  · simp only [Option.some.injEq, Prod.mk.injEq] at h; rw [← h.1]; exact hwf
  · cases hw : c.writeMultiLoop batches with
    | none => simp [hw] at h
    | some c1 =>
      simp only [hw, Option.some.injEq, Prod.mk.injEq] at h
      obtain ⟨h1, h2, -, -⟩ := Cache.writeMultiLoop_spec hwf.live hnd hw
      rw [← h.1]
      exact {
        live := h1
        sibling := by
          intro s hs
          have : c1.snapshot = some s := hs
          rw [h2.snapshot] at this
          exact hwf.sibling s this
        sizeBound := by simp only [Cache.updateMemSize]; exact uint64_lt _
        snapshotSizeBound := by
          show c1.snapshotSize < _
          rw [h2.snapshotSize]; exact hwf.snapshotSizeBound
        maxSizeBound := by
          show c1.maxSize < _
          rw [h2.maxSize]; exact hwf.maxSizeBound }

theorem Cache.Deduplicate_WF {c : Cache} (hwf : c.WF) : c.Deduplicate.WF where
  live := hwf.live.mapEntries entry.deduplicate (fun _ he => entry.deduplicate_inv he)
  sibling := hwf.sibling
  sizeBound := hwf.sizeBound
  snapshotSizeBound := hwf.snapshotSizeBound
  maxSizeBound := hwf.maxSizeBound

theorem Cache.DeduplicateSnapshot_WF {c : Cache} (hwf : c.WF) :
    ({ c with snapshot := c.snapshot.map SnapshotCache.Deduplicate } : Cache).WF where
  live := hwf.live
  sibling := by
    intro s hs
    cases hc : c.snapshot with
    | none => simp [hc] at hs
    | some s0 =>
      simp only [hc, Option.map_some', Option.some.injEq] at hs
      subst hs
      exact (hwf.sibling s0 hc).mapEntries entry.deduplicate
        (fun _ he => entry.deduplicate_inv he)
  sizeBound := hwf.sizeBound
  snapshotSizeBound := hwf.snapshotSizeBound
  maxSizeBound := hwf.maxSizeBound

theorem Cache.SetMaxSize_WF {c : Cache} (size : Nat) (hwf : c.WF) : (c.SetMaxSize size).WF where
  live := hwf.live
  sibling := hwf.sibling
  sizeBound := hwf.sizeBound
  snapshotSizeBound := hwf.snapshotSizeBound
  maxSizeBound := by simp only [NewCache, Cache.SetMaxSize]; exact uint64_lt _

theorem Cache.ClearSnapshot_WF {c c' : Cache} {success : Bool} (hwf : c.WF)
    (h : c.ClearSnapshot success = some c') : c'.WF := by
  unfold Cache.ClearSnapshot at h
  cases success with
  | false =>
    simp only [Bool.false_eq_true, if_false, Option.some.injEq] at h
    subst h
    exact ⟨hwf.live, hwf.sibling, hwf.sizeBound, hwf.snapshotSizeBound, hwf.maxSizeBound⟩
  | true =>
    simp only [if_true] at h
    cases hs : c.snapshot with
    | none => simp [hs] at h
    | some s =>
      simp only [hs, Option.some.injEq] at h
      subst h
      exact {
        live := hwf.live
        sibling := by intro s h; simp [Cache.updateSnapshots] at h
        sizeBound := hwf.sizeBound
        snapshotSizeBound := by simp [Cache.updateSnapshots]
        maxSizeBound := hwf.maxSizeBound }


/-! ## Merged reads (`Values`, `merged`) -/

theorem Deduplicate_append_congr {a a' b b' : Values}
    (ha : ∀ t, lastAt t a' = lastAt t a) (hb : ∀ t, lastAt t b' = lastAt t b) :
    Values.Deduplicate (a' ++ b') = Values.Deduplicate (a ++ b) := by
  apply increasing_ext (Deduplicate_increasing _) (Deduplicate_increasing _)
  intro t
  rw [lastAt_Deduplicate, lastAt_Deduplicate, lastAt_append, lastAt_append, ha, hb]

theorem Deduplicate_append_Deduplicate (a b : Values) :
    Values.Deduplicate (Values.Deduplicate a ++ Values.Deduplicate b)
      = Values.Deduplicate (a ++ b) :=
  Deduplicate_append_congr (fun t => lastAt_Deduplicate t a) (fun t => lastAt_Deduplicate t b)

theorem mergedBuffer_nil : mergedBuffer [] = [] := by
  simp [mergedBuffer]

theorem mergedBuffer_one (a : entry) (ha : StrictlyIncreasing a.values) :
    mergedBuffer [a] = Values.Deduplicate a.values := by
  rw [Deduplicate_of_increasing ha]
  unfold mergedBuffer
  have hm : mergeLoop false [] [a] = (false, a.values) := by
    simp [mergeLoop]
  rw [hm]
  split_ifs with h1 h2
  · simp [entry.count] at h1; exact h1.symm
  · exact absurd h2 (by simp)
  · rfl

theorem mergedBuffer_two (a b : entry) (ha : StrictlyIncreasing a.values)
    (hb : StrictlyIncreasing b.values) :
    mergedBuffer [a, b] = Values.Deduplicate (a.values ++ b.values) := by
  unfold mergedBuffer
  have hm : mergeLoop false [] [a, b]
      = ((match a.values.getLast?, b.values.head? with
          | some last, some first => decide (last.ts ≥ first.ts)
          | _, _ => false), a.values ++ b.values) := by
    simp only [mergeLoop, List.nil_append, List.getLast?_nil]
    cases a.values.getLast? <;> cases b.values.head? <;> simp
  rw [hm]
  split_ifs with h1 h2
  · simp [entry.count] at h1
    rw [h1.1, h1.2]; rfl
  · rfl
  · symm
    apply Deduplicate_of_increasing
    apply increasing_append ha hb
    intro x hx y hy
    simp only [Option.mem_def] at hx hy
    simp only [hx, hy, decide_eq_true_eq, not_le, ge_iff_le] at h2
    exact h2

theorem merged_tail (c2 : Cache) (entries : List entry) :
    (if ((entries.map entry.count).sum == 0) = true then some (c2, ([] : Values))
      else some (c2, if (mergeLoop false [] entries).1 = true then
          Values.Deduplicate (mergeLoop false [] entries).2
        else (mergeLoop false [] entries).2))
      = some (c2, mergedBuffer entries) := by
  unfold mergedBuffer; split_ifs <;> rfl

theorem Deduplicate_idem (a : Values) :
    Values.Deduplicate (Values.Deduplicate a) = Values.Deduplicate a :=
  Deduplicate_of_increasing (Deduplicate_increasing a)

theorem Cache.merged_eq {c : Cache} (hwf : c.WF) (k : String) :
    c.merged k = some (c.dedupKey k,
      Values.Deduplicate (c.snapshotValues k ++ c.liveValues k)) := by
  unfold Cache.merged
  cases hg : mapGet c.internedOwnedStrings k with
  | none =>
    have hL : c.liveValues k = [] := by
      simp [Cache.liveValues, Cache.liveEntry, lookupEntry, hg, valuesOf]
    cases hs : c.snapshot with
    | none =>
      simp only [Option.isNone_none, if_true]
      have hS : c.snapshotValues k = [] := by
        simp [Cache.snapshotValues, Cache.snapshotEntry, hs, valuesOf]
      rw [hS, hL]
      simp only [Cache.dedupKey, dedupAt, hg, hs, Values.Deduplicate, List.append_nil,
        List.foldl_nil, Option.map_none', Option.some.injEq, Prod.mk.injEq, and_true]
      cases c; simp only at hs; subst hs; rfl
    | some s =>
      simp only [Option.isNone_some, Bool.false_eq_true, if_false, hs]
      cases hsg : mapGet s.internedOwnedStrings k with
      | none =>
        simp only
        rw [merged_tail, mergedBuffer_nil]
        have hS : c.snapshotValues k = [] := by
          simp [Cache.snapshotValues, Cache.snapshotEntry, hs, valuesOf, SnapshotCache.entryOf,
            lookupEntry, hsg]
        rw [hS, hL]
        simp only [Cache.dedupKey, dedupAt, hg, hs, hsg, Values.Deduplicate, List.append_nil,
          List.foldl_nil, Option.map_some', Option.some.injEq, Prod.mk.injEq, and_true]
        cases c; simp only at hs; subst hs; rfl
      | some sid =>
        obtain ⟨se, hse⟩ := (hwf.sibling s hs).store_isSome hsg
        have hinv := (hwf.sibling s hs).sorted sid se hse
        simp only [hse]
        rw [merged_tail, mergedBuffer_one _ (entry.deduplicate_increasing hinv)]
        have hS : c.snapshotValues k = se.values := by
          simp [Cache.snapshotValues, Cache.snapshotEntry, hs, valuesOf, SnapshotCache.entryOf,
            lookupEntry, hsg, hse, Option.bind]
        rw [hS, hL, entry.deduplicate_values hinv, Deduplicate_idem, List.append_nil]
        simp [Cache.dedupKey, dedupAt, hg, hs, hsg, hse]
  | some osId =>
    obtain ⟨e, he⟩ := hwf.live.store_isSome hg
    have hinvL := hwf.live.sorted osId e he
    have hL : c.liveValues k = e.values := by
      simp [Cache.liveValues, Cache.liveEntry, lookupEntry, hg, he, valuesOf, Option.bind]
    simp only [he]
    cases hs : c.snapshot with
    | none =>
      simp only [List.nil_append]
      rw [merged_tail, mergedBuffer_one _ (entry.deduplicate_increasing hinvL)]
      have hS : c.snapshotValues k = [] := by
        simp [Cache.snapshotValues, Cache.snapshotEntry, hs, valuesOf]
      rw [hS, hL, entry.deduplicate_values hinvL, Deduplicate_idem, List.nil_append]
      simp [Cache.dedupKey, dedupAt, hg, he, hs]
    | some s =>
      simp only
      cases hsg : mapGet s.internedOwnedStrings k with
      | none =>
        simp only [List.nil_append]
        rw [merged_tail, mergedBuffer_one _ (entry.deduplicate_increasing hinvL)]
        have hS : c.snapshotValues k = [] := by
          simp [Cache.snapshotValues, Cache.snapshotEntry, hs, valuesOf, SnapshotCache.entryOf,
            lookupEntry, hsg]
        rw [hS, hL, entry.deduplicate_values hinvL, Deduplicate_idem, List.nil_append]
        simp [Cache.dedupKey, dedupAt, hg, he, hs, hsg]
      | some sid =>
        obtain ⟨se, hse⟩ := (hwf.sibling s hs).store_isSome hsg
        have hinv := (hwf.sibling s hs).sorted sid se hse
        simp only [hse, List.singleton_append]
        rw [merged_tail, mergedBuffer_two _ _ (entry.deduplicate_increasing hinv)
          (entry.deduplicate_increasing hinvL)]
        have hS : c.snapshotValues k = se.values := by
          simp [Cache.snapshotValues, Cache.snapshotEntry, hs, valuesOf, SnapshotCache.entryOf,
            lookupEntry, hsg, hse, Option.bind]
        rw [hS, hL, entry.deduplicate_values hinv, entry.deduplicate_values hinvL,
          Deduplicate_append_Deduplicate]
        simp [Cache.dedupKey, dedupAt, hg, he, hs, hsg, hse]

theorem MapsWF.dedupAt_wf {store : List (OwnedStringID × entry)}
    {forward : List (OwnedString × OwnedStringID)} {reverse : List (OwnedStringID × OwnedString)}
    {acc : Nat} (h : MapsWF store forward reverse acc) (k : String) :
    MapsWF (dedupAt store forward k) forward reverse acc := by
  unfold Tsm1.dedupAt
  cases hg : mapGet forward k with
  | none => exact h
  | some id =>
    cases hs : mapGet store id with
    | none => simp only [hs]; exact h
    | some e =>
      simp only [hs]
      exact h.setEntry (by simp [hs]) (entry.deduplicate_inv (h.sorted id e hs))

theorem Cache.dedupKey_WF {c : Cache} (hwf : c.WF) (k : String) : (c.dedupKey k).WF where
  live := hwf.live.dedupAt_wf k
  sibling := by
    intro s hs
    cases hc : c.snapshot with
    | none => simp [Cache.dedupKey, hc] at hs
    | some s0 =>
      simp only [Cache.dedupKey, hc, Option.map_some', Option.some.injEq] at hs
      subst hs
      exact (hwf.sibling s0 hc).dedupAt_wf k
  sizeBound := hwf.sizeBound
  snapshotSizeBound := hwf.snapshotSizeBound
  maxSizeBound := hwf.maxSizeBound

theorem Cache.Values_WF {c c' : Cache} {k : String} {r : Tsm1.Values} (hwf : c.WF)
    (h : c.Values k = some (c', r)) : c'.WF := by
  unfold Cache.Values at h
  rw [Cache.merged_eq hwf k] at h
  simp only [Option.some.injEq, Prod.mk.injEq] at h
  rw [← h.1]
  exact Cache.dedupKey_WF hwf k

theorem lastAt_of_mem_increasing {a : Values} (h : StrictlyIncreasing a) {v : Value}
    (hv : v ∈ a) : lastAt v.ts a = some v := by
  induction a with
  | nil => simp at hv
  | cons w ws ih =>
    rcases List.mem_cons.mp hv with rfl | hm
    · exact lastAt_cons_of_increasing h rfl
    · have hlt := (List.pairwise_cons.mp h).1 v hm
      rw [lastAt_cons_of_ne (by omega)]
      exact ih (List.pairwise_cons.mp h).2 hm

/-- The contract of `Deduplicate`: the result is strictly increasing, holds
exactly the timestamps of the input, and under each of them the value that
arrived last. -/
theorem Deduplicate_spec (a : Values) :
    StrictlyIncreasing (Values.Deduplicate a) ∧
    (∀ t, (∃ v ∈ Values.Deduplicate a, v.ts = t) ↔ (∃ v ∈ a, v.ts = t)) ∧
    (∀ v ∈ Values.Deduplicate a, lastAt v.ts a = some v) := by
  refine ⟨Deduplicate_increasing a, ?_, ?_⟩
  · intro t
    rw [← lastAt_isSome, ← lastAt_isSome, lastAt_Deduplicate]
  · intro v hv
    rw [← lastAt_Deduplicate]
    exact lastAt_of_mem_increasing (Deduplicate_increasing a) hv


/-! ## Deletion (`DeleteRange`, `Delete`) -/

theorem Size_filter_add (a : Values) (p : Value → Bool) :
    Values.Size (a.filter p) + Values.Size (a.filter (fun v => !(p v))) = Values.Size a := by
  induction a with
  | nil => rfl
  | cons v vs ih =>
    unfold Values.Size at *
    by_cases h : p v = true
    · simp only [List.filter_cons, h, if_true, List.map_cons, List.sum_cons, Bool.not_true,
        Bool.false_eq_true, if_false]
      omega
    · simp only [Bool.not_eq_true] at h
      simp only [List.filter_cons, h, Bool.false_eq_true, if_false, List.map_cons, List.sum_cons,
        Bool.not_false, if_true]
      omega

theorem Exclude_full (a : Values) {min max : Int64} (h : min.val = MinInt64 ∧ max.val = MaxInt64) :
    Values.Exclude a min max = [] := by
  unfold Values.Exclude
  rw [List.filter_eq_nil_iff]
  intro v _
  have := v.unixNano.property
  simp only [inRange, Value.ts, h.1, h.2, this.1, this.2, decide_True, Bool.and_self,
    Bool.not_true, Bool.false_eq_true, not_false_eq_true]

theorem filter_inRange_of_Exclude_nil {a : Values} {min max : Int64}
    (h : Values.Exclude a min max = []) : a.filter (inRange min max) = a := by
  unfold Values.Exclude at h
  rw [List.filter_eq_nil_iff] at h
  rw [List.filter_eq_self]
  intro v hv
  have := h v hv
  simpa using this

theorem Cache.sameSnapshot_refl (c : Cache) : c.SameSnapshot c :=
  ⟨rfl, rfl, rfl, rfl, rfl, rfl⟩

theorem Cache.sameSnapshot_trans {c c1 c2 : Cache} (h1 : c.SameSnapshot c1)
    (h2 : c1.SameSnapshot c2) : c.SameSnapshot c2 :=
  ⟨h2.maxSize.trans h1.maxSize, h2.snapshot.trans h1.snapshot,
   h2.snapshotSize.trans h1.snapshotSize, h2.snapshotting.trans h1.snapshotting,
   h2.snapshotAttempts.trans h1.snapshotAttempts, h2.stats.trans h1.stats⟩

/-- One round of `DeleteRange` does not panic in a well-formed cache, and
does what `Excluded` says. -/
theorem Cache.deleteRangeKey_spec {c : Cache} (k : String) (min max : Int64)
    (hwf : MapsWF c.store c.internedOwnedStrings c.internedOwnedStringsReverse c.ownedStringIDAcc)
    (hsize : c.size < 18446744073709551616) :
    ∃ c', c.deleteRangeKey k min max = some c' ∧ c.Excluded k min max c' := by
  unfold Cache.deleteRangeKey
  cases hg : mapGet c.internedOwnedStrings k with
  | none =>
    have hlive : c.liveEntry k = none := by simp [Cache.liveEntry, lookupEntry, hg]
    refine ⟨c, rfl, ?_⟩
    exact {
      entry := by rw [hlive]; rfl
      others := fun _ _ => rfl
      othersInterned := fun _ _ => rfl
      size := by
        simp only [Cache.liveValues, hlive, valuesOf, List.filter_nil, Values.Size, List.map_nil,
          List.sum_nil]
        unfold uint64
        omega
      wf := hwf
      control := Cache.sameSnapshot_refl c }
  | some osId =>
    obtain ⟨e, he⟩ := hwf.store_isSome hg
    have hlive : c.liveEntry k = some e := by
      simp [Cache.liveEntry, lookupEntry, hg, he, Option.bind]
    have hos : (mapGet c.internedOwnedStringsReverse osId).getD "" = k := by
      rw [(hwf.inverse k osId).mp hg]; rfl
    simp only [he, hos]
    have hdel : ∀ (sz : Nat), sz = uint64 ((c.size : Int)
          - (Values.Size ((c.liveValues k).filter (inRange min max)) : Int)) →
        (e.filter min max).count = 0 →
        c.Excluded k min max { c with
          size := sz
          store := mapDelete c.store osId
          internedOwnedStrings := mapDelete c.internedOwnedStrings k
          internedOwnedStringsReverse := mapDelete c.internedOwnedStringsReverse osId
          arena := CacheLocalArena.Dec c.arena k 1 } := by
      intro sz hsz hcount
      exact {
        entry := by
          simp only [Cache.liveEntry]
          rw [lookupEntry_delete hwf hg, if_pos rfl]
          show none = (c.liveEntry k).bind (excludedEntry min max)
          rw [hlive]
          simp [Option.bind, excludedEntry, hcount]
        others := by
          intro k2 hk2
          simp only [Cache.liveEntry]
          rw [lookupEntry_delete hwf hg, if_neg hk2]
        othersInterned := by
          intro k2 hk2
          simp only
          rw [mapGet_mapDelete, if_neg (fun e => hk2 e.symm)]
        size := hsz
        wf := hwf.delete_wf hg
        control := ⟨rfl, rfl, rfl, rfl, rfl, rfl⟩ }
    have hLV : c.liveValues k = e.values := by
      simp [Cache.liveValues, hlive, valuesOf]
    have hfull : (e.filter min max).count = 0 →
        Values.Size (e.values.filter (inRange min max)) = e.size := by
      intro hc
      simp only [entry.count, entry.filter, List.length_eq_zero] at hc
      rw [filter_inRange_of_Exclude_nil hc]; rfl
    by_cases hrange : min.val = MinInt64 ∧ max.val = MaxInt64
    · simp only [hrange, and_self, if_true]
      have hcount : (e.filter min max).count = 0 := by
        simp only [entry.count, entry.filter, Exclude_full e.values hrange, List.length_nil]
      refine ⟨_, rfl, hdel _ ?_ hcount⟩
      rw [hLV, hfull hcount]
      unfold uint64; omega
    · simp only [hrange, if_false]
      by_cases hcount : (e.filter min max).count = 0
      · simp only [hcount, if_true]
        have := hdel (uint64 ((c.size : Int) - (uint64 e.size : Int))) (by
          rw [hLV, hfull hcount]; unfold uint64; omega) hcount
        exact ⟨_, rfl, this⟩
      · simp only [hcount, if_false]
        refine ⟨_, rfl, ?_⟩
        exact {
          entry := by
            simp only [Cache.liveEntry]
            rw [lookupEntry_setEntry hwf hg, if_pos rfl]
            show _ = (c.liveEntry k).bind (excludedEntry min max)
            rw [hlive]
            simp [Option.bind, excludedEntry, hcount]
          others := by
            intro k2 hk2
            simp only [Cache.liveEntry]
            rw [lookupEntry_setEntry hwf hg, if_neg hk2]
          othersInterned := fun _ _ => rfl
          size := by
            simp only
            rw [hLV]
            have hadd := Size_filter_add e.values (inRange min max)
            have h1 : (e.filter min max).size
                = Values.Size (e.values.filter (fun v => !(inRange min max v))) := rfl
            have h2 : e.size = Values.Size e.values := rfl
            rw [h1, h2]
            unfold uint64; omega
          wf := hwf.setEntry (by simp [he]) (entry.filter_inv min max (hwf.sorted osId e he))
          control := ⟨rfl, rfl, rfl, rfl, rfl, rfl⟩ }


theorem valuesOf_excludedEntry (x : Option entry) (min max : Int64) :
    valuesOf (x.bind (excludedEntry min max)) = Values.Exclude (valuesOf x) min max := by
  cases x with
  | none => rfl
  | some e =>
    simp only [Option.bind, excludedEntry]
    split_ifs with h
    · simp only [entry.count, entry.filter, List.length_eq_zero] at h
      simp [valuesOf, h]
    · rfl

theorem filter_inRange_Exclude (a : Values) (min max : Int64) :
    (Values.Exclude a min max).filter (inRange min max) = [] := by
  unfold Values.Exclude
  rw [List.filter_filter, List.filter_eq_nil_iff]
  intro v _
  simp

theorem Exclude_idem (a : Values) (min max : Int64) :
    Values.Exclude (Values.Exclude a min max) min max = Values.Exclude a min max := by
  unfold Values.Exclude
  rw [List.filter_filter]
  congr 1
  funext v
  simp

theorem excludedEntry_idem (x : Option entry) (min max : Int64) :
    (x.bind (excludedEntry min max)).bind (excludedEntry min max)
      = x.bind (excludedEntry min max) := by
  cases x with
  | none => rfl
  | some e =>
    simp only [Option.bind, excludedEntry]
    split_ifs with h
    · rfl
    · have hf : (e.filter min max).filter min max = e.filter min max := by
        simp only [entry.filter, Exclude_idem]
      show excludedEntry min max (e.filter min max) = some (e.filter min max)
      unfold excludedEntry
      rw [hf, if_neg h]

theorem sum_map_update {l : List String} (hl : l.Nodup) {k0 : String} (hk : k0 ∈ l)
    (g g1 : String → Nat) (h0 : g1 k0 = 0) (hne : ∀ k, k ≠ k0 → g1 k = g k) :
    (l.map g).sum = g k0 + (l.map g1).sum := by
  induction l with
  | nil => simp at hk
  | cons a l ih =>
    rw [List.nodup_cons] at hl
    rcases List.mem_cons.mp hk with rfl | hm
    · have : l.map g1 = l.map g := by
        apply List.map_congr_left
        intro k hkl
        exact hne k (by rintro rfl; exact hl.1 hkl)
      simp only [List.map_cons, List.sum_cons, h0, this]
      omega
    · have hak : a ≠ k0 := by rintro rfl; exact hl.1 hm
      simp only [List.map_cons, List.sum_cons, ih hl.2 hm, hne a hak]
      omega

/-- `DeleteRange` does not panic in a well-formed cache; its effect on every
key and on `size`. -/
theorem Cache.DeleteRange_spec (keys : List String) (min max : Int64) {c : Cache} (hwf : c.WF) :
    ∃ c', c.DeleteRange keys min max = some c' ∧ c'.WF ∧ c.SameSnapshot c' ∧
      (∀ k, k ∈ keys → c'.liveEntry k = (c.liveEntry k).bind (excludedEntry min max)) ∧
      (∀ k, k ∉ keys → c'.liveEntry k = c.liveEntry k ∧
        mapGet c'.internedOwnedStrings k = mapGet c.internedOwnedStrings k) ∧
      c'.size = uint64 ((c.size : Int) - (c.removedSize keys min max : Int)) := by
  induction keys generalizing c with
  | nil =>
    refine ⟨c, rfl, hwf, Cache.sameSnapshot_refl c, by simp, fun _ _ => ⟨rfl, rfl⟩, ?_⟩
    have := hwf.sizeBound
    simp only [Cache.removedSize, List.dedup_nil, List.map_nil, List.sum_nil]
    unfold uint64; omega
  | cons k0 rest ih =>
    obtain ⟨c1, hc1, hx⟩ := Cache.deleteRangeKey_spec k0 min max hwf.live hwf.sizeBound
    have hwf1 : c1.WF := {
      live := hx.wf
      sibling := by
        intro s hs; rw [hx.control.snapshot] at hs; exact hwf.sibling s hs
      sizeBound := by rw [hx.size]; exact uint64_lt _
      snapshotSizeBound := by rw [hx.control.snapshotSize]; exact hwf.snapshotSizeBound
      maxSizeBound := by rw [hx.control.maxSize]; exact hwf.maxSizeBound }
    obtain ⟨c', hc', hwf', hctl, hin, hout, hsz⟩ := ih hwf1
    refine ⟨c', ?_, hwf', Cache.sameSnapshot_trans hx.control hctl, ?_, ?_, ?_⟩
    · simp only [Cache.DeleteRange, hc1, hc']
    · intro k hk
      by_cases hkr : k ∈ rest
      · rw [hin k hkr]
        by_cases hk0 : k = k0
        · subst hk0; rw [hx.entry, excludedEntry_idem]
        · rw [hx.others k hk0]
      · have hk0 : k = k0 := by
          rcases List.mem_cons.mp hk with h | h
          · exact h
          · exact absurd h hkr
        subst hk0
        rw [(hout k hkr).1, hx.entry]
    · intro k hk
      simp only [List.mem_cons, not_or] at hk
      refine ⟨?_, ?_⟩
      · rw [(hout k hk.2).1, hx.others k hk.1]
      · rw [(hout k hk.2).2, hx.othersInterned k hk.1]
    · rw [hsz, hx.size]
      have hg0 : Values.Size ((c1.liveValues k0).filter (inRange min max)) = 0 := by
        simp only [Cache.liveValues, hx.entry, valuesOf_excludedEntry, filter_inRange_Exclude]
        rfl
      have hgne : ∀ k, k ≠ k0 → Values.Size ((c1.liveValues k).filter (inRange min max))
          = Values.Size ((c.liveValues k).filter (inRange min max)) := by
        intro k hk
        simp only [Cache.liveValues, hx.others k hk]
      have hsum : c.removedSize (k0 :: rest) min max
          = Values.Size ((c.liveValues k0).filter (inRange min max))
            + c1.removedSize rest min max := by
        unfold Cache.removedSize
        by_cases hmem : k0 ∈ rest
        · rw [List.dedup_cons_of_mem hmem]
          exact sum_map_update (List.nodup_dedup rest) (List.mem_dedup.mpr hmem) _ _ hg0 hgne
        · rw [List.dedup_cons_of_not_mem hmem]
          simp only [List.map_cons, List.sum_cons]
          congr 2
          apply List.map_congr_left
          intro k hkl
          have : k ≠ k0 := by
            rintro rfl; exact hmem (List.mem_dedup.mp hkl)
          exact (hgne k this).symm
      rw [hsum]
      unfold uint64; omega

theorem Cache.DeleteRange_WF {c c' : Cache} {keys : List String} {min max : Int64} (hwf : c.WF)
    (h : c.DeleteRange keys min max = some c') : c'.WF := by
  obtain ⟨c2, h2, hwf2, -⟩ := Cache.DeleteRange_spec keys min max hwf
  rw [h2] at h
  cases h
  exact hwf2


/-! ## Snapshots (`Snapshot`, `ClearSnapshot`) -/

theorem entry.setNeedSort_inv {e : entry} (b : Bool) (he : e.Inv) :
    (if b = true then ({ e with needSort := true } : entry) else e).Inv := by
  cases b with
  | false => simpa using he
  | true => intro h; simp at h

theorem entry.setNeedSort_values (e : entry) (b : Bool) :
    (if b = true then ({ e with needSort := true } : entry) else e).values = e.values := by
  cases b <;> rfl

/-- One round of the loop of `Snapshot`, when it does not panic. -/
theorem snapshotAppend_spec {reverse : List (OwnedStringID × OwnedString)}
    {st st' : SnapshotLoop} {osId : OwnedStringID} {e : entry}
    (hwf : MapsWF st.snapshot.store st.snapshot.internedOwnedStrings
      st.snapshot.internedOwnedStringsReverse st.snapshot.ownedStringIDAcc)
    (he : e.Inv) (h : snapshotAppend reverse st osId e = some st') :
    MapsWF st'.snapshot.store st'.snapshot.internedOwnedStrings
      st'.snapshot.internedOwnedStringsReverse st'.snapshot.ownedStringIDAcc ∧
    (∃ se, st'.snapshot.entryOf (keyOf reverse osId) = some se ∧
      se.values = valuesOf (st.snapshot.entryOf (keyOf reverse osId)) ++ e.values) ∧
    (∀ k2, k2 ≠ keyOf reverse osId → st'.snapshot.entryOf k2 = st.snapshot.entryOf k2) ∧
    st'.snapshotSize = uint64 ((st.snapshotSize : Int) + (Values.Size e.values : Int)) := by
  unfold snapshotAppend at h
  have hsize : uint64 ((st.snapshotSize : Int) + (uint64 (Values.Size e.values : Int) : Int))
      = uint64 ((st.snapshotSize : Int) + (Values.Size e.values : Int)) := by
    unfold uint64; omega
  simp only [hsize] at h
  change (match mapGet st.snapshot.internedOwnedStrings (keyOf reverse osId) with
    | some osId2 => _
    | none => _) = some st' at h
  cases hg : mapGet st.snapshot.internedOwnedStrings (keyOf reverse osId) with
  | some osId2 =>
    obtain ⟨se, hse⟩ := hwf.store_isSome hg
    simp only [hg, hse] at h
    cases ha : se.add e.values with
    | none => simp [ha] at h
    | some se' =>
      simp only [ha, Option.some.injEq] at h
      subst h
      have hold : st.snapshot.entryOf (keyOf reverse osId) = some se := by
        simp [SnapshotCache.entryOf, lookupEntry, hg, hse, Option.bind]
      refine ⟨?_, ?_, ?_, rfl⟩
      · exact hwf.setEntry (by simp [hse])
          (entry.setNeedSort_inv e.needSort (entry.add_inv (hwf.sorted osId2 se hse) ha))
      · refine ⟨(if e.needSort = true then ({ se' with needSort := true } : entry) else se'),
          ?_, ?_⟩
        · simp only [SnapshotCache.entryOf]
          rw [lookupEntry_setEntry hwf hg, if_pos rfl]
        · rw [entry.setNeedSort_values, entry.add_values ha, hold]; rfl
      · intro k2 hk2
        simp only [SnapshotCache.entryOf]
        rw [lookupEntry_setEntry hwf hg, if_neg hk2]
  | none =>
    simp only [hg, Option.some.injEq] at h
    subst h
    have hold : st.snapshot.entryOf (keyOf reverse osId) = none := by
      simp [SnapshotCache.entryOf, lookupEntry, hg]
    refine ⟨?_, ?_, ?_, rfl⟩
    · exact hwf.insertFresh hg (entry.setNeedSort_inv e.needSort he)
    · refine ⟨(if e.needSort = true then ({ e with needSort := true } : entry) else e), ?_, ?_⟩
      · simp only [SnapshotCache.entryOf]
        rw [lookupEntry_insertFresh hwf]
        exact if_pos rfl
      · rw [entry.setNeedSort_values, hold]; rfl
    · intro k2 hk2
      simp only [SnapshotCache.entryOf]
      rw [lookupEntry_insertFresh hwf]
      exact if_neg hk2

/-- The loop of `Snapshot` over live bindings with pairwise different keys,
when it does not panic. -/
theorem snapshotLoop_spec {reverse : List (OwnedStringID × OwnedString)}
    {l : List (OwnedStringID × entry)} {st st' : SnapshotLoop}
    (hwf : MapsWF st.snapshot.store st.snapshot.internedOwnedStrings
      st.snapshot.internedOwnedStringsReverse st.snapshot.ownedStringIDAcc)
    (hinv : ∀ p ∈ l, p.2.Inv) (hnd : (l.map (fun p => keyOf reverse p.1)).Nodup)
    (hbound : st.snapshotSize < 18446744073709551616)
    (h : snapshotLoop reverse l st = some st') :
    MapsWF st'.snapshot.store st'.snapshot.internedOwnedStrings
      st'.snapshot.internedOwnedStringsReverse st'.snapshot.ownedStringIDAcc ∧
    (∀ osId e, (osId, e) ∈ l → ∃ se, st'.snapshot.entryOf (keyOf reverse osId) = some se ∧
      se.values = valuesOf (st.snapshot.entryOf (keyOf reverse osId)) ++ e.values) ∧
    (∀ k, k ∉ l.map (fun p => keyOf reverse p.1) →
      st'.snapshot.entryOf k = st.snapshot.entryOf k) ∧
    st'.snapshotSize = uint64 ((st.snapshotSize : Int) + (storeSize l : Int)) := by
  induction l generalizing st with
  | nil =>
    simp only [snapshotLoop, Option.some.injEq] at h
    subst h
    refine ⟨hwf, by simp, fun _ _ => rfl, ?_⟩
    simp only [storeSize, List.map_nil, List.sum_nil]
    unfold uint64; omega
  | cons p rest ih =>
    obtain ⟨osId0, e0⟩ := p
    simp only [snapshotLoop] at h
    cases ha : snapshotAppend reverse st osId0 e0 with
    | none => simp [ha] at h
    | some st1 =>
      simp only [ha] at h
      obtain ⟨hwf1, ⟨se1, hse1, hv1⟩, hoth1, hsz1⟩ :=
        snapshotAppend_spec hwf (hinv _ (List.mem_cons_self _ _)) ha
      simp only [List.map_cons, List.nodup_cons] at hnd
      obtain ⟨hwf', hin, hout, hsz⟩ :=
        ih hwf1 (fun p hp => hinv p (List.mem_cons_of_mem _ hp)) hnd.2
          (by rw [hsz1]; exact uint64_lt _) h
      refine ⟨hwf', ?_, ?_, ?_⟩
      · intro osId e hmem
        rcases List.mem_cons.mp hmem with heq | hm
        · obtain ⟨rfl, rfl⟩ := Prod.mk.inj heq
          rw [hout _ hnd.1]
          exact ⟨se1, hse1, hv1⟩
        · have hne : keyOf reverse osId ≠ keyOf reverse osId0 := by
            intro hc
            apply hnd.1
            rw [← hc]
            exact List.mem_map.mpr ⟨(osId, e), hm, rfl⟩
          obtain ⟨se, hse, hv⟩ := hin osId e hm
          refine ⟨se, hse, ?_⟩
          rw [hv, hoth1 _ hne]
      · intro k hk
        simp only [List.map_cons, List.mem_cons, not_or] at hk
        rw [hout k hk.2, hoth1 k hk.1]
      · rw [hsz, hsz1]
        simp only [storeSize, List.map_cons, List.sum_cons, entry.size]
        unfold uint64; omega


theorem MapsWF.mem_store {store : List (OwnedStringID × entry)}
    {forward : List (OwnedString × OwnedStringID)} {reverse : List (OwnedStringID × OwnedString)}
    {acc : Nat} (h : MapsWF store forward reverse acc) {osId : OwnedStringID} {e : entry}
    (hm : (osId, e) ∈ store) :
    mapGet store osId = some e ∧ ∃ k, mapGet reverse osId = some k ∧
      mapGet forward k = some osId ∧ keyOf reverse osId = k := by
  have hs := mapGet_of_mem h.nodupStore hm
  have hr := (h.covers osId).mp (by simp [hs])
  obtain ⟨k, hk⟩ := Option.isSome_iff_exists.mp hr
  exact ⟨hs, k, hk, (h.inverse k osId).mpr hk, by simp [keyOf, hk]⟩

theorem MapsWF.nodup_keyOf {store : List (OwnedStringID × entry)}
    {forward : List (OwnedString × OwnedStringID)} {reverse : List (OwnedStringID × OwnedString)}
    {acc : Nat} (h : MapsWF store forward reverse acc) :
    (store.map (fun p => keyOf reverse p.1)).Nodup := by
  have : store.map (fun p => keyOf reverse p.1) = (mapKeys store).map (keyOf reverse) := by
    simp [mapKeys, List.map_map, Function.comp]
  rw [this]
  refine List.Nodup.map_on ?_ h.nodupStore
  intro x hx y hy hxy
  obtain ⟨⟨x1, ex⟩, hxm, rfl⟩ := List.mem_map.mp hx
  obtain ⟨⟨y1, ey⟩, hym, rfl⟩ := List.mem_map.mp hy
  obtain ⟨-, kx, -, hfx, hkx⟩ := h.mem_store hxm
  obtain ⟨-, ky, -, hfy, hky⟩ := h.mem_store hym
  simp only at hxy hkx hky ⊢
  rw [hkx, hky] at hxy
  subst hxy
  rw [hfx] at hfy
  exact Option.some.inj hfy

/-- The effect of a `Snapshot` that returns the sibling. -/
theorem Cache.Snapshot_spec {c c' : Cache} {s : SnapshotCache} (hwf : c.WF)
    (h : c.Snapshot = some (c', Except.ok s)) : c.Snapshotted c' s := by
  unfold Cache.Snapshot at h
  by_cases hsn : c.snapshotting = true
  · simp [hsn] at h
  simp only [hsn, Bool.false_eq_true, if_false] at h
  -- the sibling the loop starts from
  obtain ⟨s0, hs0, hwf0, hentry0⟩ : ∃ s0 : SnapshotCache,
      (match c.snapshot with
        | none => SnapshotCache.empty
        | some s => s) = s0 ∧
      MapsWF s0.store s0.internedOwnedStrings s0.internedOwnedStringsReverse s0.ownedStringIDAcc ∧
      ∀ k, s0.entryOf k = c.snapshotEntry k := by
    cases hc : c.snapshot with
    | none =>
      refine ⟨SnapshotCache.empty, rfl, MapsWF.empty_wf 0, ?_⟩
      intro k
      simp [Cache.snapshotEntry, hc, SnapshotCache.entryOf, SnapshotCache.empty, lookupEntry,
        mapGet]
    | some s1 =>
      refine ⟨s1, rfl, hwf.sibling s1 hc, ?_⟩
      intro k
      simp [Cache.snapshotEntry, hc]
  rw [hs0] at h
  cases hl : snapshotLoop c.internedOwnedStringsReverse c.store
      { snapshot := s0, arena := c.arena, snapshotSize := c.snapshotSize } with
  | none => simp [hl] at h
  | some st =>
    simp only [hl, Option.some.injEq, Prod.mk.injEq, Except.ok.injEq] at h
    obtain ⟨hc', hs⟩ := h
    have hinv : ∀ p ∈ c.store, p.2.Inv := by
      intro p hp
      obtain ⟨osId, e⟩ := p
      exact hwf.live.sorted osId e (hwf.live.mem_store hp).1
    obtain ⟨hwf', hin, hout, hsz⟩ :=
      snapshotLoop_spec hwf0 hinv hwf.live.nodup_keyOf hwf.snapshotSizeBound hl
    simp only at hin hout hsz
    have hsnap : c'.snapshot = some s := by rw [← hc', ← hs]; rfl
    have hent : ∀ k, c'.snapshotEntry k = st.snapshot.entryOf k := by
      intro k; simp [Cache.snapshotEntry, hsnap, ← hs]
    -- the sibling's entry for each key, by whether the key was live
    have hkey : ∀ k, (∀ e, c.liveEntry k = some e →
          ∃ se, st.snapshot.entryOf k = some se ∧
            se.values = valuesOf (c.snapshotEntry k) ++ e.values) ∧
        (c.liveEntry k = none → st.snapshot.entryOf k = c.snapshotEntry k) := by
      intro k
      constructor
      · intro e he
        simp only [Cache.liveEntry, lookupEntry] at he
        cases hg : mapGet c.internedOwnedStrings k with
        | none => simp [hg] at he
        | some osId =>
          simp only [hg, Option.bind] at he
          have hmem := mem_of_mapGet he
          have hk : keyOf c.internedOwnedStringsReverse osId = k := by
            simp [keyOf, (hwf.live.inverse k osId).mp hg]
          obtain ⟨se, hse, hv⟩ := hin osId e hmem
          rw [hk] at hse hv
          exact ⟨se, hse, by rw [hv, hentry0]⟩
      · intro hnone
        rw [← hentry0]
        apply hout
        intro hmem
        obtain ⟨⟨osId, e⟩, hp, hk⟩ := List.mem_map.mp hmem
        obtain ⟨-, k', -, hf, hk'⟩ := hwf.live.mem_store hp
        simp only at hk
        rw [hk'] at hk
        subst hk
        have := (lookupEntry_eq_none_iff hwf.live k').mp hnone
        rw [hf] at this
        cases this
    exact {
      wf := by
        rw [← hc']
        exact {
          live := MapsWF.empty_wf _
          sibling := by
            intro s2 hs2
            simp only [Cache.updateSnapshots, Cache.updateCachedBytes, Cache.updateMemSize,
              Option.some.injEq] at hs2
            subst hs2
            exact hwf'
          sizeBound := by
            simp [Cache.updateSnapshots, Cache.updateCachedBytes, Cache.updateMemSize]
          snapshotSizeBound := by
            simp only [Cache.updateSnapshots, Cache.updateCachedBytes, Cache.updateMemSize]
            rw [hsz]; exact uint64_lt _
          maxSizeBound := hwf.maxSizeBound }
      sibling := hsnap
      snapshotting := by rw [← hc']; rfl
      snapshotAttempts := by rw [← hc']; rfl
      store := by rw [← hc']; rfl
      forward := by rw [← hc']; rfl
      reverse := by rw [← hc']; rfl
      size := by rw [← hc']; rfl
      maxSize := by rw [← hc']; rfl
      values := by
        intro k
        simp only [Cache.snapshotValues, Cache.liveValues, hent]
        cases hle : c.liveEntry k with
        | none => rw [(hkey k).2 hle]; simp [valuesOf]
        | some e =>
          obtain ⟨se, hse, hv⟩ := (hkey k).1 e hle
          rw [hse]; simp only [valuesOf]; exact hv
      keys := by
        intro k
        rw [hent]
        cases hle : c.liveEntry k with
        | none => rw [(hkey k).2 hle]; simp
        | some e =>
          obtain ⟨se, hse, -⟩ := (hkey k).1 e hle
          simp [hse]
      snapshotSize := by rw [← hc']; exact hsz }

/-- `Snapshot` returns `ErrSnapshotInProgress` exactly when a snapshot is in
progress, and then leaves the cache as it is. -/
theorem Cache.Snapshot_error (c : Cache) :
    (c.snapshotting = true → c.Snapshot = some (c, Except.error Error.ErrSnapshotInProgress)) ∧
    (∀ c' e, c.Snapshot = some (c', Except.error e) → c.snapshotting = true) := by
  constructor
  · intro h; simp [Cache.Snapshot, h]
  · intro c' e h
    by_contra hsn
    unfold Cache.Snapshot at h
    simp only [hsn, Bool.false_eq_true, if_false] at h
    cases hl : snapshotLoop c.internedOwnedStringsReverse c.store
      { snapshot := (match c.snapshot with
          | none => SnapshotCache.empty
          | some s => s), arena := c.arena, snapshotSize := c.snapshotSize } with
    | none => simp [hl] at h
    | some st => simp [hl] at h

theorem Cache.Snapshot_WF {c c' : Cache} {r : Except Error SnapshotCache} (hwf : c.WF)
    (h : c.Snapshot = some (c', r)) : c'.WF := by
  cases r with
  | ok s => exact (Cache.Snapshot_spec hwf h).wf
  | error e =>
    have hsn := (Cache.Snapshot_error c).2 c' e h
    rw [(Cache.Snapshot_error c).1 hsn] at h
    simp only [Option.some.injEq, Prod.mk.injEq] at h
    rw [← h.1]; exact hwf

/-- Every reachable cache state satisfies the representation invariant. -/
theorem reachable_WF {c : Cache} (h : Reachable c) : c.WF := by
  induction h with
  | init maxSize arena => exact NewCache_WF maxSize arena
  | step op _ hop hstep ih =>
    cases op with
    | Write key values =>
      simp only [Cache.step, Option.map_eq_some', Prod.exists, exists_and_right,
        exists_eq_right] at hstep
      obtain ⟨r, hr⟩ := hstep
      exact Cache.Write_WF ih hr
    | WriteMulti values =>
      simp only [Cache.step, Option.map_eq_some', Prod.exists, exists_and_right,
        exists_eq_right] at hstep
      obtain ⟨r, hr⟩ := hstep
      exact Cache.WriteMulti_WF ih hop hr
    | Values key =>
      simp only [Cache.step, Option.map_eq_some', Prod.exists, exists_and_right,
        exists_eq_right] at hstep
      obtain ⟨r, hr⟩ := hstep
      exact Cache.Values_WF ih hr
    | Deduplicate =>
      simp only [Cache.step, Option.some.injEq] at hstep
      rw [← hstep]; exact Cache.Deduplicate_WF ih
    | DeduplicateSnapshot =>
      simp only [Cache.step, Option.some.injEq] at hstep
      rw [← hstep]; exact Cache.DeduplicateSnapshot_WF ih
    | Snapshot =>
      simp only [Cache.step, Option.map_eq_some', Prod.exists, exists_and_right,
        exists_eq_right] at hstep
      obtain ⟨r, hr⟩ := hstep
      exact Cache.Snapshot_WF ih hr
    | ClearSnapshot success =>
      exact Cache.ClearSnapshot_WF ih hstep
    | Delete keys =>
      exact Cache.DeleteRange_WF ih hstep
    | DeleteRange keys min max =>
      exact Cache.DeleteRange_WF ih hstep
    | SetMaxSize size =>
      simp only [Cache.step, Option.some.injEq] at hstep
      rw [← hstep]; exact Cache.SetMaxSize_WF size ih


/-! ## Example states -/

theorem sixtyState_reachable : Reachable sixtyState :=
  Reachable.step (Op.Write "k" [v60]) (Reachable.init 100 []) trivial (by decide)

theorem writtenState_reachable : Reachable writtenState :=
  Reachable.step (Op.Write "k" [v1a, v5a]) (Reachable.init 0 []) trivial (by decide)

theorem snapshotState_reachable : Reachable snapshotState :=
  Reachable.step Op.Snapshot writtenState_reachable trivial (by decide)

theorem handoffState_reachable : Reachable handoffState :=
  Reachable.step (Op.Write "k" [v5b, v6a]) snapshotState_reachable trivial (by decide)

/-! ## The claims about reads -/

/-- C1: in every reachable cache state and for every key `k`, `Values(k)`
returns `Deduplicate(S ++ L)`, `S` the sibling's values of `k` and `L` the live
values of `k` (empty when absent).  The result is strictly increasing by
timestamp, holds exactly the timestamps that occur in `S` or `L`, and under
each timestamp the value that arrived last in `S ++ L` (live over snapshot,
later over earlier). -/
theorem Values_eq_Deduplicate (c : Cache) (hr : Reachable c) (k : String) :
    ∃ c' r, c.Values k = some (c', r) ∧
      r = Values.Deduplicate (c.snapshotValues k ++ c.liveValues k) ∧
      StrictlyIncreasing r ∧
      (∀ t, (∃ v ∈ r, v.ts = t) ↔
        ((∃ v ∈ c.snapshotValues k, v.ts = t) ∨ (∃ v ∈ c.liveValues k, v.ts = t))) ∧
      (∀ v ∈ r, lastAt v.ts (c.snapshotValues k ++ c.liveValues k) = some v) := by
  have hwf := reachable_WF hr
  obtain ⟨h1, h2, h3⟩ := Deduplicate_spec (c.snapshotValues k ++ c.liveValues k)
  refine ⟨c.dedupKey k, _, Cache.merged_eq hwf k, rfl, h1, ?_, h3⟩
  intro t
  rw [h2 t]
  constructor
  · rintro ⟨v, hv, hvt⟩
    rcases List.mem_append.mp hv with h | h
    · exact Or.inl ⟨v, h, hvt⟩
    · exact Or.inr ⟨v, h, hvt⟩
  · rintro (⟨v, hv, hvt⟩ | ⟨v, hv, hvt⟩)
    · exact ⟨v, List.mem_append_left _ hv, hvt⟩
    · exact ⟨v, List.mem_append_right _ hv, hvt⟩

/-- C1 at a state where the sibling holds `[(1,_),(5,_)]` and the live cache
`[(5,_),(6,_)]` for `k`: the read returns `[(1,_),(5,_),(6,_)]` with the live
value at timestamp 5. -/
theorem Values_eq_Deduplicate_witness :
    Reachable handoffState ∧
    (handoffState.Values "k").map Prod.snd = some [v1a, v5b, v6a] ∧
    ∃ c' r, handoffState.Values "k" = some (c', r) ∧
      r = Values.Deduplicate (handoffState.snapshotValues "k" ++ handoffState.liveValues "k") ∧
      StrictlyIncreasing r ∧
      (∀ t, (∃ v ∈ r, v.ts = t) ↔
        ((∃ v ∈ handoffState.snapshotValues "k", v.ts = t) ∨
          (∃ v ∈ handoffState.liveValues "k", v.ts = t))) ∧
      (∀ v ∈ r, lastAt v.ts (handoffState.snapshotValues "k" ++ handoffState.liveValues "k")
        = some v) :=
  ⟨handoffState_reachable, by decide,
   Values_eq_Deduplicate handoffState handoffState_reachable "k"⟩


/-- C5, amended: `WriteMulti` applies the admission rule to the aggregate size
`T`, the sum of the sizes of the batches: it rejects exactly when
`maxSize > 0` and `size + T + snapshotSize`, reduced modulo `2 ^ 64`, exceeds
`maxSize`; so when `size + T + snapshotSize` stays below `2 ^ 64` it rejects
exactly when `maxSize > 0` and `size + T + snapshotSize > maxSize`.  When it
returns nil, every key of the map has an entry whose values are its previous
values followed by its batch, the keys not in the map keep their entries, and
`size` has grown by `T` modulo `2 ^ 64`, by exactly `T` when `size + T` stays
below `2 ^ 64`. -/
theorem WriteMulti_spec (c : Cache) (batches : List (String × Values)) (hwf : c.WF)
    (hnd : (batches.map Prod.fst).Nodup) :
    ((∃ c', c.WriteMulti batches = some (c', some Error.ErrCacheMemoryExceeded)) ↔
      (c.maxSize > 0 ∧
        (c.size + (batches.map (fun p => Values.Size p.2)).sum + c.snapshotSize)
          % 18446744073709551616 > c.maxSize)) ∧
    (c.size + (batches.map (fun p => Values.Size p.2)).sum + c.snapshotSize
        < 18446744073709551616 →
      ((∃ c', c.WriteMulti batches = some (c', some Error.ErrCacheMemoryExceeded)) ↔
        (c.maxSize > 0 ∧
          c.size + (batches.map (fun p => Values.Size p.2)).sum + c.snapshotSize > c.maxSize))) ∧
    (∀ c', c.WriteMulti batches = some (c', none) →
      (∀ k v, (k, v) ∈ batches →
        ∃ e', c'.liveEntry k = some e' ∧ e'.values = c.liveValues k ++ v) ∧
      (∀ k, k ∉ batches.map Prod.fst → c'.liveEntry k = c.liveEntry k) ∧
      c'.size = (c.size + (batches.map (fun p => Values.Size p.2)).sum)
        % 18446744073709551616 ∧
      (c.size + (batches.map (fun p => Values.Size p.2)).sum < 18446744073709551616 →
        c'.size = c.size + (batches.map (fun p => Values.Size p.2)).sum)) := by
  have e1 : uint64 (↑(uint64 (↑c.size
        + ↑(uint64 ↑(batches.map (fun p => Values.Size p.2)).sum))) + ↑c.snapshotSize)
      = (c.size + (batches.map (fun p => Values.Size p.2)).sum + c.snapshotSize)
          % 18446744073709551616 := by
    unfold uint64; omega
  have hrej : (∃ c', c.WriteMulti batches = some (c', some Error.ErrCacheMemoryExceeded)) ↔
      (c.maxSize > 0 ∧
        (c.size + (batches.map (fun p => Values.Size p.2)).sum + c.snapshotSize)
          % 18446744073709551616 > c.maxSize) := by
    constructor
    · rintro ⟨c', hc'⟩
      unfold Cache.WriteMulti at hc'
      simp only [e1] at hc'
      split_ifs at hc' with hcond
      · exact hcond
      · cases hw : c.writeMultiLoop batches <;> simp [hw] at hc'
    · intro hcond
      refine ⟨c, ?_⟩
      unfold Cache.WriteMulti
      simp only [e1]
      rw [if_pos hcond]
  refine ⟨hrej, ?_, ?_⟩
  · intro hlt
    rw [hrej, Nat.mod_eq_of_lt hlt]
  · intro c' h
    unfold Cache.WriteMulti at h
    simp only at h
    split_ifs at h with hcond
    · simp at h
    · cases hw : c.writeMultiLoop batches with
      | none => simp [hw] at h
      | some c1 =>
        simp only [hw, Option.some.injEq, Prod.mk.injEq, and_true] at h
        obtain ⟨-, hctl, hin, hout⟩ := Cache.writeMultiLoop_spec hwf.live hnd hw
        have hl : ∀ k2, c'.liveEntry k2 = c1.liveEntry k2 := by
          intro k2; rw [← h]; rfl
        have hsz : c'.size = (c.size + (batches.map (fun p => Values.Size p.2)).sum)
            % 18446744073709551616 := by
          rw [← h]
          simp only [Cache.updateMemSize, hctl.size]
          unfold uint64; omega
        refine ⟨?_, ?_, hsz, ?_⟩
        · intro k v hkv; rw [hl]; exact hin k v hkv
        · intro k hk; rw [hl]; exact hout k hk
        · intro hlt; rw [hsz]; exact Nat.mod_eq_of_lt hlt

/-- C5 (amended) at a fresh cache with a budget of 100 bytes and two batches of
60 and 20 bytes: the call returns nil and `size` becomes 80. -/
theorem WriteMulti_spec_witness :
    (NewCache 100 []).WF ∧ ([("a", [v60]), ("b", [v1a, v5a])].map Prod.fst).Nodup ∧
    ((NewCache 100 []).WriteMulti [("a", [v60]), ("b", [v1a, v5a])]).map
      (fun r => (r.2, r.1.size, r.1.liveValues "a", r.1.liveValues "b"))
      = some (none, 80, [v60], [v1a, v5a]) ∧
    (∀ c', (NewCache 100 []).WriteMulti [("a", [v60]), ("b", [v1a, v5a])] = some (c', none) →
      ∀ k, k ∉ [("a", [v60]), ("b", [v1a, v5a])].map Prod.fst →
        c'.liveEntry k = (NewCache 100 []).liveEntry k) :=
  ⟨NewCache_WF 100 [], by decide, by decide, fun c' h =>
    ((WriteMulti_spec (NewCache 100 []) [("a", [v60]), ("b", [v1a, v5a])] (NewCache_WF 100 [])
      (by decide)).2.2 c' h).2.1⟩


theorem lookupEntry_dedupAt {store : List (OwnedStringID × entry)}
    {forward : List (OwnedString × OwnedStringID)} {reverse : List (OwnedStringID × OwnedString)}
    {acc : Nat} (h : MapsWF store forward reverse acc) (k : String) :
    lookupEntry (dedupAt store forward k) forward k
      = (lookupEntry store forward k).map entry.deduplicate := by
  unfold dedupAt
  cases hg : mapGet forward k with
  | none => simp [lookupEntry, hg]
  | some id =>
    obtain ⟨e, he⟩ := h.store_isSome hg
    simp only [he]
    rw [lookupEntry_setEntry h hg, if_pos rfl]
    simp [lookupEntry, hg, he, Option.bind]

theorem valuesOf_map_deduplicate {x : Option entry} (h : ∀ e, x = some e → e.Inv) :
    valuesOf (x.map entry.deduplicate) = Values.Deduplicate (valuesOf x) := by
  cases x with
  | none => rfl
  | some e => exact entry.deduplicate_values (h e rfl)

theorem MapsWF.lookupEntry_inv {store : List (OwnedStringID × entry)}
    {forward : List (OwnedString × OwnedStringID)} {reverse : List (OwnedStringID × OwnedString)}
    {acc : Nat} (h : MapsWF store forward reverse acc) {k : String} {e : entry}
    (he : lookupEntry store forward k = some e) : e.Inv := by
  unfold lookupEntry at he
  cases hg : mapGet forward k with
  | none => simp [hg] at he
  | some id =>
    simp only [hg, Option.bind] at he
    exact h.sorted id e he

/-- The values a read of `k` leaves under `k`: the deduplicated ones. -/
theorem Cache.dedupKey_values {c : Cache} (hwf : c.WF) (k : String) :
    (c.dedupKey k).liveValues k = Values.Deduplicate (c.liveValues k) ∧
    (c.dedupKey k).snapshotValues k = Values.Deduplicate (c.snapshotValues k) := by
  constructor
  · simp only [Cache.liveValues, Cache.liveEntry, Cache.dedupKey]
    rw [lookupEntry_dedupAt hwf.live]
    exact valuesOf_map_deduplicate (fun e he => hwf.live.lookupEntry_inv he)
  · simp only [Cache.snapshotValues, Cache.snapshotEntry, Cache.dedupKey]
    cases hs : c.snapshot with
    | none => rfl
    | some s =>
      simp only [Option.map_some', Option.bind, SnapshotCache.entryOf]
      rw [lookupEntry_dedupAt (hwf.sibling s hs)]
      exact valuesOf_map_deduplicate (fun e he => (hwf.sibling s hs).lookupEntry_inv he)

theorem Cache.liveValues_of_store_nil {c : Cache} (h : c.internedOwnedStrings = [])
    (k : String) : c.liveValues k = [] := by
  simp [Cache.liveValues, Cache.liveEntry, lookupEntry, h, mapGet, valuesOf]

theorem lookupEntry_dedupAt_of_ne {store : List (OwnedStringID × entry)}
    {forward : List (OwnedString × OwnedStringID)} {reverse : List (OwnedStringID × OwnedString)}
    {acc : Nat} (h : MapsWF store forward reverse acc) {k k2 : String} (hne : k ≠ k2) :
    lookupEntry (dedupAt store forward k2) forward k = lookupEntry store forward k := by
  unfold dedupAt
  cases hg : mapGet forward k2 with
  | none => rfl
  | some id =>
    cases he : mapGet store id with
    | none => simp only [he]
    | some e =>
      simp only [he]
      rw [lookupEntry_setEntry h hg, if_neg hne]

theorem lastAt_valuesOf_map_deduplicate {x : Option entry} (h : ∀ e, x = some e → e.Inv)
    (t : Int) : lastAt t (valuesOf (x.map entry.deduplicate)) = lastAt t (valuesOf x) := by
  rw [valuesOf_map_deduplicate h, lastAt_Deduplicate]

/-- A read of `k2` leaves under every key the same last-arrived values. -/
theorem Cache.dedupKey_lastAt {c : Cache} (hwf : c.WF) (k2 k : String) (t : Int) :
    lastAt t ((c.dedupKey k2).liveValues k) = lastAt t (c.liveValues k) ∧
    lastAt t ((c.dedupKey k2).snapshotValues k) = lastAt t (c.snapshotValues k) := by
  by_cases hk : k = k2
  · subst hk
    rw [(Cache.dedupKey_values hwf k).1, (Cache.dedupKey_values hwf k).2,
      lastAt_Deduplicate, lastAt_Deduplicate]
    exact ⟨rfl, rfl⟩
  · constructor
    · simp only [Cache.liveValues, Cache.liveEntry, Cache.dedupKey]
      rw [lookupEntry_dedupAt_of_ne hwf.live hk]
    · simp only [Cache.snapshotValues, Cache.snapshotEntry, Cache.dedupKey]
      cases hs : c.snapshot with
      | none => rfl
      | some s =>
        simp only [Option.map_some', Option.bind, SnapshotCache.entryOf]
        rw [lookupEntry_dedupAt_of_ne (hwf.sibling s hs) hk]

/-- A call that writes no data keeps the invariant and what every read
returns. -/
theorem Cache.quiet_step {c c2 : Cache} {op : Op} (hwf : c.WF) (hq : op.quiet = true)
    (h : c.step op = some c2) (k : String) :
    c2.WF ∧ Values.Deduplicate (c2.snapshotValues k ++ c2.liveValues k)
      = Values.Deduplicate (c.snapshotValues k ++ c.liveValues k) := by
  cases op with
  | Write key values => simp [Op.quiet] at hq
  | WriteMulti values => simp [Op.quiet] at hq
  | Snapshot => simp [Op.quiet] at hq
  | Delete keys => simp [Op.quiet] at hq
  | DeleteRange keys min max => simp [Op.quiet] at hq
  | Values key =>
    simp only [Cache.step, Cache.Values, Cache.merged_eq hwf key, Option.map_some',
      Option.some.injEq] at h
    subst h
    exact ⟨Cache.dedupKey_WF hwf key, Deduplicate_append_congr
      (fun t => (Cache.dedupKey_lastAt hwf key k t).2)
      (fun t => (Cache.dedupKey_lastAt hwf key k t).1)⟩
  | Deduplicate =>
    simp only [Cache.step, Option.some.injEq] at h
    subst h
    refine ⟨Cache.Deduplicate_WF hwf, Deduplicate_append_congr (fun t => rfl) ?_⟩
    intro t
    simp only [Cache.liveValues, Cache.liveEntry, Cache.Deduplicate]
    rw [lookupEntry_mapEntries]
    exact lastAt_valuesOf_map_deduplicate (fun e he => hwf.live.lookupEntry_inv he) t
  | DeduplicateSnapshot =>
    simp only [Cache.step, Option.some.injEq] at h
    subst h
    refine ⟨Cache.DeduplicateSnapshot_WF hwf, Deduplicate_append_congr ?_ (fun t => rfl)⟩
    intro t
    simp only [Cache.snapshotValues, Cache.snapshotEntry]
    cases hs : c.snapshot with
    | none => rfl
    | some s =>
      simp only [Option.map_some', Option.bind, SnapshotCache.entryOf,
        SnapshotCache.Deduplicate]
      rw [lookupEntry_mapEntries]
      exact lastAt_valuesOf_map_deduplicate
        (fun e he => (hwf.sibling s hs).lookupEntry_inv he) t
  | ClearSnapshot success =>
    cases success with
    | true => simp [Op.quiet] at hq
    | false =>
      simp only [Cache.step] at h
      have hwf2 := Cache.ClearSnapshot_WF hwf h
      simp only [Cache.ClearSnapshot, Bool.false_eq_true, if_false,
        Option.some.injEq] at h
      subst h
      exact ⟨hwf2, rfl⟩
  | SetMaxSize size =>
    simp only [Cache.step, Option.some.injEq] at h
    subst h
    exact ⟨Cache.SetMaxSize_WF size hwf, rfl⟩

/-- A sequence of calls that write no data keeps what every read returns. -/
theorem Cache.quiet_run {ops : List Op} {c c2 : Cache} (hwf : c.WF)
    (hq : ∀ op ∈ ops, op.quiet = true) (h : c.run ops = some c2) (k : String) :
    c2.WF ∧ Values.Deduplicate (c2.snapshotValues k ++ c2.liveValues k)
      = Values.Deduplicate (c.snapshotValues k ++ c.liveValues k) := by
  induction ops generalizing c with
  | nil =>
    simp only [Cache.run, Option.some.injEq] at h
    subst h
    exact ⟨hwf, rfl⟩
  | cons op ops ih =>
    simp only [Cache.run] at h
    cases hs : c.step op with
    | none => simp [hs] at h
    | some c1 =>
      simp only [hs] at h
      obtain ⟨hwf1, h1⟩ := Cache.quiet_step hwf (hq op (List.mem_cons_self _ _)) hs k
      obtain ⟨hwf2, h2⟩ := ih hwf1 (fun o ho => hq o (List.mem_cons_of_mem _ ho)) h
      exact ⟨hwf2, h2.trans h1⟩

/-- C6: in every reachable state, also one that still holds the sibling of a
failed attempt, a `Snapshot` that succeeds preserves reads.  For every key `k`
the read in the state after the snapshot returns what the read in the state
before it returns; when `Values(k)` is called, then `Snapshot`, then
`Values(k)` again, the second call returns the result of the first; and the
read keeps returning that result after any further calls that write no data
(reads, `Deduplicate`, `ClearSnapshot(false)`, `SetMaxSize`).  So every
timestamp observable before the snapshot stays observable, with the same
value. -/
theorem Snapshot_preserves_reads (c : Cache) (hr : Reachable c) (k : String) (c' : Cache)
    (s : SnapshotCache) (h : c.Snapshot = some (c', Except.ok s)) :
    (∃ r, (c.Values k).map Prod.snd = some r ∧ (c'.Values k).map Prod.snd = some r ∧
      ∀ ops c2, (∀ op ∈ ops, op.quiet = true) → c'.run ops = some c2 →
        (c2.Values k).map Prod.snd = some r) ∧
    (∀ c1 r1, c.Values k = some (c1, r1) →
      ∀ c2 s2, c1.Snapshot = some (c2, Except.ok s2) →
        (c2.Values k).map Prod.snd = some r1) := by
  have hwf := reachable_WF hr
  have key : ∀ (d d' : Cache) (t : SnapshotCache), d.WF → d.Snapshot = some (d', Except.ok t) →
      Values.Deduplicate (d'.snapshotValues k ++ d'.liveValues k)
        = Values.Deduplicate (d.snapshotValues k ++ d.liveValues k) := by
    intro d d' t hd hsnap
    have hsp := Cache.Snapshot_spec hd hsnap
    rw [hsp.values k, Cache.liveValues_of_store_nil hsp.forward, List.append_nil]
  have read : ∀ d : Cache, d.WF → (d.Values k).map Prod.snd
      = some (Values.Deduplicate (d.snapshotValues k ++ d.liveValues k)) := by
    intro d hd
    unfold Cache.Values
    rw [Cache.merged_eq hd k]; rfl
  have hwf' := (Cache.Snapshot_spec hwf h).wf
  constructor
  · refine ⟨Values.Deduplicate (c.snapshotValues k ++ c.liveValues k), read c hwf, ?_, ?_⟩
    · rw [read c' hwf', key c c' s hwf h]
    · intro ops c2 hq hrun
      obtain ⟨hwf2, h2⟩ := Cache.quiet_run hwf' hq hrun k
      rw [read c2 hwf2, h2, key c c' s hwf h]
  · intro c1 r1 h1 c2 s2 h2
    unfold Cache.Values at h1
    rw [Cache.merged_eq hwf k] at h1
    simp only [Option.some.injEq, Prod.mk.injEq] at h1
    obtain ⟨hc1, hr1⟩ := h1
    have hwf1 : c1.WF := by rw [← hc1]; exact Cache.dedupKey_WF hwf k
    rw [read c2 (Cache.Snapshot_spec hwf1 h2).wf, key c1 c2 s2 hwf1 h2, ← hr1, ← hc1,
      (Cache.dedupKey_values hwf k).1, (Cache.dedupKey_values hwf k).2,
      Deduplicate_append_Deduplicate]

theorem retryState_reachable : Reachable retryState :=
  Reachable.step (Op.ClearSnapshot false) handoffState_reachable trivial (by decide)

theorem failedState_reachable : Reachable failedState :=
  Reachable.step (Op.ClearSnapshot false) snapshotState_reachable trivial (by decide)

theorem emptyBatchState_reachable : Reachable emptyBatchState :=
  Reachable.step (Op.Write "k" []) failedState_reachable trivial (by decide)

/-- C6 at the state that holds the sibling of a failed attempt (`k ↦ [1, 5]`)
and new live data (`k ↦ [5, 6]`): the snapshot merges the live entry into the
sibling and the read still returns `[(1,_),(5,_),(6,_)]`. -/
theorem Snapshot_preserves_reads_witness :
    Reachable retryState ∧
    ∃ c' s, retryState.Snapshot = some (c', Except.ok s) ∧
      (retryState.Values "k").map Prod.snd = some [v1a, v5b, v6a] ∧
      (c'.Values "k").map Prod.snd = some [v1a, v5b, v6a] := by
  refine ⟨retryState_reachable, ?_⟩
  have hb : retryState.Snapshot.map (fun r => r.2.toBool) = some true := by decide
  have hv : (retryState.Values "k").map Prod.snd = some [v1a, v5b, v6a] := by decide
  cases hs : retryState.Snapshot with
  | none => rw [hs] at hb; simp at hb
  | some p =>
    obtain ⟨c', r⟩ := p
    cases r with
    | error e => rw [hs] at hb; simp [Except.toBool] at hb
    | ok s =>
      obtain ⟨r, h1, h2, -⟩ :=
        (Snapshot_preserves_reads retryState retryState_reachable "k" c' s hs).1
      rw [hv] at h1
      exact ⟨c', s, rfl, hv, by rw [h2, ← h1]⟩

/-- One round of the loop of `Snapshot` does not panic when the live entry
has a value or the sibling holds no value under its key. -/
theorem snapshotAppend_isSome {reverse : List (OwnedStringID × OwnedString)}
    {st : SnapshotLoop} (osId : OwnedStringID) {e : entry}
    (hwf : MapsWF st.snapshot.store st.snapshot.internedOwnedStrings
      st.snapshot.internedOwnedStringsReverse st.snapshot.ownedStringIDAcc)
    (h : e.values ≠ [] ∨ valuesOf (st.snapshot.entryOf (keyOf reverse osId)) = []) :
    ∃ st', snapshotAppend reverse st osId e = some st' := by
  unfold snapshotAppend
  simp only
  change ∃ st', (match mapGet st.snapshot.internedOwnedStrings (keyOf reverse osId) with
    | some osId2 => _
    | none => _) = some st'
  cases hg : mapGet st.snapshot.internedOwnedStrings (keyOf reverse osId) with
  | some osId2 =>
    obtain ⟨se, hse⟩ := hwf.store_isSome hg
    have hold : st.snapshot.entryOf (keyOf reverse osId) = some se := by
      simp [SnapshotCache.entryOf, lookupEntry, hg, hse, Option.bind]
    rw [hold] at h
    obtain ⟨se', ha⟩ := entry.add_isSome se e.values h
    simp only [hse, ha]
    exact ⟨_, rfl⟩
  | none => exact ⟨_, rfl⟩

/-- The loop of `Snapshot` does not panic when every live entry has a value
or meets no values in the sibling. -/
theorem snapshotLoop_isSome {reverse : List (OwnedStringID × OwnedString)}
    {l : List (OwnedStringID × entry)} {st : SnapshotLoop}
    (hwf : MapsWF st.snapshot.store st.snapshot.internedOwnedStrings
      st.snapshot.internedOwnedStringsReverse st.snapshot.ownedStringIDAcc)
    (hinv : ∀ p ∈ l, p.2.Inv) (hnd : (l.map (fun p => keyOf reverse p.1)).Nodup)
    (h : ∀ p ∈ l, p.2.values ≠ [] ∨
      valuesOf (st.snapshot.entryOf (keyOf reverse p.1)) = []) :
    ∃ st', snapshotLoop reverse l st = some st' := by
  induction l generalizing st with
  | nil => exact ⟨st, rfl⟩
  | cons p rest ih =>
    obtain ⟨osId0, e0⟩ := p
    obtain ⟨st1, hs1⟩ := snapshotAppend_isSome osId0 hwf (h (osId0, e0) (List.mem_cons_self _ _))
    obtain ⟨hwf1, -, hoth1, -⟩ :=
      snapshotAppend_spec hwf (hinv _ (List.mem_cons_self _ _)) hs1
    simp only [List.map_cons, List.nodup_cons] at hnd
    simp only [snapshotLoop, hs1]
    apply ih hwf1 (fun p hp => hinv p (List.mem_cons_of_mem _ hp)) hnd.2
    intro p hp
    have hne : keyOf reverse p.1 ≠ keyOf reverse osId0 := by
      intro hc
      apply hnd.1
      rw [← hc]
      exact List.mem_map.mpr ⟨p, hp, rfl⟩
    rw [hoth1 _ hne]
    exact h p (List.mem_cons_of_mem _ hp)

/-- When no snapshot is in progress, `Snapshot` returns the sibling unless a
live entry without values meets values of the same key in the sibling. -/
theorem Cache.Snapshot_returns {c : Cache} (hwf : c.WF) (hsn : c.snapshotting = false)
    (h : ∀ k e, c.liveEntry k = some e → e.values ≠ [] ∨ c.snapshotValues k = []) :
    ∃ c' s, c.Snapshot = some (c', Except.ok s) := by
  unfold Cache.Snapshot
  simp only [hsn, Bool.false_eq_true, if_false]
  obtain ⟨s0, hs0, hwf0, hentry0⟩ : ∃ s0 : SnapshotCache,
      (match c.snapshot with
        | none => SnapshotCache.empty
        | some s => s) = s0 ∧
      MapsWF s0.store s0.internedOwnedStrings s0.internedOwnedStringsReverse s0.ownedStringIDAcc ∧
      ∀ k, s0.entryOf k = c.snapshotEntry k := by
    cases hc : c.snapshot with
    | none =>
      refine ⟨SnapshotCache.empty, rfl, MapsWF.empty_wf 0, ?_⟩
      intro k
      simp [Cache.snapshotEntry, hc, SnapshotCache.entryOf, SnapshotCache.empty, lookupEntry,
        mapGet]
    | some s1 =>
      refine ⟨s1, rfl, hwf.sibling s1 hc, ?_⟩
      intro k
      simp [Cache.snapshotEntry, hc]
  rw [hs0]
  have hinv : ∀ p ∈ c.store, p.2.Inv := by
    intro p hp
    obtain ⟨osId, e⟩ := p
    exact hwf.live.sorted osId e (hwf.live.mem_store hp).1
  have hloop : ∃ st, snapshotLoop c.internedOwnedStringsReverse c.store
      { snapshot := s0, arena := c.arena, snapshotSize := c.snapshotSize } = some st := by
    apply snapshotLoop_isSome hwf0 hinv hwf.live.nodup_keyOf
    intro p hp
    obtain ⟨osId, e⟩ := p
    obtain ⟨hs, k, -, hf, hk⟩ := hwf.live.mem_store hp
    simp only
    rw [hk, hentry0]
    apply h k e
    simp [Cache.liveEntry, lookupEntry, hf, hs, Option.bind]
  obtain ⟨st, hst⟩ := hloop
  simp only [hst]
  exact ⟨_, _, rfl⟩

/-- C7, the failing input: after `Write("k", [(1,_),(5,_)])`, `Snapshot()`,
`ClearSnapshot(false)` and `Write("k", [])` no snapshot is in progress, yet
`Snapshot()` does not return the sibling: merging the live entry, which has no
values, into the sibling's entry makes `entry.add` read `values[0]` of an
empty batch, and the call panics. -/
theorem Snapshot_panics_on_empty_live_entry :
    Reachable emptyBatchState ∧ emptyBatchState.snapshotting = false ∧
    emptyBatchState.liveEntry "k" = some { values := [], needSort := false } ∧
    emptyBatchState.snapshotValues "k" = [v1a, v5a] ∧
    emptyBatchState.Snapshot = none :=
  ⟨emptyBatchState_reachable, by decide, by decide, by decide,
   Option.isNone_iff_eq_none.mp (by decide)⟩

/-- C8, the failing input: on a fresh cache, which holds no sibling,
`ClearSnapshot(true)` reads `old.internedOwnedStrings` through the nil
`old` and panics. -/
theorem ClearSnapshot_panics_without_sibling :
    Reachable (NewCache 0 []) ∧ (NewCache 0 []).snapshot = none ∧
    (NewCache 0 []).ClearSnapshot true = none :=
  ⟨Reachable.init 0 [], by decide, by decide⟩

/-- `ClearSnapshot(true)` panics whenever no sibling is held. -/
theorem Cache.ClearSnapshot_true_of_none {c : Cache} (h : c.snapshot = none) :
    c.ClearSnapshot true = none := by
  simp [Cache.ClearSnapshot, h]

/-- `ClearSnapshot(true)` while a sibling is held: it completes, resets the
snapshot fields, keeps the live cache, and reads return the live data only. -/
theorem Cache.ClearSnapshot_true_of_held {c : Cache} (hwf : c.WF) {s : SnapshotCache}
    (h : c.snapshot = some s) :
    ∃ c', c.ClearSnapshot true = some c' ∧ c'.snapshotSize = 0 ∧ c'.snapshotAttempts = 0 ∧
      c'.snapshotting = false ∧ c'.snapshot = none ∧ c'.store = c.store ∧
      c'.internedOwnedStrings = c.internedOwnedStrings ∧
      c'.internedOwnedStringsReverse = c.internedOwnedStringsReverse ∧ c'.size = c.size ∧
      ∀ k, (c'.Values k).map Prod.snd = some (Values.Deduplicate (c.liveValues k)) := by
  have hc : c.ClearSnapshot true = some
      { (({ c with snapshotting := false, snapshotAttempts := 0, snapshotSize := 0,
                   snapshot := none } : Cache).updateSnapshots) with
        arena := reclaimStore c.arena s.internedOwnedStrings } := by
    simp [Cache.ClearSnapshot, h, Cache.updateSnapshots]
  have hwf' := Cache.ClearSnapshot_WF hwf hc
  refine ⟨_, hc, rfl, rfl, rfl, rfl, rfl, rfl, rfl, rfl, ?_⟩
  intro k
  unfold Cache.Values
  rw [Cache.merged_eq hwf' k]
  simp [Cache.snapshotValues, Cache.snapshotEntry, Cache.updateSnapshots, valuesOf,
    Cache.liveValues, Cache.liveEntry]


/-! ## The claims about deletion -/

theorem tripleState_reachable : Reachable tripleState :=
  Reachable.step (Op.Write "k" [v1a, v5a, v10a]) (Reachable.init 0 []) trivial (by decide)

/-- C9, amended: in a well-formed cache `DeleteRange(K, min, max)` completes,
and afterwards each key of `K` that was present has lost exactly its values
with `min ≤ ts ≤ max`, the others staying in their order with the same
`needSort` flag; it has no entry, no binding in the forward interning map and
no id bound to it in the reverse map when no value remains; `size` has dropped
by the footprint of the removed values, each key of `K` counted once, modulo
`2 ^ 64`, and by exactly that footprint when it does not exceed `size`; keys
that are not in `K` or were not present keep their entry and their
interning. -/
theorem DeleteRange_effect (c : Cache) (hwf : c.WF) (keys : List String) (min max : Int64) :
    ∃ c', c.DeleteRange keys min max = some c' ∧
      (∀ k, k ∈ keys → ∀ e, c.liveEntry k = some e →
        (e.values.filter (fun v => !(inRange min max v)) ≠ [] →
          c'.liveEntry k = some { values := e.values.filter (fun v => !(inRange min max v)),
                                  needSort := e.needSort }) ∧
        (e.values.filter (fun v => !(inRange min max v)) = [] →
          c'.liveEntry k = none ∧ mapGet c'.internedOwnedStrings k = none ∧
          ∀ id, mapGet c'.internedOwnedStringsReverse id ≠ some k)) ∧
      c'.size = uint64 ((c.size : Int) - (c.removedSize keys min max : Int)) ∧
      (c.removedSize keys min max ≤ c.size → c'.size = c.size - c.removedSize keys min max) ∧
      (∀ k, (k ∉ keys ∨ c.liveEntry k = none) →
        c'.liveEntry k = c.liveEntry k ∧
        mapGet c'.internedOwnedStrings k = mapGet c.internedOwnedStrings k) := by
  obtain ⟨c', hc', hwf', -, hin, hout, hsz⟩ := Cache.DeleteRange_spec keys min max hwf
  refine ⟨c', hc', ?_, hsz, ?_, ?_⟩
  · intro k hk e he
    have hke := hin k hk
    rw [he] at hke
    simp only [Option.bind, excludedEntry, entry.count, entry.filter, Values.Exclude,
      List.length_eq_zero] at hke
    constructor
    · intro hne
      rw [hke, if_neg hne]
    · intro hnil
      rw [if_pos hnil] at hke
      have hf := (lookupEntry_eq_none_iff hwf'.live k).mp hke
      refine ⟨hke, hf, ?_⟩
      intro id hid
      have := (hwf'.live.inverse k id).mpr hid
      rw [hf] at this
      cases this
  · intro hle
    rw [hsz]
    have := hwf.sizeBound
    unfold uint64; omega
  · intro k hk
    rcases hk with hk | hk
    · exact hout k hk
    · by_cases hmem : k ∈ keys
      · have hke := hin k hmem
        rw [hk] at hke
        simp only [Option.bind] at hke
        refine ⟨by rw [hke, hk], ?_⟩
        rw [(lookupEntry_eq_none_iff hwf'.live k).mp hke,
          (lookupEntry_eq_none_iff hwf.live k).mp hk]
      · exact hout k hmem

/-- The example of C9 (amended): `[(1,a),(5,b),(10,c)]` with the range `[4, 8]` becomes
`[(1,a),(10,c)]` and `size` drops from 30 to 20, by the footprint of `(5,b)`. -/
theorem DeleteRange_effect_witness :
    tripleState.WF ∧ tripleState.size = 30 ∧ v5a.size = 10 ∧
    tripleState.liveEntry "k" = some { values := [v1a, v5a, v10a], needSort := false } ∧
    ∃ c', tripleState.DeleteRange ["k"] ⟨4, by decide⟩ ⟨8, by decide⟩ = some c' ∧
      c'.liveEntry "k" = some { values := [v1a, v10a], needSort := false } ∧
      c'.size = 20 := by
  have hwf := reachable_WF tripleState_reachable
  refine ⟨hwf, by decide, by decide, by decide, ?_⟩
  obtain ⟨c', hc', hin, -, hsz, -⟩ :=
    DeleteRange_effect tripleState hwf ["k"] ⟨4, by decide⟩ ⟨8, by decide⟩
  refine ⟨c', hc', ?_, ?_⟩
  · have := (hin "k" (by simp) { values := [v1a, v5a, v10a], needSort := false }
      (by decide)).1 (by decide)
    rw [this]
    decide
  · have := hsz (by decide)
    rw [this]
    decide

/-- C10, as stated, fails: in a reachable state whose sibling holds
`[(1,_),(5,_)]` for `k`, after `DeleteRange(["k"], 0, 10)` the read of `k`
still returns the two values, whose timestamps lie in `[0, 10]`, and after
`Delete(["k"])` it is not empty. -/
theorem DeleteRange_then_Values_counterexample :
    Reachable handoffState ∧
    (handoffState.DeleteRange ["k"] ⟨0, by decide⟩ ⟨10, by decide⟩).bind
        (fun c' => (c'.Values "k").map Prod.snd) = some [v1a, v5a] ∧
    inRange ⟨0, by decide⟩ ⟨10, by decide⟩ v1a = true ∧
    (handoffState.Delete ["k"]).bind (fun c' => (c'.Values "k").map Prod.snd)
      = some [v1a, v5a] :=
  ⟨handoffState_reachable, by decide, by decide, by decide⟩

theorem mem_of_mem_Deduplicate {a : Values} {v : Value} (h : v ∈ Values.Deduplicate a) :
    v ∈ a :=
  (lastAt_ts ((Deduplicate_spec a).2.2 v h)).2

/-- C10, amended: in every reachable state, after `DeleteRange(K, min, max)` the
read of a key `k` of `K` returns `Deduplicate(S ++ L')`, `S` the sibling's
values of `k`, which `DeleteRange` leaves alone, and `L'` the live values of
`k` outside `[min, max]`.  So every value of the result with a timestamp in
`[min, max]` is one the sibling holds under `k`, and there is none when the
sibling holds no such value (in particular when no sibling is held).  After
`Delete(K)` the read returns `Deduplicate(S)`, which is empty when the sibling
holds nothing for `k`. -/
theorem DeleteRange_then_Values (c : Cache) (hr : Reachable c) (keys : List String)
    (min max : Int64) :
    (∃ c', c.DeleteRange keys min max = some c' ∧ ∀ k, k ∈ keys →
      ∃ c2 r, c'.Values k = some (c2, r) ∧
        r = Values.Deduplicate (c.snapshotValues k
              ++ (c.liveValues k).filter (fun v => !(inRange min max v))) ∧
        (∀ v ∈ r, inRange min max v = true → v ∈ c.snapshotValues k) ∧
        ((∀ v ∈ c.snapshotValues k, inRange min max v = false) →
          ∀ v ∈ r, inRange min max v = false)) ∧
    (∃ c', c.Delete keys = some c' ∧ ∀ k, k ∈ keys →
      ∃ c2 r, c'.Values k = some (c2, r) ∧
        r = Values.Deduplicate (c.snapshotValues k) ∧
        (c.snapshotValues k = [] → r = [])) := by
  have hwf := reachable_WF hr
  have key : ∀ (mn mx : Int64), ∃ c', c.DeleteRange keys mn mx = some c' ∧ ∀ k, k ∈ keys →
      c'.Values k = some (c'.dedupKey k, Values.Deduplicate (c.snapshotValues k
              ++ (c.liveValues k).filter (fun v => !(inRange mn mx v)))) := by
    intro mn mx
    obtain ⟨c', hc', hwf', hctl, hin, -, -⟩ := Cache.DeleteRange_spec keys mn mx hwf
    refine ⟨c', hc', ?_⟩
    intro k hk
    unfold Cache.Values
    rw [Cache.merged_eq hwf' k]
    have hS : c'.snapshotValues k = c.snapshotValues k := by
      simp only [Cache.snapshotValues, Cache.snapshotEntry, hctl.snapshot]
    have hL : c'.liveValues k = (c.liveValues k).filter (fun v => !(inRange mn mx v)) := by
      simp only [Cache.liveValues, hin k hk, valuesOf_excludedEntry]
      rfl
    rw [hS, hL]
  constructor
  · obtain ⟨c', hc', hv⟩ := key min max
    refine ⟨c', hc', ?_⟩
    intro k hk
    refine ⟨_, _, hv k hk, rfl, ?_, ?_⟩
    · intro v hv hin
      rcases List.mem_append.mp (mem_of_mem_Deduplicate hv) with h | h
      · exact h
      · have := (List.mem_filter.mp h).2
        simp [hin] at this
    · intro hS v hv
      rcases List.mem_append.mp (mem_of_mem_Deduplicate hv) with h | h
      · exact hS v h
      · have := (List.mem_filter.mp h).2
        simpa using this
  · obtain ⟨c', hc', hv⟩ := key ⟨MinInt64, by decide⟩ ⟨MaxInt64, by decide⟩
    refine ⟨c', hc', ?_⟩
    intro k hk
    have hfull : (c.liveValues k).filter
        (fun v => !(inRange ⟨MinInt64, by decide⟩ ⟨MaxInt64, by decide⟩ v)) = [] :=
      Exclude_full (c.liveValues k) ⟨rfl, rfl⟩
    have := hv k hk
    rw [hfull, List.append_nil] at this
    refine ⟨_, _, this, rfl, ?_⟩
    intro hnil
    rw [hnil]; rfl

/-- C10 amended, at the state of the counterexample and at one without a
sibling: with the sibling holding `[(1,_),(5,_)]` the read after the deletion
returns them; without a sibling the read after `Delete` is empty. -/
theorem DeleteRange_then_Values_witness :
    Reachable tripleState ∧
    (∃ c', tripleState.Delete ["k"] = some c' ∧ ∀ k, k ∈ ["k"] →
      ∃ c2 r, c'.Values k = some (c2, r) ∧
        r = Values.Deduplicate (tripleState.snapshotValues k) ∧
        (tripleState.snapshotValues k = [] → r = [])) ∧
    (tripleState.Delete ["k"]).bind (fun c' => (c'.Values "k").map Prod.snd) = some [] :=
  ⟨tripleState_reachable,
   (DeleteRange_then_Values tripleState tripleState_reachable ["k"]
      ⟨0, by decide⟩ ⟨10, by decide⟩).2,
   by decide⟩

/-! ## The claims about entries -/

/-- What `add` does to the values when it returns, and when it returns: it
panics exactly on an empty batch for an entry that holds values. -/
theorem entry.add_eq_none_iff (e : entry) (values : Values) :
    e.add values = none ↔ (values = [] ∧ e.values ≠ []) := by
  constructor
  · exact entry.add_none
  · rintro ⟨rfl, hne⟩
    unfold entry.add
    simp only [addNeedSort, Bool.false_eq_true, if_false]
    cases hl : e.values.getLast? with
    | none => rw [List.getLast?_eq_none_iff] at hl; exact absurd hl hne
    | some last => rfl

/-- C18, the failing input: for the entry that holds one value and the empty
batch, `add` reads `values[0]` and panics instead of leaving the entry as it
is. -/
theorem add_panics_on_empty_batch :
    entry.add { values := [v60], needSort := false } [] = none := by
  decide

theorem addNeedSort_iff (prevTime : Int) (v0 : Value) (vs : Values) :
    addNeedSort prevTime (v0 :: vs) = true ↔
      (¬ StrictlyIncreasing (v0 :: vs) ∨ v0.ts ≤ prevTime) := by
  induction vs generalizing prevTime v0 with
  | nil =>
    simp only [addNeedSort]
    by_cases h : v0.ts ≤ prevTime
    · simp [h]
    · simp [h, StrictlyIncreasing]
  | cons w ws ih =>
    rw [addNeedSort]
    by_cases h : v0.ts ≤ prevTime
    · simp [h]
    · simp only [h, if_false, or_false]
      rw [ih v0.ts w]
      unfold StrictlyIncreasing
      rw [List.pairwise_cons (l := w :: ws)]
      constructor
      · rintro (h1 | h1)
        · exact fun hc => h1 hc.2
        · intro hc
          have := hc.1 w (List.mem_cons_self _ _)
          omega
      · intro hc
        by_cases hs : List.Pairwise (fun x y => x.ts < y.ts) (w :: ws)
        · right
          by_contra hlt
          apply hc
          refine ⟨?_, hs⟩
          intro y hy
          rcases List.mem_cons.mp hy with rfl | hy
          · omega
          · have := (List.pairwise_cons.mp hs).1 y hy
            omega
        · exact Or.inl hs

/-- What `add` does to `needSort` for an entry whose flag is false and a
non-empty batch: the flag is set exactly when the batch is not strictly
increasing, or its first timestamp is not above zero (the loop starts with
`prevTime = 0`), or the entry's last timestamp is not below the first of the
batch. -/
theorem entry.add_needSort (e : entry) (hns : e.needSort = false) (v0 : Value) (vs : Values) :
    ∃ e', e.add (v0 :: vs) = some e' ∧ e'.values = e.values ++ (v0 :: vs) ∧
      (e'.needSort = true ↔
        (¬ StrictlyIncreasing (v0 :: vs) ∨ v0.ts ≤ 0 ∨
          ∃ last, e.values.getLast? = some last ∧ last.ts ≥ v0.ts)) := by
  obtain ⟨e', he'⟩ := entry.add_isSome e (v0 :: vs) (Or.inl (by simp))
  refine ⟨e', he', entry.add_values he', ?_⟩
  rw [← or_assoc, ← addNeedSort_iff]
  unfold entry.add at he'
  simp only at he'
  by_cases hb : addNeedSort 0 (v0 :: vs) = true
  · simp only [hb, if_true, true_or, iff_true]
    simp only [hb, if_true] at he'
    cases hl : e.values.getLast? with
    | none => rw [hl] at he'; simp only [Option.some.injEq] at he'; rw [← he']
    | some last =>
      rw [hl] at he'; simp only [Option.some.injEq] at he'; rw [← he']
      split_ifs <;> rfl
  · simp only [hb, if_false, false_or, Bool.false_eq_true]
    simp only [hb, if_false, Bool.false_eq_true] at he'
    cases hl : e.values.getLast? with
    | none =>
      rw [hl] at he'; simp only [Option.some.injEq] at he'; rw [← he']
      simp [hns]
    | some last =>
      rw [hl] at he'; simp only [Option.some.injEq] at he'; rw [← he']
      by_cases hge : last.ts ≥ v0.ts
      · simp [hge]
      · simp [hge, hns]

/-- C19, the failing inputs: a fresh entry (empty, `needSort = false`) that
receives the strictly increasing batch `[(0,_)]`, or `[(-5,_),(-3,_)]`, ends
with `needSort = true`: the loop of `add` compares the first timestamp with
`prevTime = 0`. -/
theorem add_sets_needSort_for_nonpositive_timestamps :
    StrictlyIncreasing [vZero] ∧
    newEntry.add [vZero] = some { values := [vZero], needSort := true } ∧
    StrictlyIncreasing [vMinus5, vMinus3] ∧
    newEntry.add [vMinus5, vMinus3]
      = some { values := [vMinus5, vMinus3], needSort := true } := by
  decide

theorem entry.apply_inv {e e' : entry} {op : EntryOp} (hinv : e.Inv)
    (h : e.apply op = some e') : e'.Inv := by
  cases op with
  | add values => exact entry.add_inv hinv h
  | deduplicate =>
    simp only [entry.apply, Option.some.injEq] at h
    rw [← h]; exact entry.deduplicate_inv hinv
  | filter min max =>
    simp only [entry.apply, Option.some.injEq] at h
    rw [← h]; exact entry.filter_inv min max hinv

theorem entry.run_inv {ops : List EntryOp} {e e' : entry} (hinv : e.Inv)
    (h : e.run ops = some e') : e'.Inv := by
  induction ops generalizing e with
  | nil =>
    simp only [entry.run, Option.some.injEq] at h
    rw [← h]; exact hinv
  | cons op ops ih =>
    simp only [entry.run] at h
    cases ha : e.apply op with
    | none => simp [ha] at h
    | some e1 =>
      simp only [ha] at h
      exact ih (entry.apply_inv hinv ha) h

theorem nodup_ts_of_increasing {a : Values} (h : StrictlyIncreasing a) :
    (a.map Value.ts).Nodup := by
  unfold StrictlyIncreasing at h
  rw [List.Nodup, List.pairwise_map]
  exact h.imp (fun hlt => ne_of_lt hlt)

/-- C16: the sortedness invariant of entries.  A fresh entry that went through
any sequence of `add`, `deduplicate` and `filter` calls, and every entry of
the live store or of the sibling's store in a reachable cache state (entries
that `Snapshot` merged into a sibling included), has strictly increasing
values, hence no timestamp twice, whenever its `needSort` is false. -/
theorem entry_sorted_when_needSort_false :
    (∀ ops e, newEntry.run ops = some e → e.needSort = false →
      StrictlyIncreasing e.values ∧ (e.values.map Value.ts).Nodup) ∧
    (∀ c, Reachable c → ∀ id e,
      (mapGet c.store id = some e ∨ ∃ s, c.snapshot = some s ∧ mapGet s.store id = some e) →
      e.needSort = false →
      StrictlyIncreasing e.values ∧ (e.values.map Value.ts).Nodup) := by
  constructor
  · intro ops e h hns
    have := entry.run_inv newEntry_inv h hns
    exact ⟨this, nodup_ts_of_increasing this⟩
  · intro c hr id e h hns
    have hwf := reachable_WF hr
    have hinv : e.Inv := by
      rcases h with h | ⟨s, hs, h⟩
      · exact hwf.live.sorted id e h
      · exact (hwf.sibling s hs).sorted id e h
    exact ⟨hinv hns, nodup_ts_of_increasing (hinv hns)⟩

/-- C16 on examples: an entry that took an unordered batch and was then
deduplicated; the entry of the sibling of `retryState`. -/
theorem entry_sorted_when_needSort_false_witness :
    newEntry.run [EntryOp.add [v5a, v1a, v5b], EntryOp.deduplicate,
        EntryOp.filter ⟨0, by decide⟩ ⟨2, by decide⟩, EntryOp.add [v6a]]
      = some { values := [v5b, v6a], needSort := false } ∧
    StrictlyIncreasing [v5b, v6a] ∧
    (∃ s, retryState.snapshot = some s ∧
      mapGet s.store 1 = some { values := [v1a, v5a], needSort := false }) ∧
    StrictlyIncreasing [v1a, v5a] := by
  have h1 : newEntry.run [EntryOp.add [v5a, v1a, v5b], EntryOp.deduplicate,
        EntryOp.filter ⟨0, by decide⟩ ⟨2, by decide⟩, EntryOp.add [v6a]]
      = some { values := [v5b, v6a], needSort := false } := by decide
  have h2 : ∃ s, retryState.snapshot = some s ∧
      mapGet s.store 1 = some { values := [v1a, v5a], needSort := false } := by
    refine ⟨(retryState.snapshot).getD SnapshotCache.empty, by decide, by decide⟩
  refine ⟨h1, (entry_sorted_when_needSort_false.1 _ _ h1 rfl).1, h2, ?_⟩
  obtain ⟨s, hs, hg⟩ := h2
  exact (entry_sorted_when_needSort_false.2 retryState retryState_reachable 1 _
    (Or.inr ⟨s, hs, hg⟩) rfl).1

/-! ## Statistics -/

theorem deletedState_reachable : Reachable deletedState :=
  Reachable.step (Op.Delete ["k"]) sixtyState_reachable trivial (by decide)

/-- C15, the failing input: after `Write("k", 60 bytes)` and `Delete(["k"])`
on a fresh cache the live size is 0, but `memBytes` still reports 60:
`DeleteRange` lowers `c.size` and never calls `updateMemSize`. -/
theorem memBytes_not_lowered_by_Delete :
    Reachable deletedState ∧ deletedState.Size = 0 ∧
    mapGet deletedState.Statistics statCacheMemoryBytes = some 60 ∧
    sixtyState.Size = 60 ∧
    mapGet sixtyState.Statistics statCacheMemoryBytes = some 60 :=
  ⟨deletedState_reachable, by decide, by decide, by decide, by decide⟩

/-! ## Keys -/

theorem MapsWF.length_eq {store : List (OwnedStringID × entry)}
    {forward : List (OwnedString × OwnedStringID)} {reverse : List (OwnedStringID × OwnedString)}
    {acc : Nat} (h : MapsWF store forward reverse acc) :
    store.length = forward.length := by
  have h1 : (mapKeys store).length = (mapKeys reverse).length := by
    apply List.Perm.length_eq
    rw [List.perm_ext_iff_of_nodup h.nodupStore h.nodupReverse]
    intro id
    rw [← mapGet_isSome_iff_mem_keys, ← mapGet_isSome_iff_mem_keys]
    exact h.covers id
  have h2 : ((mapKeys forward).map (fun k => (mapGet forward k).getD 0)).length
      = (mapKeys reverse).length := by
    apply List.Perm.length_eq
    have hnd : ((mapKeys forward).map (fun k => (mapGet forward k).getD 0)).Nodup := by
      refine List.Nodup.map_on ?_ h.nodupForward
      intro x hx y hy hxy
      obtain ⟨ix, hix⟩ := Option.isSome_iff_exists.mp ((mapGet_isSome_iff_mem_keys _ _).mpr hx)
      obtain ⟨iy, hiy⟩ := Option.isSome_iff_exists.mp ((mapGet_isSome_iff_mem_keys _ _).mpr hy)
      simp only [hix, hiy, Option.getD_some] at hxy
      subst hxy
      exact h.forward_injective hix hiy
    rw [List.perm_ext_iff_of_nodup hnd h.nodupReverse]
    intro id
    rw [List.mem_map, ← mapGet_isSome_iff_mem_keys]
    constructor
    · rintro ⟨k, hk, rfl⟩
      obtain ⟨ik, hik⟩ := Option.isSome_iff_exists.mp ((mapGet_isSome_iff_mem_keys _ _).mpr hk)
      simp only [hik, Option.getD_some]
      rw [(h.inverse k ik).mp hik]; rfl
    · intro hs
      obtain ⟨k, hk⟩ := Option.isSome_iff_exists.mp hs
      have hf := (h.inverse k id).mpr hk
      exact ⟨k, (mapGet_isSome_iff_mem_keys _ _).mp (by simp [hf]), by simp [hf]⟩
  simp only [mapKeys, List.length_map] at h1 h2
  omega

/-- C12: in every reachable cache state `Keys()` returns a list in ascending
string order without duplicates (strictly ascending), whose elements are
exactly the keys that have an entry in the live cache, one per entry of the
store. -/
theorem Keys_sorted_exact (c : Cache) (hr : Reachable c) :
    ∃ ks, c.Keys = some ks ∧ ks.Sorted (· ≤ ·) ∧ ks.Nodup ∧ ks.Sorted (· < ·) ∧
      (∀ k, k ∈ ks ↔ (c.liveEntry k).isSome) ∧ ks.length = c.store.length := by
  have hwf := (reachable_WF hr).live
  have hlen := hwf.length_eq
  have hk : c.Keys = some (sortStrings (mapKeys c.internedOwnedStrings)) := by
    unfold Cache.Keys
    simp only [mapKeys, List.length_map, hlen, le_refl, if_true, Nat.sub_self,
      List.replicate_zero, List.append_nil]
  have hperm : (sortStrings (mapKeys c.internedOwnedStrings)).Perm
      (mapKeys c.internedOwnedStrings) := List.perm_insertionSort _ _
  have hsorted : (sortStrings (mapKeys c.internedOwnedStrings)).Sorted (· ≤ ·) :=
    List.sorted_insertionSort _ _
  have hnd : (sortStrings (mapKeys c.internedOwnedStrings)).Nodup :=
    hperm.nodup_iff.mpr hwf.nodupForward
  refine ⟨_, hk, hsorted, hnd, hsorted.lt_of_le hnd, ?_, ?_⟩
  · intro k
    rw [hperm.mem_iff, ← mapGet_isSome_iff_mem_keys]
    have := lookupEntry_eq_none_iff hwf k
    simp only [Cache.liveEntry]
    cases h1 : lookupEntry c.store c.internedOwnedStrings k <;>
      cases h2 : mapGet c.internedOwnedStrings k <;> simp_all
  · rw [hperm.length_eq, hlen]
    simp [mapKeys]

/-- C12 at the cache that holds one entry, under `k`: `Keys()` is `["k"]`. -/
theorem Keys_sorted_exact_witness :
    Reachable tripleState ∧ tripleState.Keys = some ["k"] := by
  refine ⟨tripleState_reachable, ?_⟩
  obtain ⟨ks, h1, -, -, -, h5, h6⟩ := Keys_sorted_exact tripleState tripleState_reachable
  have hlen : ks.length = 1 := by rw [h6]; decide
  have hmem : "k" ∈ ks := (h5 "k").mpr (by decide)
  rw [h1]
  match ks, hlen, hmem with
  | [x], _, hm =>
    simp only [List.mem_singleton] at hm
    rw [hm]

/-! ## Deduplication of a whole cache -/

theorem newEntry_filled : newEntry.Filled := by
  intro h; simp [newEntry] at h

theorem entry.add_filled {e e' : entry} {values : Values} (hf : e.Filled)
    (h : e.add values = some e') : e'.Filled := by
  intro hns
  rw [entry.add_values h]
  cases values with
  | cons v vs => simp
  | nil =>
    rw [List.append_nil]
    by_cases hv : e.values = []
    · exfalso
      unfold entry.add at h
      simp only [addNeedSort, Bool.false_eq_true, if_false, hv, List.getLast?_nil,
        Option.some.injEq] at h
      rw [← h] at hns
      exact hf hns hv
    · exact hv

theorem entry.deduplicate_filled {e : entry} (hf : e.Filled) : e.deduplicate.Filled := by
  unfold entry.deduplicate
  split_ifs with h
  · exact hf
  · intro hns; simp at hns

theorem entry.filled_of_values_ne {e : entry} (h : e.values ≠ []) : e.Filled :=
  fun _ => h

theorem storeFilled_mapSet {store : List (OwnedStringID × entry)} (id : OwnedStringID)
    {e : entry} (h : StoreFilled store) (he : e.Filled) : StoreFilled (mapSet store id e) := by
  intro id2 e2 hg
  rw [mapGet_mapSet] at hg
  by_cases hh : id = id2
  · simp only [hh, if_true, Option.some.injEq] at hg; rw [← hg]; exact he
  · simp only [hh, if_false] at hg; exact h id2 e2 hg

theorem storeFilled_mapDelete {store : List (OwnedStringID × entry)} (id : OwnedStringID)
    (h : StoreFilled store) : StoreFilled (mapDelete store id) := by
  intro id2 e2 hg
  rw [mapGet_mapDelete] at hg
  by_cases hh : id = id2
  · simp [hh] at hg
  · simp only [hh, if_false] at hg; exact h id2 e2 hg

theorem storeFilled_deduplicate {store : List (OwnedStringID × entry)} (h : StoreFilled store) :
    StoreFilled (store.map (fun p => (p.1, p.2.deduplicate))) := by
  intro id e hg
  rw [mapGet_map_snd] at hg
  cases hs : mapGet store id with
  | none => simp [hs] at hg
  | some e0 =>
    simp only [hs, Option.map_some', Option.some.injEq] at hg
    rw [← hg]; exact entry.deduplicate_filled (h id e0 hs)

theorem storeFilled_nil : StoreFilled [] := by
  intro id e h; simp [mapGet] at h

theorem storeFilled_dedupAt {store : List (OwnedStringID × entry)}
    (forward : List (OwnedString × OwnedStringID)) (k : String) (h : StoreFilled store) :
    StoreFilled (dedupAt store forward k) := by
  unfold dedupAt
  cases mapGet forward k with
  | none => exact h
  | some id =>
    cases hs : mapGet store id with
    | none => simp only [hs]; exact h
    | some e =>
      simp only [hs]
      exact storeFilled_mapSet id h (entry.deduplicate_filled (h id e hs))

theorem Cache.write_filled {c c' : Cache} {k : String} {v : Tsm1.Values}
    (hf : StoreFilled c.store) (h : c.write k v = some c') :
    StoreFilled c'.store ∧ c'.snapshot = c.snapshot := by
  unfold Cache.write at h
  cases hg : mapGet c.internedOwnedStrings k with
  | some osId =>
    simp only [hg] at h
    cases hs : mapGet c.store osId with
    | none => simp [hs] at h
    | some e =>
      simp only [hs] at h
      cases ha : e.add v with
      | none => simp [ha] at h
      | some e' =>
        simp only [ha, Option.some.injEq] at h
        rw [← h]
        exact ⟨storeFilled_mapSet osId hf (entry.add_filled (hf osId e hs) ha), rfl⟩
  | none =>
    simp only [hg, CacheLocalArena.GetOwnedString] at h
    cases ha : newEntry.add v with
    | none => simp [ha] at h
    | some e' =>
      simp only [ha, Option.some.injEq] at h
      rw [← h]
      exact ⟨storeFilled_mapSet _ hf (entry.add_filled newEntry_filled ha), rfl⟩

theorem Cache.writeMultiLoop_filled {batches : List (String × Tsm1.Values)} {c c' : Cache}
    (hf : StoreFilled c.store) (h : c.writeMultiLoop batches = some c') :
    StoreFilled c'.store ∧ c'.snapshot = c.snapshot := by
  induction batches generalizing c with
  | nil =>
    simp only [Cache.writeMultiLoop, Option.some.injEq] at h
    rw [← h]; exact ⟨hf, rfl⟩
  | cons p rest ih =>
    obtain ⟨k0, v0⟩ := p
    rw [Cache.writeMultiLoop_cons] at h
    cases hw : c.write k0 v0 with
    | none => simp [hw] at h
    | some c1 =>
      simp only [hw, Option.bind] at h
      obtain ⟨h1, h2⟩ := Cache.write_filled hf hw
      obtain ⟨h3, h4⟩ := ih h1 h
      exact ⟨h3, h4.trans h2⟩

theorem Cache.deleteRangeKey_filled {c c' : Cache} {k : String} {min max : Int64}
    (hf : StoreFilled c.store) (h : c.deleteRangeKey k min max = some c') :
    StoreFilled c'.store ∧ c'.snapshot = c.snapshot := by
  unfold Cache.deleteRangeKey at h
  cases hg : mapGet c.internedOwnedStrings k with
  | none =>
    simp only [hg, Option.some.injEq] at h
    rw [← h]; exact ⟨hf, rfl⟩
  | some osId =>
    simp only [hg] at h
    cases hs : mapGet c.store osId with
    | none => simp [hs] at h
    | some e =>
      simp only [hs] at h
      split_ifs at h with h1 h2
      · simp only [Option.some.injEq] at h
        rw [← h]; exact ⟨storeFilled_mapDelete osId hf, rfl⟩
      · simp only [Option.some.injEq] at h
        rw [← h]; exact ⟨storeFilled_mapDelete osId hf, rfl⟩
      · simp only [Option.some.injEq] at h
        rw [← h]
        refine ⟨storeFilled_mapSet osId hf (entry.filled_of_values_ne ?_), rfl⟩
        intro hnil
        apply h2
        simp [entry.count, hnil]

theorem Cache.DeleteRange_filled {keys : List String} {c c' : Cache} {min max : Int64}
    (hf : StoreFilled c.store) (h : c.DeleteRange keys min max = some c') :
    StoreFilled c'.store ∧ c'.snapshot = c.snapshot := by
  induction keys generalizing c with
  | nil =>
    simp only [Cache.DeleteRange, Option.some.injEq] at h
    rw [← h]; exact ⟨hf, rfl⟩
  | cons k rest ih =>
    simp only [Cache.DeleteRange] at h
    cases hk : c.deleteRangeKey k min max with
    | none => simp [hk] at h
    | some c1 =>
      simp only [hk] at h
      obtain ⟨h1, h2⟩ := Cache.deleteRangeKey_filled hf hk
      obtain ⟨h3, h4⟩ := ih h1 h
      exact ⟨h3, h4.trans h2⟩

theorem snapshotAppend_filled {reverse : List (OwnedStringID × OwnedString)}
    {st st' : SnapshotLoop} {osId : OwnedStringID} {e : entry}
    (hf : StoreFilled st.snapshot.store) (he : e.Filled)
    (h : snapshotAppend reverse st osId e = some st') : StoreFilled st'.snapshot.store := by
  unfold snapshotAppend at h
  simp only at h
  have hmark : ∀ x : entry, x.Filled → (e.needSort = true → x.values ≠ []) →
      (if e.needSort = true then ({ x with needSort := true } : entry) else x).Filled := by
    intro x hx hxe
    split_ifs with hb
    · exact fun _ => hxe hb
    · exact hx
  cases hg : mapGet st.snapshot.internedOwnedStrings ((mapGet reverse osId).getD "") with
  | some osId2 =>
    simp only [hg] at h
    cases hs : mapGet st.snapshot.store osId2 with
    | none => simp [hs] at h
    | some se =>
      simp only [hs] at h
      cases ha : se.add e.values with
      | none => simp [ha] at h
      | some se' =>
        simp only [ha, Option.some.injEq] at h
        rw [← h]
        refine storeFilled_mapSet osId2 hf (hmark se' (entry.add_filled (hf osId2 se hs) ha) ?_)
        intro hb
        rw [entry.add_values ha]
        intro hnil
        exact he hb (List.append_eq_nil.mp hnil).2
  | none =>
    simp only [hg, Option.some.injEq] at h
    rw [← h]
    exact storeFilled_mapSet _ hf (hmark e he he)

theorem snapshotLoop_filled {reverse : List (OwnedStringID × OwnedString)}
    {l : List (OwnedStringID × entry)} {st st' : SnapshotLoop}
    (hf : StoreFilled st.snapshot.store) (hl : ∀ p ∈ l, p.2.Filled)
    (h : snapshotLoop reverse l st = some st') : StoreFilled st'.snapshot.store := by
  induction l generalizing st with
  | nil =>
    simp only [snapshotLoop, Option.some.injEq] at h
    rw [← h]; exact hf
  | cons p rest ih =>
    obtain ⟨osId0, e0⟩ := p
    simp only [snapshotLoop] at h
    cases ha : snapshotAppend reverse st osId0 e0 with
    | none => simp [ha] at h
    | some st1 =>
      simp only [ha] at h
      exact ih (snapshotAppend_filled hf (hl _ (List.mem_cons_self _ _)) ha)
        (fun p hp => hl p (List.mem_cons_of_mem _ hp)) h

theorem Cache.Snapshot_filled {c c' : Cache} {r : Except Error SnapshotCache} (hwf : c.WF)
    (hf : c.Filled) (h : c.Snapshot = some (c', r)) : c'.Filled := by
  unfold Cache.Snapshot at h
  by_cases hsn : c.snapshotting = true
  · simp only [hsn, if_true, Option.some.injEq, Prod.mk.injEq] at h
    rw [← h.1]; exact hf
  simp only [hsn, Bool.false_eq_true, if_false] at h
  have h0 : StoreFilled (match c.snapshot with
      | none => SnapshotCache.empty
      | some s => s).store := by
    cases hc : c.snapshot with
    | none => exact storeFilled_nil
    | some s => exact hf.2 s hc
  have hl : ∀ p ∈ c.store, p.2.Filled := by
    intro p hp
    obtain ⟨osId, e⟩ := p
    exact hf.1 osId e (hwf.live.mem_store hp).1
  cases hloop : snapshotLoop c.internedOwnedStringsReverse c.store
      { snapshot := (match c.snapshot with
          | none => SnapshotCache.empty
          | some s => s), arena := c.arena, snapshotSize := c.snapshotSize } with
  | none => simp [hloop] at h
  | some st =>
    simp only [hloop, Option.some.injEq, Prod.mk.injEq] at h
    have hst := snapshotLoop_filled h0 hl hloop
    rw [← h.1]
    refine ⟨storeFilled_nil, ?_⟩
    intro s hs
    simp only [Cache.updateSnapshots, Cache.updateCachedBytes, Cache.updateMemSize,
      Option.some.injEq] at hs
    rw [← hs]; exact hst

/-- In every reachable cache state an entry that asks for a sort holds
values. -/
theorem reachable_Filled {c : Cache} (h : Reachable c) : c.Filled := by
  induction h with
  | init maxSize arena =>
    exact ⟨storeFilled_nil, by intro s hs; simp [NewCache] at hs⟩
  | @step c c' op hreach hop hstep ih =>
    have hwf := reachable_WF hreach
    cases op with
    | Write key values =>
      simp only [Cache.step, Option.map_eq_some', Prod.exists, exists_and_right,
        exists_eq_right] at hstep
      obtain ⟨r, hr⟩ := hstep
      unfold Cache.Write at hr
      simp only at hr
      split_ifs at hr with hcond
      · simp only [Option.some.injEq, Prod.mk.injEq] at hr; rw [← hr.1]; exact ih
      · cases hw : c.write key values with
        | none => simp [hw] at hr
        | some c1 =>
          simp only [hw, Option.some.injEq, Prod.mk.injEq] at hr
          obtain ⟨h1, h2⟩ := Cache.write_filled ih.1 hw
          rw [← hr.1]
          exact ⟨h1, fun s hs => ih.2 s (by rw [← h2]; exact hs)⟩
    | WriteMulti values =>
      simp only [Cache.step, Option.map_eq_some', Prod.exists, exists_and_right,
        exists_eq_right] at hstep
      obtain ⟨r, hr⟩ := hstep
      unfold Cache.WriteMulti at hr
      simp only at hr
      split_ifs at hr with hcond
      · simp only [Option.some.injEq, Prod.mk.injEq] at hr; rw [← hr.1]; exact ih
      · cases hw : c.writeMultiLoop values with
        | none => simp [hw] at hr
        | some c1 =>
          simp only [hw, Option.some.injEq, Prod.mk.injEq] at hr
          obtain ⟨h1, h2⟩ := Cache.writeMultiLoop_filled ih.1 hw
          rw [← hr.1]
          exact ⟨h1, fun s hs => ih.2 s (by rw [← h2]; exact hs)⟩
    | Values key =>
      simp only [Cache.step, Cache.Values, Cache.merged_eq hwf key, Option.map_some',
        Option.some.injEq] at hstep
      rw [← hstep]
      refine ⟨storeFilled_dedupAt _ _ ih.1, ?_⟩
      intro s hs
      cases hc : c.snapshot with
      | none => simp [Cache.dedupKey, hc] at hs
      | some s0 =>
        simp only [Cache.dedupKey, hc, Option.map_some', Option.some.injEq] at hs
        rw [← hs]
        exact storeFilled_dedupAt _ _ (ih.2 s0 hc)
    | Deduplicate =>
      simp only [Cache.step, Option.some.injEq] at hstep
      rw [← hstep]
      exact ⟨storeFilled_deduplicate ih.1, ih.2⟩
    | DeduplicateSnapshot =>
      simp only [Cache.step, Option.some.injEq] at hstep
      rw [← hstep]
      refine ⟨ih.1, ?_⟩
      intro s hs
      cases hc : c.snapshot with
      | none => simp [hc] at hs
      | some s0 =>
        simp only [hc, Option.map_some', Option.some.injEq] at hs
        rw [← hs]
        exact storeFilled_deduplicate (ih.2 s0 hc)
    | Snapshot =>
      simp only [Cache.step, Option.map_eq_some', Prod.exists, exists_and_right,
        exists_eq_right] at hstep
      obtain ⟨r, hr⟩ := hstep
      exact Cache.Snapshot_filled hwf ih hr
    | ClearSnapshot success =>
      simp only [Cache.step, Cache.ClearSnapshot] at hstep
      cases success with
      | false =>
        simp only [Bool.false_eq_true, if_false, Option.some.injEq] at hstep
        rw [← hstep]; exact ih
      | true =>
        simp only [if_true] at hstep
        cases hs : c.snapshot with
        | none => simp [hs] at hstep
        | some s =>
          simp only [hs, Option.some.injEq] at hstep
          rw [← hstep]
          exact ⟨ih.1, by intro s hs; simp [Cache.updateSnapshots] at hs⟩
    | Delete keys =>
      obtain ⟨h1, h2⟩ := Cache.DeleteRange_filled ih.1 hstep
      exact ⟨h1, fun s hs => ih.2 s (by rw [← h2]; exact hs)⟩
    | DeleteRange keys min max =>
      obtain ⟨h1, h2⟩ := Cache.DeleteRange_filled ih.1 hstep
      exact ⟨h1, fun s hs => ih.2 s (by rw [← h2]; exact hs)⟩
    | SetMaxSize size =>
      simp only [Cache.step, Option.some.injEq] at hstep
      rw [← hstep]; exact ih

theorem entry.deduplicate_idem (e : entry) : e.deduplicate.deduplicate = e.deduplicate := by
  unfold entry.deduplicate
  by_cases h : (!e.needSort || e.values.length == 0) = true
  · simp only [h, if_true]
  · simp only [h, if_false, Bool.false_eq_true, Bool.not_false, Bool.true_or, if_true]

theorem entry.deduplicate_done {e : entry} (hinv : e.Inv) (hf : e.Filled) :
    e.deduplicate.needSort = false ∧ StrictlyIncreasing e.deduplicate.values := by
  refine ⟨?_, entry.deduplicate_increasing hinv⟩
  unfold entry.deduplicate
  split_ifs with h
  · simp only [Bool.or_eq_true, Bool.not_eq_true', beq_iff_eq, List.length_eq_zero] at h
    rcases h with h | h
    · exact h
    · cases hns : e.needSort with
      | false => rfl
      | true => exact absurd h (hf hns)
  · rfl

/-- C17: in every reachable cache state, after `Deduplicate()` on the cache,
or on the sibling it holds, every entry of that store has `needSort = false`
and strictly increasing values, and a second `Deduplicate()` changes
nothing. -/
theorem Deduplicate_sorts_and_is_idempotent (c : Cache) (hr : Reachable c) :
    (∀ id e, mapGet c.Deduplicate.store id = some e →
      e.needSort = false ∧ StrictlyIncreasing e.values) ∧
    c.Deduplicate.Deduplicate = c.Deduplicate ∧
    (∀ s, c.snapshot = some s →
      (∀ id e, mapGet s.Deduplicate.store id = some e →
        e.needSort = false ∧ StrictlyIncreasing e.values) ∧
      s.Deduplicate.Deduplicate = s.Deduplicate) := by
  have hwf := reachable_WF hr
  have hf := reachable_Filled hr
  have hidem : ∀ store : List (OwnedStringID × entry),
      (store.map (fun p => (p.1, p.2.deduplicate))).map (fun p => (p.1, p.2.deduplicate))
        = store.map (fun p => (p.1, p.2.deduplicate)) := by
    intro store
    rw [List.map_map]
    apply List.map_congr_left
    intro p _
    simp [entry.deduplicate_idem]
  have hdone : ∀ (store : List (OwnedStringID × entry)),
      (∀ id e, mapGet store id = some e → e.Inv) → StoreFilled store →
      ∀ id e, mapGet (store.map (fun p => (p.1, p.2.deduplicate))) id = some e →
        e.needSort = false ∧ StrictlyIncreasing e.values := by
    intro store hinv hfill id e hg
    rw [mapGet_map_snd] at hg
    cases hs : mapGet store id with
    | none => simp [hs] at hg
    | some e0 =>
      simp only [hs, Option.map_some', Option.some.injEq] at hg
      rw [← hg]
      exact entry.deduplicate_done (hinv id e0 hs) (hfill id e0 hs)
  refine ⟨hdone c.store hwf.live.sorted hf.1, ?_, ?_⟩
  · simp only [Cache.Deduplicate, hidem]
  · intro s hs
    refine ⟨hdone s.store (hwf.sibling s hs).sorted (hf.2 s hs), ?_⟩
    simp only [SnapshotCache.Deduplicate, hidem]

/-- C17 at the cache whose entry of `k` took the unordered batch
`[(5,_),(1,_),(5,_)]`. -/
theorem Deduplicate_sorts_and_is_idempotent_witness :
    ∃ c, (NewCache 0 []).step (Op.Write "k" [v5a, v1a, v5b]) = some c ∧ Reachable c ∧
      mapGet c.store 1 = some { values := [v5a, v1a, v5b], needSort := true } ∧
      mapGet c.Deduplicate.store 1 = some { values := [v1a, v5b], needSort := false } ∧
      c.Deduplicate.Deduplicate = c.Deduplicate := by
  have hstep : (NewCache 0 []).step (Op.Write "k" [v5a, v1a, v5b])
      = some (((NewCache 0 []).step (Op.Write "k" [v5a, v1a, v5b])).getD (NewCache 0 [])) := by
    decide
  have hreach := Reachable.step (Op.Write "k" [v5a, v1a, v5b]) (Reachable.init 0 []) trivial hstep
  exact ⟨_, hstep, hreach, by decide, by decide,
    (Deduplicate_sorts_and_is_idempotent _ hreach).2.1⟩

/-! ## Footprint of the store -/


theorem Size_append (a b : Values) :
    Values.Size (a ++ b) = Values.Size a + Values.Size b := by
  simp [Values.Size, List.map_append, List.sum_append]

theorem storeSize_mapSet_of_some {store : List (OwnedStringID × entry)} {id : OwnedStringID}
    {e : entry} (e' : entry) (h : mapGet store id = some e) :
    storeSize (mapSet store id e') + e.size = storeSize store + e'.size := by
  induction store with
  | nil => simp [mapGet] at h
  | cons p rest ih =>
    obtain ⟨id0, e0⟩ := p
    by_cases hid : id0 = id
    · simp only [mapGet, hid, if_true, Option.some.injEq] at h
      simp only [mapSet, hid, if_true, storeSize, List.map_cons, List.sum_cons, h]
      omega
    · simp only [mapGet, hid, if_false] at h
      have := ih h
      simp only [storeSize] at this
      simp only [mapSet, hid, if_false, storeSize, List.map_cons, List.sum_cons]
      omega

theorem storeSize_mapSet_of_none {store : List (OwnedStringID × entry)} {id : OwnedStringID}
    (e' : entry) (h : mapGet store id = none) :
    storeSize (mapSet store id e') = storeSize store + e'.size := by
  induction store with
  | nil => simp [mapSet, storeSize]
  | cons p rest ih =>
    obtain ⟨id0, e0⟩ := p
    by_cases hid : id0 = id
    · simp [mapGet, hid] at h
    · simp only [mapGet, hid, if_false] at h
      have := ih h
      simp only [storeSize] at this
      simp only [mapSet, hid, if_false, storeSize, List.map_cons, List.sum_cons]
      omega

theorem mapDelete_cons_self {κ β : Type} [DecidableEq κ] (k : κ) (v : β) (m : List (κ × β)) :
    mapDelete ((k, v) :: m) k = mapDelete m k := by
  simp [mapDelete]

theorem mapDelete_cons_of_ne {κ β : Type} [DecidableEq κ] {k k0 : κ} (v : β) (m : List (κ × β))
    (h : k0 ≠ k) : mapDelete ((k0, v) :: m) k = (k0, v) :: mapDelete m k := by
  simp [mapDelete, h]

theorem mapDelete_of_none {κ β : Type} [DecidableEq κ] {m : List (κ × β)} {k : κ}
    (h : mapGet m k = none) : mapDelete m k = m := by
  induction m with
  | nil => rfl
  | cons p rest ih =>
    obtain ⟨k0, v0⟩ := p
    by_cases hid : k0 = k
    · simp [mapGet, hid] at h
    · simp only [mapGet, hid, if_false] at h
      rw [mapDelete_cons_of_ne v0 rest hid, ih h]

theorem storeSize_mapDelete {store : List (OwnedStringID × entry)} {id : OwnedStringID}
    {e : entry} (hn : (mapKeys store).Nodup) (h : mapGet store id = some e) :
    storeSize (mapDelete store id) + e.size = storeSize store := by
  induction store with
  | nil => simp [mapGet] at h
  | cons p rest ih =>
    obtain ⟨id0, e0⟩ := p
    simp only [mapKeys, List.map_cons, List.nodup_cons] at hn
    by_cases hid : id0 = id
    · simp only [mapGet, hid, if_true, Option.some.injEq] at h
      have hnone : mapGet rest id = none := by
        rw [mapGet_eq_none_iff]; rw [← hid]; exact hn.1
      rw [hid, mapDelete_cons_self, mapDelete_of_none hnone, h]
      simp only [storeSize, List.map_cons, List.sum_cons]
      omega
    · simp only [mapGet, hid, if_false] at h
      have := ih hn.2 h
      rw [mapDelete_cons_of_ne e0 rest hid]
      simp only [storeSize] at this
      simp only [storeSize, List.map_cons, List.sum_cons]
      omega

theorem Size_insertValue_le (v : Value) (a : Values) :
    Values.Size (insertValue v a) ≤ Values.Size a + v.size := by
  induction a with
  | nil => simp [insertValue, Values.Size]
  | cons w ws ih =>
    unfold Values.Size at *
    simp only [insertValue]
    split_ifs <;> simp only [List.map_cons, List.sum_cons] <;> omega

theorem Size_foldl_insertValue_le (b : Values) (acc : Values) :
    Values.Size (b.foldl (fun acc v => insertValue v acc) acc) ≤ Values.Size acc + Values.Size b := by
  induction b generalizing acc with
  | nil => simp [Values.Size]
  | cons v vs ih =>
    have h1 := ih (insertValue v acc)
    have h2 := Size_insertValue_le v acc
    have h3 : Values.Size (v :: vs) = v.size + Values.Size vs := by
      simp [Values.Size]
    simp only [List.foldl_cons]
    omega

theorem Size_Deduplicate_le (a : Values) : Values.Size (Values.Deduplicate a) ≤ Values.Size a := by
  have := Size_foldl_insertValue_le a []
  simpa [Values.Deduplicate, Values.Size] using this

theorem entry.deduplicate_size_le (e : entry) : e.deduplicate.size ≤ e.size := by
  unfold entry.deduplicate
  split_ifs
  · exact le_refl _
  · exact Size_Deduplicate_le e.values

theorem storeSize_dedupAt_le (store : List (OwnedStringID × entry))
    (forward : List (OwnedString × OwnedStringID)) (k : String) :
    storeSize (dedupAt store forward k) ≤ storeSize store := by
  unfold dedupAt
  cases mapGet forward k with
  | none => exact Nat.le_refl _
  | some id =>
    cases hs : mapGet store id with
    | none => simp only [hs]; exact Nat.le_refl _
    | some e =>
      have h1 := storeSize_mapSet_of_some e.deduplicate hs
      have h2 := entry.deduplicate_size_le e
      simp only [hs]
      omega

theorem storeSize_deduplicate_le (store : List (OwnedStringID × entry)) :
    storeSize (store.map (fun p => (p.1, p.2.deduplicate))) ≤ storeSize store := by
  induction store with
  | nil => exact le_refl _
  | cons p rest ih =>
    have := entry.deduplicate_size_le p.2
    simp only [storeSize] at ih
    simp only [storeSize, List.map_cons, List.sum_cons]
    omega

theorem ReachableVia.reachable {allowed : Cache → Op → Prop} {c : Cache}
    (h : ReachableVia allowed c) : Reachable c := by
  induction h with
  | init maxSize arena => exact Reachable.init maxSize arena
  | step op _ hop _ hstep ih => exact Reachable.step op ih hop hstep

theorem reachable_run {ops : List Op} {c c' : Cache} (h : Reachable c)
    (hops : ∀ op ∈ ops, op.wellFormed) (hrun : c.run ops = some c') : Reachable c' := by
  induction ops generalizing c with
  | nil =>
    simp only [Cache.run, Option.some.injEq] at hrun
    rw [← hrun]; exact h
  | cons op rest ih =>
    simp only [Cache.run] at hrun
    cases hs : c.step op with
    | none => simp [hs] at hrun
    | some c1 =>
      simp only [hs] at hrun
      exact ih (Reachable.step op h (hops op (List.mem_cons_self _ _)) hs)
        (fun o ho => hops o (List.mem_cons_of_mem _ ho)) hrun

theorem Cache.write_storeSize {c c' : Cache} {k : String} {v : Tsm1.Values}
    (hwf : MapsWF c.store c.internedOwnedStrings c.internedOwnedStringsReverse c.ownedStringIDAcc)
    (h : c.write k v = some c') :
    storeSize c'.store = storeSize c.store + Values.Size v := by
  unfold Cache.write at h
  cases hg : mapGet c.internedOwnedStrings k with
  | some osId =>
    simp only [hg] at h
    cases hs : mapGet c.store osId with
    | none => simp [hs] at h
    | some e =>
      simp only [hs] at h
      cases ha : e.add v with
      | none => simp [ha] at h
      | some e' =>
        simp only [ha, Option.some.injEq] at h
        rw [← h]
        have h1 := storeSize_mapSet_of_some e' hs
        have h2 : e'.size = e.size + Values.Size v := by
          simp only [entry.size, entry.add_values ha, Size_append]
        simp only
        omega
  | none =>
    simp only [hg, CacheLocalArena.GetOwnedString] at h
    cases ha : newEntry.add v with
    | none => simp [ha] at h
    | some e' =>
      simp only [ha, Option.some.injEq] at h
      rw [← h]
      have h1 := storeSize_mapSet_of_none e' hwf.fresh.1
      have h2 : e'.size = Values.Size v := by
        simp only [entry.size, entry.add_values ha, newEntry, List.nil_append]
      simp only
      omega

theorem Cache.writeMultiLoop_storeSize {batches : List (String × Tsm1.Values)} {c c' : Cache}
    (hwf : MapsWF c.store c.internedOwnedStrings c.internedOwnedStringsReverse c.ownedStringIDAcc)
    (h : c.writeMultiLoop batches = some c') :
    storeSize c'.store = storeSize c.store + (batches.map (fun p => Values.Size p.2)).sum := by
  induction batches generalizing c with
  | nil =>
    simp only [Cache.writeMultiLoop, Option.some.injEq] at h
    rw [← h]; simp
  | cons p rest ih =>
    obtain ⟨k0, v0⟩ := p
    rw [Cache.writeMultiLoop_cons] at h
    cases hw : c.write k0 v0 with
    | none => simp [hw] at h
    | some c1 =>
      simp only [hw, Option.bind] at h
      have h1 := Cache.write_storeSize hwf hw
      have h2 := ih (Cache.write_appended hwf hw).wf h
      simp only [List.map_cons, List.sum_cons]
      omega

/-- What an accepted `Write` does to the footprints. -/
theorem Cache.Write_ledger {c c' : Cache} {key : String} {values : Tsm1.Values}
    {r : Option Error} (hwf : c.WF) (h : c.Write key values = some (c', r)) :
    c' = c ∨
    (storeSize c'.store = storeSize c.store + Values.Size values ∧
     c'.size = (c.size + Values.Size values) % 18446744073709551616 ∧
     c'.snapshotSize = c.snapshotSize ∧ c'.maxSize = c.maxSize ∧
     ¬ (0 < c.maxSize ∧ c.maxSize < (c'.size + c.snapshotSize) % 18446744073709551616)) := by
  unfold Cache.Write at h
  simp only at h
  split_ifs at h with hcond
  · simp only [Option.some.injEq, Prod.mk.injEq] at h; exact Or.inl h.1.symm
  · cases hw : c.write key values with
    | none => simp [hw] at h
    | some c1 =>
      simp only [hw, Option.some.injEq, Prod.mk.injEq] at h
      have ha := Cache.write_appended hwf.live hw
      have hs := Cache.write_storeSize hwf.live hw
      right
      rw [← h.1]
      have hsize : uint64 ((c.size : Int) + (uint64 (Values.Size values) : Int))
          = (c.size + Values.Size values) % 18446744073709551616 := by
        unfold uint64; omega
      refine ⟨hs, hsize, ha.control.snapshotSize, ha.control.maxSize, ?_⟩
      intro hc
      apply hcond
      refine ⟨hc.1, ?_⟩
      have h2 := hc.2
      simp only [Cache.updateMemSize] at h2
      show uint64 _ > c.maxSize
      unfold uint64 at h2 ⊢
      omega

/-- What an accepted `WriteMulti` does to the footprints. -/
theorem Cache.WriteMulti_ledger {c c' : Cache} {batches : List (String × Tsm1.Values)}
    {r : Option Error} (hwf : c.WF) (h : c.WriteMulti batches = some (c', r)) :
    c' = c ∨
    (storeSize c'.store
        = storeSize c.store + (batches.map (fun p => Values.Size p.2)).sum ∧
     c'.size = (c.size + (batches.map (fun p => Values.Size p.2)).sum) % 18446744073709551616 ∧
     c'.snapshotSize = c.snapshotSize ∧ c'.maxSize = c.maxSize ∧
     ¬ (0 < c.maxSize ∧ c.maxSize < (c'.size + c.snapshotSize) % 18446744073709551616)) := by
  unfold Cache.WriteMulti at h
  simp only at h
  split_ifs at h with hcond
  · simp only [Option.some.injEq, Prod.mk.injEq] at h; exact Or.inl h.1.symm
  · cases hw : c.writeMultiLoop batches with
    | none => simp [hw] at h
    | some c1 =>
      simp only [hw, Option.some.injEq, Prod.mk.injEq] at h
      have hs := Cache.writeMultiLoop_storeSize hwf.live hw
      have hctl : c1.size = c.size ∧ c1.snapshotSize = c.snapshotSize ∧ c1.maxSize = c.maxSize := by
        clear h hs hcond
        induction batches generalizing c with
        | nil =>
          simp only [Cache.writeMultiLoop, Option.some.injEq] at hw
          rw [← hw]; exact ⟨rfl, rfl, rfl⟩
        | cons p rest ih =>
          obtain ⟨k0, v0⟩ := p
          rw [Cache.writeMultiLoop_cons] at hw
          cases hw1 : c.write k0 v0 with
          | none => simp [hw1] at hw
          | some c0 =>
            simp only [hw1, Option.bind] at hw
            have ha := Cache.write_appended hwf.live hw1
            have hwf0 : c0.WF := {
              live := ha.wf
              sibling := by
                intro s hs
                rw [ha.control.snapshot] at hs
                exact hwf.sibling s hs
              sizeBound := by rw [ha.control.size]; exact hwf.sizeBound
              snapshotSizeBound := by rw [ha.control.snapshotSize]; exact hwf.snapshotSizeBound
              maxSizeBound := by rw [ha.control.maxSize]; exact hwf.maxSizeBound }
            obtain ⟨i1, i2, i3⟩ := ih hwf0 hw
            exact ⟨i1.trans ha.control.size, i2.trans ha.control.snapshotSize,
              i3.trans ha.control.maxSize⟩
      right
      rw [← h.1]
      have hsize : uint64 ((c1.size : Int)
            + (uint64 ((batches.map (fun p => Values.Size p.2)).sum) : Int))
          = (c.size + (batches.map (fun p => Values.Size p.2)).sum) % 18446744073709551616 := by
        rw [hctl.1]; unfold uint64; omega
      refine ⟨hs, hsize, hctl.2.1, hctl.2.2, ?_⟩
      intro hc
      apply hcond
      refine ⟨hc.1, ?_⟩
      have h2 := hc.2
      simp only [Cache.updateMemSize] at h2
      rw [hsize] at h2
      show uint64 _ > c.maxSize
      unfold uint64
      omega

/-- What `Snapshot` does to the footprints. -/
theorem Cache.Snapshot_ledger {c c' : Cache} {r : Except Error SnapshotCache} (hwf : c.WF)
    (h : c.Snapshot = some (c', r)) :
    c' = c ∨
    (c'.store = [] ∧ c'.size = 0 ∧
     c'.snapshotSize = (c.snapshotSize + storeSize c.store) % 18446744073709551616 ∧
     c'.maxSize = c.maxSize) := by
  cases r with
  | ok s =>
    have hs := Cache.Snapshot_spec hwf h
    right
    refine ⟨hs.store, hs.size, ?_, hs.maxSize⟩
    rw [hs.snapshotSize]; unfold uint64; omega
  | error e =>
    have hsn := (Cache.Snapshot_error c).2 c' e h
    rw [(Cache.Snapshot_error c).1 hsn] at h
    simp only [Option.some.injEq, Prod.mk.injEq] at h
    exact Or.inl h.1.symm

/-- What `ClearSnapshot` does to the footprints. -/
theorem Cache.ClearSnapshot_ledger {c c' : Cache} {success : Bool}
    (h : c.ClearSnapshot success = some c') :
    c'.store = c.store ∧ c'.size = c.size ∧ c'.maxSize = c.maxSize ∧
    (c'.snapshotSize = c.snapshotSize ∨ c'.snapshotSize = 0) := by
  unfold Cache.ClearSnapshot at h
  cases success with
  | false =>
    simp only [Bool.false_eq_true, if_false, Option.some.injEq] at h
    rw [← h]; exact ⟨rfl, rfl, rfl, Or.inl rfl⟩
  | true =>
    simp only [if_true] at h
    cases hs : c.snapshot with
    | none => simp [hs] at h
    | some s =>
      simp only [hs, Option.some.injEq] at h
      rw [← h]; exact ⟨rfl, rfl, rfl, Or.inr rfl⟩

theorem Cache.deleteRangeKey_storeSize {c c' : Cache} {k : String} {min max : Int64}
    (hwf : MapsWF c.store c.internedOwnedStrings c.internedOwnedStringsReverse c.ownedStringIDAcc)
    (h : c.deleteRangeKey k min max = some c') :
    storeSize c'.store + Values.Size ((c.liveValues k).filter (inRange min max))
      = storeSize c.store := by
  unfold Cache.deleteRangeKey at h
  cases hg : mapGet c.internedOwnedStrings k with
  | none =>
    simp only [hg, Option.some.injEq] at h
    rw [← h]
    simp [Cache.liveValues, Cache.liveEntry, lookupEntry, hg, valuesOf, Values.Size]
  | some osId =>
    obtain ⟨e, he⟩ := hwf.store_isSome hg
    have hLV : c.liveValues k = e.values := by
      simp [Cache.liveValues, Cache.liveEntry, lookupEntry, hg, he, valuesOf, Option.bind]
    have hfull : (e.filter min max).count = 0 →
        Values.Size (e.values.filter (inRange min max)) = e.size := by
      intro hc
      simp only [entry.count, entry.filter, List.length_eq_zero] at hc
      rw [filter_inRange_of_Exclude_nil hc]; rfl
    have hdel := storeSize_mapDelete hwf.nodupStore he
    simp only [hg, he] at h
    rw [hLV]
    split_ifs at h with h1 h2
    · simp only [Option.some.injEq] at h
      rw [← h]
      have hcount : (e.filter min max).count = 0 := by
        simp only [entry.count, entry.filter, Exclude_full e.values h1, List.length_nil]
      rw [hfull hcount]; exact hdel
    · simp only [Option.some.injEq] at h
      rw [← h, hfull h2]; exact hdel
    · simp only [Option.some.injEq] at h
      rw [← h]
      have hset := storeSize_mapSet_of_some (e.filter min max) he
      have hadd := Size_filter_add e.values (inRange min max)
      have e1 : (e.filter min max).size
          = Values.Size (e.values.filter (fun v => !(inRange min max v))) := rfl
      have e2 : e.size = Values.Size e.values := rfl
      simp only
      omega

/-- What `DeleteRange` does to the footprints: the store loses `r` bytes and
`size` is lowered by `r`, in the arithmetic of `uint64`. -/
theorem Cache.DeleteRange_ledger {keys : List String} {c c' : Cache} {min max : Int64}
    (hwf : c.WF) (h : c.DeleteRange keys min max = some c') :
    ∃ r : Nat, storeSize c'.store + r = storeSize c.store ∧
      c'.size = uint64 ((c.size : Int) - (r : Int)) ∧
      c'.snapshotSize = c.snapshotSize ∧ c'.maxSize = c.maxSize := by
  induction keys generalizing c with
  | nil =>
    simp only [Cache.DeleteRange, Option.some.injEq] at h
    rw [← h]
    refine ⟨0, rfl, ?_, rfl, rfl⟩
    have := hwf.sizeBound
    unfold uint64; omega
  | cons k rest ih =>
    simp only [Cache.DeleteRange] at h
    obtain ⟨c1, hc1, hx⟩ := Cache.deleteRangeKey_spec k min max hwf.live hwf.sizeBound
    simp only [hc1] at h
    have hs1 := Cache.deleteRangeKey_storeSize hwf.live hc1
    have hwf1 : c1.WF := {
      live := hx.wf
      sibling := by
        intro s hs
        rw [hx.control.snapshot] at hs
        exact hwf.sibling s hs
      sizeBound := by rw [hx.size]; exact uint64_lt _
      snapshotSizeBound := by rw [hx.control.snapshotSize]; exact hwf.snapshotSizeBound
      maxSizeBound := by rw [hx.control.maxSize]; exact hwf.maxSizeBound }
    obtain ⟨r2, i1, i2, i3, i4⟩ := ih hwf1 h
    refine ⟨Values.Size ((c.liveValues k).filter (inRange min max)) + r2, by omega, ?_,
      i3.trans hx.control.snapshotSize, i4.trans hx.control.maxSize⟩
    rw [i2, hx.size]
    unfold uint64; omega

/-! ## Size accounting -/


theorem shrunkState_run :
    (NewCache 0 []).run [Op.Write "k" [v5a, v1a, v5b], Op.Values "k"] = some shrunkState := by
  decide

/-- C13 fails after a read: `Write("k", [(5,_),(1,_),(5,_)])` books 30 bytes,
the read of `k` deduplicates the live entry in place to two values of 20
bytes, and `size` stays at 30.  `Deduplicate()` in place of the read leaves
the same two numbers. -/
theorem size_not_lowered_by_read_counterexample :
    Reachable shrunkState ∧ shrunkState.size = 30 ∧ storeSize shrunkState.store = 20 ∧
      shrunkState.liveValues "k" = [v1a, v5b] ∧
      ((NewCache 0 []).run [Op.Write "k" [v5a, v1a, v5b], Op.Deduplicate]).map
        (fun c => (c.size, storeSize c.store)) = some (30, 20) :=
  ⟨reachable_run (Reachable.init 0 []) (by decide) shrunkState_run, by decide, by decide,
    by decide, by decide⟩

/-- C13, amended: in every state reached by calls other than a read of a key
and `Deduplicate`, `size` is the sum of `entry.size()` over the live entries
in the arithmetic of `uint64`, and is that sum itself when the sum is below
`2 ^ 64`. -/
theorem size_eq_sum_of_entry_sizes (c : Cache) (hr : ReachableVia keepsEntries c) :
    c.size = storeSize c.store % 18446744073709551616 ∧
    (storeSize c.store < 18446744073709551616 → c.size = storeSize c.store) := by
  have key : c.size = storeSize c.store % 18446744073709551616 := by
    induction hr with
    | init maxSize arena => rfl
    | @step c c' op hreach hop hallow hstep ih =>
      have hwf := reachable_WF hreach.reachable
      cases op with
      | Write key values =>
        simp only [Cache.step, Option.map_eq_some', Prod.exists, exists_and_right,
          exists_eq_right] at hstep
        obtain ⟨r, hr⟩ := hstep
        rcases Cache.Write_ledger hwf hr with h | ⟨h1, h2, -, -, -⟩
        · rw [h]; exact ih
        · rw [h1, h2, ih]; omega
      | WriteMulti values =>
        simp only [Cache.step, Option.map_eq_some', Prod.exists, exists_and_right,
          exists_eq_right] at hstep
        obtain ⟨r, hr⟩ := hstep
        rcases Cache.WriteMulti_ledger hwf hr with h | ⟨h1, h2, -, -, -⟩
        · rw [h]; exact ih
        · rw [h1, h2, ih]; omega
      | Values key => simp [keepsEntries, Op.deduplicates] at hallow
      | Deduplicate => simp [keepsEntries, Op.deduplicates] at hallow
      | DeduplicateSnapshot =>
        simp only [Cache.step, Option.some.injEq] at hstep
        rw [← hstep]; exact ih
      | Snapshot =>
        simp only [Cache.step, Option.map_eq_some', Prod.exists, exists_and_right,
          exists_eq_right] at hstep
        obtain ⟨r, hr⟩ := hstep
        rcases Cache.Snapshot_ledger hwf hr with h | ⟨h1, h2, -, -⟩
        · rw [h]; exact ih
        · rw [h1, h2]; rfl
      | ClearSnapshot success =>
        obtain ⟨h1, h2, -, -⟩ := Cache.ClearSnapshot_ledger hstep
        rw [h1, h2]; exact ih
      | Delete keys =>
        obtain ⟨r, h1, h2, -, -⟩ := Cache.DeleteRange_ledger hwf hstep
        rw [h2, ih]; unfold uint64; omega
      | DeleteRange keys min max =>
        obtain ⟨r, h1, h2, -, -⟩ := Cache.DeleteRange_ledger hwf hstep
        rw [h2, ih]; unfold uint64; omega
      | SetMaxSize size =>
        simp only [Cache.step, Option.some.injEq] at hstep
        rw [← hstep]; exact ih
  exact ⟨key, fun hlt => by rw [key]; exact Nat.mod_eq_of_lt hlt⟩

theorem tripleState_reachableVia (allowed : Cache → Op → Prop)
    (h : allowed (NewCache 0 []) (Op.Write "k" [v1a, v5a, v10a])) :
    ReachableVia allowed tripleState :=
  ReachableVia.step (Op.Write "k" [v1a, v5a, v10a]) (ReachableVia.init 0 []) trivial h
    (by decide)

/-- C13 (amended) at the cache that took one write of three values of 10
bytes: `size` is 30, the footprint of its one entry. -/
theorem size_eq_sum_of_entry_sizes_witness :
    ReachableVia keepsEntries tripleState ∧ tripleState.size = 30 ∧
      storeSize tripleState.store = 30 :=
  ⟨tripleState_reachableVia keepsEntries rfl,
    ((size_eq_sum_of_entry_sizes tripleState (tripleState_reachableVia keepsEntries rfl)).2
      (by decide)).trans (by decide), by decide⟩

/-! ## The budget -/

theorem loweredState_reachable : Reachable loweredState :=
  Reachable.step (Op.SetMaxSize 10) sixtyState_reachable trivial rfl

/-- C14 fails after `SetMaxSize`: with 60 bytes held under a budget of 100,
`SetMaxSize(10)` returns and leaves `size + snapshotSize = 60` above the
budget of 10. -/
theorem budget_lowered_by_SetMaxSize_counterexample :
    Reachable loweredState ∧ 0 < loweredState.maxSize ∧ loweredState.maxSize = 10 ∧
      loweredState.size + loweredState.snapshotSize = 60 ∧
      ¬ (loweredState.size + loweredState.snapshotSize ≤ loweredState.maxSize) :=
  ⟨loweredState_reachable, by decide, by decide, by decide, by decide⟩

/-- What the restriction `withinBudget` keeps true: the store holds no more
than `size` says, `size + snapshotSize` is below `2 ^ 64`, and within a
positive budget. -/
theorem withinBudget_invariant {c : Cache} (hr : ReachableVia withinBudget c) :
    storeSize c.store ≤ c.size ∧ c.size + c.snapshotSize < 18446744073709551616 ∧
    (0 < c.maxSize → c.size + c.snapshotSize ≤ c.maxSize) := by
  induction hr with
  | init maxSize arena =>
    refine ⟨Nat.le_refl _, ?_, ?_⟩
    · show 0 + 0 < 18446744073709551616
      omega
    · intro _
      exact Nat.zero_le _
  | @step c c' op hreach hop hallow hstep ih =>
    have hwf := reachable_WF hreach.reachable
    obtain ⟨i1, i2, i3⟩ := ih
    obtain ⟨g1, g2⟩ := hallow
    cases op with
    | Write key values =>
      simp only [Cache.step, Option.map_eq_some', Prod.exists, exists_and_right,
        exists_eq_right] at hstep
      obtain ⟨r, hr⟩ := hstep
      simp only [Op.added] at g1
      rcases Cache.Write_ledger hwf hr with h | ⟨h1, h2, h3, h4, h5⟩
      · rw [h]; exact ⟨i1, i2, i3⟩
      · have e1 : c'.size = c.size + Values.Size values := by
          rw [h2]; exact Nat.mod_eq_of_lt (by omega)
        have e2 : (c'.size + c.snapshotSize) % 18446744073709551616
            = c'.size + c.snapshotSize := Nat.mod_eq_of_lt (by omega)
        rw [e2] at h5
        rw [h1, h3, h4]
        refine ⟨by omega, by omega, ?_⟩
        intro hpos
        by_contra hgt
        exact h5 ⟨hpos, by omega⟩
    | WriteMulti values =>
      simp only [Cache.step, Option.map_eq_some', Prod.exists, exists_and_right,
        exists_eq_right] at hstep
      obtain ⟨r, hr⟩ := hstep
      simp only [Op.added] at g1
      rcases Cache.WriteMulti_ledger hwf hr with h | ⟨h1, h2, h3, h4, h5⟩
      · rw [h]; exact ⟨i1, i2, i3⟩
      · have e1 : c'.size = c.size + (values.map (fun p => Values.Size p.2)).sum := by
          rw [h2]; exact Nat.mod_eq_of_lt (by omega)
        have e2 : (c'.size + c.snapshotSize) % 18446744073709551616
            = c'.size + c.snapshotSize := Nat.mod_eq_of_lt (by omega)
        rw [e2] at h5
        rw [h1, h3, h4]
        refine ⟨by omega, by omega, ?_⟩
        intro hpos
        by_contra hgt
        exact h5 ⟨hpos, by omega⟩
    | Values key =>
      simp only [Cache.step, Cache.Values, Cache.merged_eq hwf key, Option.map_some',
        Option.some.injEq] at hstep
      rw [← hstep]
      have := storeSize_dedupAt_le c.store c.internedOwnedStrings key
      exact ⟨Nat.le_trans this i1, i2, i3⟩
    | Deduplicate =>
      simp only [Cache.step, Option.some.injEq] at hstep
      rw [← hstep]
      have := storeSize_deduplicate_le c.store
      exact ⟨Nat.le_trans this i1, i2, i3⟩
    | DeduplicateSnapshot =>
      simp only [Cache.step, Option.some.injEq] at hstep
      rw [← hstep]; exact ⟨i1, i2, i3⟩
    | Snapshot =>
      simp only [Cache.step, Option.map_eq_some', Prod.exists, exists_and_right,
        exists_eq_right] at hstep
      obtain ⟨r, hr⟩ := hstep
      rcases Cache.Snapshot_ledger hwf hr with h | ⟨h1, h2, h3, h4⟩
      · rw [h]; exact ⟨i1, i2, i3⟩
      · have e1 : c'.snapshotSize = c.snapshotSize + storeSize c.store := by
          rw [h3]; exact Nat.mod_eq_of_lt (by omega)
        rw [h1, h2, h4, e1]
        refine ⟨Nat.le_refl _, by omega, ?_⟩
        intro hpos
        have := i3 hpos
        omega
    | ClearSnapshot success =>
      obtain ⟨h1, h2, h3, h4⟩ := Cache.ClearSnapshot_ledger hstep
      rw [h1, h2, h3]
      refine ⟨i1, ?_, ?_⟩
      · rcases h4 with h4 | h4 <;> rw [h4] <;> omega
      · intro hpos
        have := i3 hpos
        rcases h4 with h4 | h4 <;> rw [h4] <;> omega
    | Delete keys =>
      obtain ⟨r, h1, h2, h3, h4⟩ := Cache.DeleteRange_ledger hwf hstep
      have e1 : c'.size = c.size - r := by
        rw [h2]; unfold uint64; omega
      rw [e1, h3, h4]
      refine ⟨by omega, by omega, ?_⟩
      intro hpos
      have := i3 hpos
      omega
    | DeleteRange keys min max =>
      obtain ⟨r, h1, h2, h3, h4⟩ := Cache.DeleteRange_ledger hwf hstep
      have e1 : c'.size = c.size - r := by
        rw [h2]; unfold uint64; omega
      rw [e1, h3, h4]
      refine ⟨by omega, by omega, ?_⟩
      intro hpos
      have := i3 hpos
      omega
    | SetMaxSize size =>
      simp only [Cache.step, Option.some.injEq] at hstep
      rw [← hstep]
      refine ⟨i1, i2, ?_⟩
      intro hpos
      simp only [Cache.SetMaxSize] at hpos ⊢
      rcases g2 with g | g
      · omega
      · exact g

/-- C14, amended: when no footprint handed to a write makes
`size + snapshotSize` reach `2 ^ 64` and `SetMaxSize` sets no positive budget
below `size + snapshotSize`, every state the calls reach has
`size + snapshotSize ≤ maxSize` when `maxSize > 0`. -/
theorem budget_kept_within_guard (c : Cache) (hr : ReachableVia withinBudget c)
    (hmax : 0 < c.maxSize) : c.size + c.snapshotSize ≤ c.maxSize :=
  (withinBudget_invariant hr).2.2 hmax

/-- C14 (amended) at the cache with a budget of 100 bytes that took one write
of 60 bytes. -/
theorem budget_kept_within_guard_witness :
    ReachableVia withinBudget sixtyState ∧ 0 < sixtyState.maxSize ∧
      sixtyState.size + sixtyState.snapshotSize ≤ sixtyState.maxSize :=
  have hreach : ReachableVia withinBudget sixtyState :=
    ReachableVia.step (Op.Write "k" [v60]) (ReachableVia.init 100 []) trivial (by decide)
      (by decide)
  ⟨hreach, by decide, budget_kept_within_guard sixtyState hreach (by decide)⟩

/-! ## Composition of range deletions -/

theorem inRange_union {a b c d : Int64} (h : rangesTouch a b c d) (v : Value) :
    inRange (min64 a c) (max64 b d) v = (inRange a b v || inRange c d v) := by
  obtain ⟨h1, h2, h3, h4⟩ := h
  rw [Bool.eq_iff_iff]
  simp only [inRange, min64, max64, Bool.and_eq_true, decide_eq_true_eq, Bool.or_eq_true]
  split_ifs <;> constructor <;> intro hh <;> omega

theorem Exclude_Exclude {a b c d : Int64} (h : rangesTouch a b c d) (l : Values) :
    Values.Exclude (Values.Exclude l a b) c d = Values.Exclude l (min64 a c) (max64 b d) := by
  unfold Values.Exclude
  rw [List.filter_filter]
  congr 1
  funext v
  rw [inRange_union h v]
  cases inRange a b v <;> cases inRange c d v <;> rfl

theorem excludedEntry_excludedEntry {a b c d : Int64} (h : rangesTouch a b c d)
    (x : Option entry) :
    (x.bind (excludedEntry a b)).bind (excludedEntry c d)
      = x.bind (excludedEntry (min64 a c) (max64 b d)) := by
  cases x with
  | none => rfl
  | some e =>
    have hcomp : (e.filter a b).filter c d = e.filter (min64 a c) (max64 b d) := by
      simp only [entry.filter, Exclude_Exclude h]
    simp only [Option.bind]
    by_cases h1 : (e.filter a b).count = 0
    · have h2 : (e.filter (min64 a c) (max64 b d)).count = 0 := by
        rw [← hcomp]
        simp only [entry.count, entry.filter, List.length_eq_zero] at h1 ⊢
        rw [h1]; rfl
      simp only [excludedEntry, h1, h2, if_true]
    · simp only [excludedEntry, h1, if_false, hcomp]

theorem Size_filter_union {a b c d : Int64} (h : rangesTouch a b c d) (l : Values) :
    Values.Size (l.filter (inRange a b))
        + Values.Size ((Values.Exclude l a b).filter (inRange c d))
      = Values.Size (l.filter (inRange (min64 a c) (max64 b d))) := by
  induction l with
  | nil => rfl
  | cons v vs ih =>
    have hu := inRange_union h v
    unfold Values.Size Values.Exclude at *
    cases h1 : inRange a b v <;> cases h2 : inRange c d v <;>
      simp only [h1, h2, Bool.or_false, Bool.or_true, Bool.or_self] at hu <;>
      simp only [List.filter_cons, h1, h2, hu, Bool.not_true, Bool.not_false, if_true,
        Bool.false_eq_true, if_false, List.map_cons, List.sum_cons] <;>
      omega

theorem Cache.deleteRangeKey_forward_sub {c c' : Cache} {k : String} {min max : Int64}
    (h : c.deleteRangeKey k min max = some c') (k2 : String) (id : OwnedStringID)
    (h2 : mapGet c'.internedOwnedStrings k2 = some id) :
    mapGet c.internedOwnedStrings k2 = some id := by
  unfold Cache.deleteRangeKey at h
  cases hg : mapGet c.internedOwnedStrings k with
  | none =>
    simp only [hg, Option.some.injEq] at h
    rw [← h] at h2; exact h2
  | some osId =>
    simp only [hg] at h
    cases hs : mapGet c.store osId with
    | none => simp [hs] at h
    | some e =>
      simp only [hs] at h
      split_ifs at h with h1 h3
      · simp only [Option.some.injEq] at h
        rw [← h] at h2
        simp only [mapGet_mapDelete] at h2
        split_ifs at h2
        exact h2
      · simp only [Option.some.injEq] at h
        rw [← h] at h2
        simp only [mapGet_mapDelete] at h2
        split_ifs at h2
        exact h2
      · simp only [Option.some.injEq] at h
        rw [← h] at h2
        exact h2

theorem Cache.DeleteRange_forward_sub {keys : List String} {c c' : Cache} {min max : Int64}
    (h : c.DeleteRange keys min max = some c') (k2 : String) (id : OwnedStringID)
    (h2 : mapGet c'.internedOwnedStrings k2 = some id) :
    mapGet c.internedOwnedStrings k2 = some id := by
  induction keys generalizing c with
  | nil =>
    simp only [Cache.DeleteRange, Option.some.injEq] at h
    rw [← h] at h2; exact h2
  | cons k rest ih =>
    simp only [Cache.DeleteRange] at h
    cases hk : c.deleteRangeKey k min max with
    | none => simp [hk] at h
    | some c1 =>
      simp only [hk] at h
      exact Cache.deleteRangeKey_forward_sub hk k2 id (ih h)

/-- Two caches that went through `DeleteRange` from the same cache and hold
the same entry under every key hold the same maps. -/
theorem Cache.maps_eq_of_entries_eq {c c2 c3 : Cache} (hwf2 : c2.WF) (hwf3 : c3.WF)
    (hsub2 : ∀ k id, mapGet c2.internedOwnedStrings k = some id →
      mapGet c.internedOwnedStrings k = some id)
    (hsub3 : ∀ k id, mapGet c3.internedOwnedStrings k = some id →
      mapGet c.internedOwnedStrings k = some id)
    (hent : ∀ k, c2.liveEntry k = c3.liveEntry k) :
    (∀ k, mapGet c2.internedOwnedStrings k = mapGet c3.internedOwnedStrings k) ∧
    (∀ id, mapGet c2.internedOwnedStringsReverse id = mapGet c3.internedOwnedStringsReverse id) ∧
    (∀ id, mapGet c2.store id = mapGet c3.store id) := by
  have half : ∀ {x y : Cache}, x.WF → y.WF →
      (∀ k id, mapGet x.internedOwnedStrings k = some id →
        mapGet c.internedOwnedStrings k = some id) →
      (∀ k id, mapGet y.internedOwnedStrings k = some id →
        mapGet c.internedOwnedStrings k = some id) →
      (∀ k, x.liveEntry k = y.liveEntry k) →
      ∀ k id, mapGet x.internedOwnedStrings k = some id →
        mapGet y.internedOwnedStrings k = some id := by
    intro x y hx hy sx sy he k id hk
    obtain ⟨e, hs⟩ := hx.live.store_isSome hk
    have hl : x.liveEntry k = some e := by
      simp [Cache.liveEntry, lookupEntry, hk, hs, Option.bind]
    rw [he k] at hl
    cases hy2 : mapGet y.internedOwnedStrings k with
    | none => simp [Cache.liveEntry, lookupEntry, hy2] at hl
    | some id2 =>
      have a1 := sx k id hk
      have a2 := sy k id2 hy2
      rw [a1] at a2
      simp only [Option.some.injEq] at a2
      rw [a2]
  have hfwd : ∀ k, mapGet c2.internedOwnedStrings k = mapGet c3.internedOwnedStrings k := by
    intro k
    cases h2 : mapGet c2.internedOwnedStrings k with
    | some id => exact (half hwf2 hwf3 hsub2 hsub3 hent k id h2).symm
    | none =>
      cases h3 : mapGet c3.internedOwnedStrings k with
      | none => rfl
      | some id =>
        have := half hwf3 hwf2 hsub3 hsub2 (fun k => (hent k).symm) k id h3
        rw [h2] at this; exact absurd this (by simp)
  have hrev : ∀ id, mapGet c2.internedOwnedStringsReverse id
      = mapGet c3.internedOwnedStringsReverse id := by
    intro id
    cases h2 : mapGet c2.internedOwnedStringsReverse id with
    | some k =>
      have := (hwf2.live.inverse k id).mpr h2
      rw [hfwd k] at this
      exact ((hwf3.live.inverse k id).mp this).symm
    | none =>
      cases h3 : mapGet c3.internedOwnedStringsReverse id with
      | none => rfl
      | some k =>
        have := (hwf3.live.inverse k id).mpr h3
        rw [← hfwd k] at this
        have := (hwf2.live.inverse k id).mp this
        rw [h2] at this; exact absurd this (by simp)
  refine ⟨hfwd, hrev, ?_⟩
  intro id
  cases h2 : mapGet c2.internedOwnedStringsReverse id with
  | some k =>
    have f2 := (hwf2.live.inverse k id).mpr h2
    have f3 := f2
    rw [hfwd k] at f3
    have e := hent k
    simp only [Cache.liveEntry, lookupEntry, f2, f3, Option.bind] at e
    exact e
  | none =>
    have h3 : mapGet c3.internedOwnedStringsReverse id = none := by rw [← hrev id]; exact h2
    have n2 : mapGet c2.store id = none := by
      cases hs : mapGet c2.store id with
      | none => rfl
      | some e =>
        have := (hwf2.live.covers id).mp (by simp [hs])
        simp [h2] at this
    have n3 : mapGet c3.store id = none := by
      cases hs : mapGet c3.store id with
      | none => rfl
      | some e =>
        have := (hwf3.live.covers id).mp (by simp [hs])
        simp [h3] at this
    rw [n2, n3]

theorem Cache.removedSize_add {c c1 : Cache} {keys : List String} {a b c0 d : Int64}
    (h : rangesTouch a b c0 d)
    (hent : ∀ k, k ∈ keys → c1.liveEntry k = (c.liveEntry k).bind (excludedEntry a b)) :
    c.removedSize keys a b + c1.removedSize keys c0 d
      = c.removedSize keys (min64 a c0) (max64 b d) := by
  unfold Cache.removedSize
  rw [← List.sum_map_add]
  congr 1
  apply List.map_congr_left
  intro k hk
  have hk2 : k ∈ keys := List.mem_dedup.mp hk
  have : c1.liveValues k = Values.Exclude (c.liveValues k) a b := by
    simp only [Cache.liveValues, hent k hk2, valuesOf_excludedEntry]
  rw [this]
  exact Size_filter_union h (c.liveValues k)

/-- C11: on a cache that satisfies the representation invariant, for ranges
`[a, b]` and `[c, d]` that are not empty and overlap or are adjacent,
`DeleteRange(K, a, b)` followed by `DeleteRange(K, c, d)` and the single call
`DeleteRange(K, min(a,c), max(b,d))` all return, and leave the same entry
under every key, the same interning maps, the same store, the same `size` and
the same remaining fields; the full range is included. -/
theorem DeleteRange_composition (c : Cache) (hwf : c.WF) (keys : List String)
    (a b c0 d : Int64) (h : rangesTouch a b c0 d) :
    ∃ c1 c2 c3, c.DeleteRange keys a b = some c1 ∧ c1.DeleteRange keys c0 d = some c2 ∧
      c.DeleteRange keys (min64 a c0) (max64 b d) = some c3 ∧
      (∀ k, c2.liveEntry k = c3.liveEntry k) ∧
      (∀ k, mapGet c2.internedOwnedStrings k = mapGet c3.internedOwnedStrings k) ∧
      (∀ id, mapGet c2.internedOwnedStringsReverse id
        = mapGet c3.internedOwnedStringsReverse id) ∧
      (∀ id, mapGet c2.store id = mapGet c3.store id) ∧
      c2.size = c3.size ∧ c3.SameSnapshot c2 := by
  obtain ⟨c1, hc1, hwf1, hs1, hin1, hout1, hsz1⟩ := Cache.DeleteRange_spec keys a b hwf
  obtain ⟨c2, hc2, hwf2, hs2, hin2, hout2, hsz2⟩ := Cache.DeleteRange_spec keys c0 d hwf1
  obtain ⟨c3, hc3, hwf3, hs3, hin3, hout3, hsz3⟩ :=
    Cache.DeleteRange_spec keys (min64 a c0) (max64 b d) hwf
  have hent : ∀ k, c2.liveEntry k = c3.liveEntry k := by
    intro k
    by_cases hk : k ∈ keys
    · rw [hin2 k hk, hin1 k hk, hin3 k hk, excludedEntry_excludedEntry h]
    · rw [(hout2 k hk).1, (hout1 k hk).1, (hout3 k hk).1]
  have hsub2 : ∀ k id, mapGet c2.internedOwnedStrings k = some id →
      mapGet c.internedOwnedStrings k = some id := fun k id hk =>
    Cache.DeleteRange_forward_sub hc1 k id (Cache.DeleteRange_forward_sub hc2 k id hk)
  have hsub3 : ∀ k id, mapGet c3.internedOwnedStrings k = some id →
      mapGet c.internedOwnedStrings k = some id := fun k id hk =>
    Cache.DeleteRange_forward_sub hc3 k id hk
  obtain ⟨m1, m2, m3⟩ := Cache.maps_eq_of_entries_eq hwf2 hwf3 hsub2 hsub3 hent
  refine ⟨c1, c2, c3, hc1, hc2, hc3, hent, m1, m2, m3, ?_, ?_⟩
  · have hadd := Cache.removedSize_add h hin1
    rw [hsz2, hsz1, hsz3, ← hadd]
    unfold uint64
    push_cast
    omega
  · exact {
      maxSize := by rw [hs2.maxSize, hs1.maxSize, hs3.maxSize]
      snapshot := by rw [hs2.snapshot, hs1.snapshot, hs3.snapshot]
      snapshotSize := by rw [hs2.snapshotSize, hs1.snapshotSize, hs3.snapshotSize]
      snapshotting := by rw [hs2.snapshotting, hs1.snapshotting, hs3.snapshotting]
      snapshotAttempts := by
        rw [hs2.snapshotAttempts, hs1.snapshotAttempts, hs3.snapshotAttempts]
      stats := by rw [hs2.stats, hs1.stats, hs3.stats] }

/-- C11 at the cache that holds `[(1,_),(5,_),(10,_)]` under `k`, for the
adjacent ranges `[MinInt64, 5]` and `[6, MaxInt64]`, whose union is the full
range. -/
theorem DeleteRange_composition_witness :
    tripleState.WF ∧
    rangesTouch ⟨MinInt64, by decide⟩ ⟨5, by decide⟩ ⟨6, by decide⟩ ⟨MaxInt64, by decide⟩ ∧
    (min64 ⟨MinInt64, by decide⟩ ⟨6, by decide⟩).val = MinInt64 ∧
    (max64 ⟨5, by decide⟩ ⟨MaxInt64, by decide⟩).val = MaxInt64 ∧
    ∃ c1 c2 c3,
      tripleState.DeleteRange ["k"] ⟨MinInt64, by decide⟩ ⟨5, by decide⟩ = some c1 ∧
      c1.DeleteRange ["k"] ⟨6, by decide⟩ ⟨MaxInt64, by decide⟩ = some c2 ∧
      tripleState.DeleteRange ["k"] (min64 ⟨MinInt64, by decide⟩ ⟨6, by decide⟩)
        (max64 ⟨5, by decide⟩ ⟨MaxInt64, by decide⟩) = some c3 ∧
      c2.liveEntry "k" = c3.liveEntry "k" ∧
      mapGet c2.internedOwnedStrings "k" = mapGet c3.internedOwnedStrings "k" ∧
      c2.size = c3.size := by
  have hwf := reachable_WF tripleState_reachable
  refine ⟨hwf, by decide, by decide, by decide, ?_⟩
  obtain ⟨c1, c2, c3, h1, h2, h3, h4, h5, -, -, h8, -⟩ :=
    DeleteRange_composition tripleState hwf ["k"] ⟨MinInt64, by decide⟩ ⟨5, by decide⟩
      ⟨6, by decide⟩ ⟨MaxInt64, by decide⟩ (by decide)
  exact ⟨c1, c2, c3, h1, h2, h3, h4 "k", h5 "k", h8⟩

/-! ## Reference counts of the keys held -/

theorem refcount_Inc (a : CacheLocalArena) (os k : OwnedString) (n : Nat) :
    refcount (CacheLocalArena.Inc a os n) k = refcount a k + (if os = k then n else 0) := by
  unfold refcount CacheLocalArena.Inc
  rw [mapGet_mapSet]
  by_cases h : os = k
  · simp [h]
  · simp [h]

theorem refcount_GetOwnedString (a : CacheLocalArena) (s k : OwnedString) :
    refcount (CacheLocalArena.GetOwnedString a s).1 k
      = refcount a k + (if s = k then 1 else 0) := by
  unfold refcount CacheLocalArena.GetOwnedString
  simp only
  rw [mapGet_mapSet]
  by_cases h : s = k
  · simp [h]
  · simp [h]

theorem refcount_Dec (a : CacheLocalArena) (os k : OwnedString) (n : Nat) :
    refcount (CacheLocalArena.Dec a os n) k = refcount a k - (if os = k then n else 0) := by
  unfold refcount CacheLocalArena.Dec
  cases hg : mapGet a os with
  | none =>
    by_cases h : os = k
    · simp [← h, hg]
    · simp [h]
  | some r =>
    simp only
    by_cases hr : r ≤ n
    · simp only [hr, if_true, mapGet_mapDelete]
      by_cases h : os = k
      · simp only [h, if_true, Option.getD_none]
        rw [h] at hg
        simp only [hg, Option.getD_some]
        omega
      · simp [h]
    · simp only [hr, if_false, mapGet_mapSet]
      by_cases h : os = k
      · simp only [h, if_true, Option.getD_some]
        rw [h] at hg
        simp only [hg, Option.getD_some]
      · simp [h]

theorem holds_le_one (forward : List (OwnedString × OwnedStringID)) (k : OwnedString) :
    holds forward k ≤ 1 := by
  unfold holds; split_ifs <;> omega

theorem holds_cons (p : OwnedString × OwnedStringID)
    (rest : List (OwnedString × OwnedStringID)) (k : OwnedString)
    (hn : p.1 ∉ mapKeys rest) :
    holds (p :: rest) k = (if p.1 = k then 1 else 0) + holds rest k := by
  obtain ⟨k0, id0⟩ := p
  unfold holds
  by_cases h : k0 = k
  · have : mapGet rest k = none := by
      rw [mapGet_eq_none_iff]; rw [← h]; exact hn
    simp [mapGet, h, this]
  · simp [mapGet, h]

theorem refcount_reclaimStore (m0 : List (OwnedString × OwnedStringID))
    (hn : (mapKeys m0).Nodup) (a : CacheLocalArena) (k : OwnedString) :
    refcount (reclaimStore a m0) k = refcount a k - holds m0 k := by
  induction m0 generalizing a with
  | nil => simp [reclaimStore, holds, mapGet]
  | cons p rest ih =>
    simp only [mapKeys, List.map_cons, List.nodup_cons] at hn
    have h1 := ih hn.2 (CacheLocalArena.Dec a p.1 1)
    have h2 := refcount_Dec a p.1 k 1
    have h3 := holds_cons p rest k hn.1
    simp only [reclaimStore, List.foldl_cons] at h1 ⊢
    rw [h1, h2, h3]
    omega

theorem holds_mapSet (forward : List (OwnedString × OwnedStringID)) (os k : OwnedString)
    (id : OwnedStringID) :
    holds (mapSet forward os id) k = if os = k then 1 else holds forward k := by
  unfold holds
  rw [mapGet_mapSet]
  by_cases h : os = k
  · simp [h]
  · simp [h]

theorem holds_mapDelete (forward : List (OwnedString × OwnedStringID)) (os k : OwnedString) :
    holds (mapDelete forward os) k = if os = k then 0 else holds forward k := by
  unfold holds
  rw [mapGet_mapDelete]
  by_cases h : os = k
  · simp [h]
  · simp [h]

/-- What `write` does to the reference counts: a key that is new to the live
cache gains one reference. -/
theorem Cache.write_refcount {c c' : Cache} {k : String} {v : Tsm1.Values}
    (h : c.write k v = some c') :
    c'.snapshot = c.snapshot ∧
    ∀ k2, refcount c'.arena k2 + holds c.internedOwnedStrings k2
      = refcount c.arena k2 + holds c'.internedOwnedStrings k2 := by
  unfold Cache.write at h
  cases hg : mapGet c.internedOwnedStrings k with
  | some osId =>
    simp only [hg] at h
    cases hs : mapGet c.store osId with
    | none => simp [hs] at h
    | some e =>
      simp only [hs] at h
      cases ha : e.add v with
      | none => simp [ha] at h
      | some e' =>
        simp only [ha, Option.some.injEq] at h
        rw [← h]
        exact ⟨rfl, fun _ => rfl⟩
  | none =>
    simp only [hg] at h
    cases ha : newEntry.add v with
    | none => simp [ha] at h
    | some e' =>
      simp only [ha, Option.some.injEq] at h
      rw [← h]
      refine ⟨rfl, ?_⟩
      intro k2
      have h1 := refcount_GetOwnedString c.arena k k2
      have h2 := holds_mapSet c.internedOwnedStrings k k2 (c.ownedStringIDAcc + 1)
      simp only [CacheLocalArena.GetOwnedString] at h1 ⊢
      rw [h1, h2]
      by_cases hk : k = k2
      · have : holds c.internedOwnedStrings k2 = 0 := by
          rw [← hk]; simp [holds, hg]
        simp only [hk, if_true, this]
      · simp only [hk, if_false]
        omega

theorem Cache.writeMultiLoop_refcount {batches : List (String × Tsm1.Values)} {c c' : Cache}
    (h : c.writeMultiLoop batches = some c') :
    c'.snapshot = c.snapshot ∧
    ∀ k2, refcount c'.arena k2 + holds c.internedOwnedStrings k2
      = refcount c.arena k2 + holds c'.internedOwnedStrings k2 := by
  induction batches generalizing c with
  | nil =>
    simp only [Cache.writeMultiLoop, Option.some.injEq] at h
    rw [← h]; exact ⟨rfl, fun _ => rfl⟩
  | cons p rest ih =>
    obtain ⟨k0, v0⟩ := p
    rw [Cache.writeMultiLoop_cons] at h
    cases hw : c.write k0 v0 with
    | none => simp [hw] at h
    | some c1 =>
      simp only [hw, Option.bind] at h
      obtain ⟨a1, a2⟩ := Cache.write_refcount hw
      obtain ⟨b1, b2⟩ := ih h
      refine ⟨b1.trans a1, ?_⟩
      intro k2
      have := a2 k2
      have := b2 k2
      omega

theorem Cache.counted_of_balance {c c' : Cache} (hc : c.Counted)
    (hsnap : c'.snapshot = c.snapshot)
    (hbal : ∀ k2, refcount c'.arena k2 + holds c.internedOwnedStrings k2
      = refcount c.arena k2 + holds c'.internedOwnedStrings k2) : c'.Counted := by
  intro k
  have h1 := hc k
  have h2 := hbal k
  simp only [Cache.holders, hsnap] at h1 ⊢
  omega

theorem Cache.deleteRangeKey_counted {c c' : Cache} {k : String} {min max : Int64}
    (hwf : MapsWF c.store c.internedOwnedStrings c.internedOwnedStringsReverse c.ownedStringIDAcc)
    (hc : c.Counted) (h : c.deleteRangeKey k min max = some c') : c'.Counted := by
  unfold Cache.deleteRangeKey at h
  cases hg : mapGet c.internedOwnedStrings k with
  | none =>
    simp only [hg, Option.some.injEq] at h
    rw [← h]; exact hc
  | some osId =>
    have hos : (mapGet c.internedOwnedStringsReverse osId).getD "" = k := by
      rw [(hwf.inverse k osId).mp hg]; rfl
    have hremove : ∀ c2 : Cache, c2.snapshot = c.snapshot →
        c2.internedOwnedStrings = mapDelete c.internedOwnedStrings k →
        c2.arena = CacheLocalArena.Dec c.arena k 1 → c2.Counted := by
      intro c2 e1 e2 e3 k2
      have h1 := hc k2
      have h2 := refcount_Dec c.arena k k2 1
      have h3 := holds_mapDelete c.internedOwnedStrings k k2
      simp only [Cache.holders, e1, e2, e3] at h1 ⊢
      rw [h2, h3]
      by_cases hk : k = k2
      · have : holds c.internedOwnedStrings k2 = 1 := by
          rw [← hk]; simp [holds, hg]
        simp only [hk, if_true] at this ⊢
        omega
      · simp only [hk, if_false]
        omega
    simp only [hg, hos] at h
    cases hs : mapGet c.store osId with
    | none => simp [hs] at h
    | some e =>
      simp only [hs] at h
      split_ifs at h with h1 h2
      · simp only [Option.some.injEq] at h
        rw [← h]; exact hremove _ rfl rfl rfl
      · simp only [Option.some.injEq] at h
        rw [← h]; exact hremove _ rfl rfl rfl
      · simp only [Option.some.injEq] at h
        rw [← h]
        exact Cache.counted_of_balance hc rfl (fun _ => rfl)

theorem Cache.DeleteRange_counted {keys : List String} {c c' : Cache} {min max : Int64}
    (hwf : c.WF) (hc : c.Counted) (h : c.DeleteRange keys min max = some c') : c'.Counted := by
  induction keys generalizing c with
  | nil =>
    simp only [Cache.DeleteRange, Option.some.injEq] at h
    rw [← h]; exact hc
  | cons k rest ih =>
    simp only [Cache.DeleteRange] at h
    obtain ⟨c1, hc1, hx⟩ := Cache.deleteRangeKey_spec k min max hwf.live hwf.sizeBound
    simp only [hc1] at h
    have hwf1 : c1.WF := {
      live := hx.wf
      sibling := by
        intro s hs
        rw [hx.control.snapshot] at hs
        exact hwf.sibling s hs
      sizeBound := by rw [hx.size]; exact uint64_lt _
      snapshotSizeBound := by rw [hx.control.snapshotSize]; exact hwf.snapshotSizeBound
      maxSizeBound := by rw [hx.control.maxSize]; exact hwf.maxSizeBound }
    exact ih hwf1 (Cache.deleteRangeKey_counted hwf.live hc hc1) h

/-- One round of the loop of `Snapshot` raises the reference count of a key
exactly when the sibling starts to hold it. -/
theorem snapshotAppend_refcount {reverse : List (OwnedStringID × OwnedString)}
    {st st' : SnapshotLoop} {osId : OwnedStringID} {e : entry}
    (h : snapshotAppend reverse st osId e = some st') (k : OwnedString) :
    refcount st'.arena k + holds st.snapshot.internedOwnedStrings k
      = refcount st.arena k + holds st'.snapshot.internedOwnedStrings k := by
  unfold snapshotAppend at h
  simp only at h
  cases hg : mapGet st.snapshot.internedOwnedStrings ((mapGet reverse osId).getD "") with
  | some osId2 =>
    simp only [hg] at h
    cases hs : mapGet st.snapshot.store osId2 with
    | none => simp [hs] at h
    | some se =>
      simp only [hs] at h
      cases ha : se.add e.values with
      | none => simp [ha] at h
      | some se' =>
        simp only [ha, Option.some.injEq] at h
        rw [← h]
  | none =>
    simp only [hg, Option.some.injEq] at h
    rw [← h]
    have h1 := refcount_Inc st.arena ((mapGet reverse osId).getD "") k 1
    have h2 := holds_mapSet st.snapshot.internedOwnedStrings ((mapGet reverse osId).getD "") k
      (st.snapshot.ownedStringIDAcc + 1)
    simp only
    rw [h1, h2]
    by_cases hk : (mapGet reverse osId).getD "" = k
    · have : holds st.snapshot.internedOwnedStrings k = 0 := by
        rw [← hk]; simp [holds, hg]
      simp only [hk, if_true, this]
    · simp only [hk, if_false]
      omega

theorem snapshotLoop_refcount {reverse : List (OwnedStringID × OwnedString)}
    {l : List (OwnedStringID × entry)} {st st' : SnapshotLoop}
    (h : snapshotLoop reverse l st = some st') (k : OwnedString) :
    refcount st'.arena k + holds st.snapshot.internedOwnedStrings k
      = refcount st.arena k + holds st'.snapshot.internedOwnedStrings k := by
  induction l generalizing st with
  | nil =>
    simp only [snapshotLoop, Option.some.injEq] at h
    rw [← h]
  | cons p rest ih =>
    obtain ⟨osId0, e0⟩ := p
    simp only [snapshotLoop] at h
    cases ha : snapshotAppend reverse st osId0 e0 with
    | none => simp [ha] at h
    | some st1 =>
      simp only [ha] at h
      have h1 := snapshotAppend_refcount ha k
      have h2 := ih h
      omega

theorem Cache.Snapshot_counted {c c' : Cache} {r : Except Error SnapshotCache} (hwf : c.WF)
    (hc : c.Counted) (h : c.Snapshot = some (c', r)) : c'.Counted := by
  unfold Cache.Snapshot at h
  by_cases hsn : c.snapshotting = true
  · simp only [hsn, if_true, Option.some.injEq, Prod.mk.injEq] at h
    rw [← h.1]; exact hc
  simp only [hsn, Bool.false_eq_true, if_false] at h
  cases hloop : snapshotLoop c.internedOwnedStringsReverse c.store
      { snapshot := (match c.snapshot with
          | none => SnapshotCache.empty
          | some s => s), arena := c.arena, snapshotSize := c.snapshotSize } with
  | none => simp [hloop] at h
  | some st =>
    simp only [hloop, Option.some.injEq, Prod.mk.injEq] at h
    rw [← h.1]
    intro k
    have h1 := snapshotLoop_refcount hloop k
    have h2 := refcount_reclaimStore c.internedOwnedStrings hwf.live.nodupForward st.arena k
    have h3 := hc k
    have h4 : holds (match c.snapshot with
        | none => SnapshotCache.empty
        | some s => s).internedOwnedStrings k
        = (match c.snapshot with
          | none => 0
          | some s => holds s.internedOwnedStrings k) := by
      cases c.snapshot with
      | none => simp [SnapshotCache.empty, holds, mapGet]
      | some s => rfl
    simp only [Cache.holders] at h3
    simp only at h1
    rw [h4] at h1
    simp only [Cache.holders, Cache.updateSnapshots, Cache.updateCachedBytes,
      Cache.updateMemSize]
    rw [h2]
    have h5 : holds ([] : List (OwnedString × OwnedStringID)) k = 0 := by
      simp [holds, mapGet]
    rw [h5]
    omega

theorem Cache.ClearSnapshot_counted {c c' : Cache} {success : Bool} (hwf : c.WF)
    (hc : c.Counted) (h : c.ClearSnapshot success = some c') : c'.Counted := by
  unfold Cache.ClearSnapshot at h
  cases success with
  | false =>
    simp only [Bool.false_eq_true, if_false, Option.some.injEq] at h
    rw [← h]; exact hc
  | true =>
    simp only [if_true] at h
    cases hs : c.snapshot with
    | none => simp [hs] at h
    | some s =>
      simp only [hs, Option.some.injEq] at h
      rw [← h]
      intro k
      have h1 := hc k
      have h2 := refcount_reclaimStore s.internedOwnedStrings (hwf.sibling s hs).nodupForward
        c.arena k
      simp only [Cache.holders, hs] at h1
      simp only [Cache.holders, Cache.updateSnapshots]
      rw [h2]
      omega

/-- In every reachable cache state every key has a reference count of at
least the number of caches that hold it. -/
theorem reachable_Counted {c : Cache} (h : Reachable c) : c.Counted := by
  induction h with
  | init maxSize arena =>
    intro k
    simp [Cache.holders, NewCache, holds, mapGet]
  | @step c c' op hreach hop hstep ih =>
    have hwf := reachable_WF hreach
    cases op with
    | Write key values =>
      simp only [Cache.step, Option.map_eq_some', Prod.exists, exists_and_right,
        exists_eq_right] at hstep
      obtain ⟨r, hr⟩ := hstep
      unfold Cache.Write at hr
      simp only at hr
      split_ifs at hr with hcond
      · simp only [Option.some.injEq, Prod.mk.injEq] at hr; rw [← hr.1]; exact ih
      · cases hw : c.write key values with
        | none => simp [hw] at hr
        | some c1 =>
          simp only [hw, Option.some.injEq, Prod.mk.injEq] at hr
          obtain ⟨h1, h2⟩ := Cache.write_refcount hw
          rw [← hr.1]
          exact Cache.counted_of_balance ih h1 h2
    | WriteMulti values =>
      simp only [Cache.step, Option.map_eq_some', Prod.exists, exists_and_right,
        exists_eq_right] at hstep
      obtain ⟨r, hr⟩ := hstep
      unfold Cache.WriteMulti at hr
      simp only at hr
      split_ifs at hr with hcond
      · simp only [Option.some.injEq, Prod.mk.injEq] at hr; rw [← hr.1]; exact ih
      · cases hw : c.writeMultiLoop values with
        | none => simp [hw] at hr
        | some c1 =>
          simp only [hw, Option.some.injEq, Prod.mk.injEq] at hr
          obtain ⟨h1, h2⟩ := Cache.writeMultiLoop_refcount hw
          rw [← hr.1]
          exact Cache.counted_of_balance ih h1 h2
    | Values key =>
      simp only [Cache.step, Cache.Values, Cache.merged_eq hwf key, Option.map_some',
        Option.some.injEq] at hstep
      rw [← hstep]
      intro k
      have := ih k
      simp only [Cache.holders, Cache.dedupKey] at this ⊢
      cases hs : c.snapshot with
      | none => simp only [hs, Option.map_none'] at this ⊢; exact this
      | some s => simp only [hs, Option.map_some'] at this ⊢; exact this
    | Deduplicate =>
      simp only [Cache.step, Option.some.injEq] at hstep
      rw [← hstep]; exact ih
    | DeduplicateSnapshot =>
      simp only [Cache.step, Option.some.injEq] at hstep
      rw [← hstep]
      intro k
      have := ih k
      simp only [Cache.holders] at this ⊢
      cases hs : c.snapshot with
      | none => simp only [hs, Option.map_none'] at this ⊢; exact this
      | some s =>
        simp only [hs, Option.map_some', SnapshotCache.Deduplicate] at this ⊢; exact this
    | Snapshot =>
      simp only [Cache.step, Option.map_eq_some', Prod.exists, exists_and_right,
        exists_eq_right] at hstep
      obtain ⟨r, hr⟩ := hstep
      exact Cache.Snapshot_counted hwf ih hr
    | ClearSnapshot success => exact Cache.ClearSnapshot_counted hwf ih hstep
    | Delete keys => exact Cache.DeleteRange_counted hwf ih hstep
    | DeleteRange keys min max => exact Cache.DeleteRange_counted hwf ih hstep
    | SetMaxSize size =>
      simp only [Cache.step, Option.some.injEq] at hstep
      rw [← hstep]; exact ih

/-- C20: in every reachable cache state the reference count the arena keeps
for a key is at least the number of caches, among the live cache and the
sibling, whose forward interning map holds the key; a key that is held is
therefore still in the arena, with a positive count. -/
theorem refcount_covers_holders (c : Cache) (hr : Reachable c) (k : OwnedString) :
    c.holders k ≤ refcount c.arena k ∧
    (0 < c.holders k → ∃ n, mapGet c.arena k = some n ∧ 0 < n) := by
  have h := reachable_Counted hr k
  refine ⟨h, ?_⟩
  intro hpos
  cases hg : mapGet c.arena k with
  | none =>
    simp only [refcount, hg, Option.getD_none] at h
    omega
  | some n =>
    simp only [refcount, hg, Option.getD_some] at h
    exact ⟨n, rfl, by omega⟩

/-- C20 at the cache whose live store and sibling both hold `k`: the arena
counts two references. -/
theorem refcount_covers_holders_witness :
    Reachable handoffState ∧ handoffState.holders "k" = 2 ∧
      2 ≤ refcount handoffState.arena "k" := by
  have h := (refcount_covers_holders handoffState handoffState_reachable "k").1
  have e : handoffState.holders "k" = 2 := by decide
  rw [e] at h
  exact ⟨handoffState_reachable, e, h⟩

/-! ## The sibling and the flag `snapshotting` -/

/-- What a call does to the sibling and to `snapshotting`: it leaves both as
they are, or leaves a sibling with the flag set (`Snapshot`), or leaves no
sibling with the flag cleared (`ClearSnapshot(true)`), or is
`ClearSnapshot(false)`, which keeps the sibling and clears the flag. -/
theorem Cache.step_flags {c c' : Cache} {op : Op} (hwf : c.WF) (hop : op.wellFormed)
    (h : c.step op = some c') :
    (c'.snapshot.isSome = c.snapshot.isSome ∧ c'.snapshotting = c.snapshotting) ∨
    (c'.snapshot.isSome = true ∧ c'.snapshotting = true) ∨
    (c'.snapshot = none ∧ c'.snapshotting = false) ∨
    (op = Op.ClearSnapshot false ∧ c'.snapshot = c.snapshot ∧ c'.snapshotting = false) := by
  cases op with
  | Write key values =>
    simp only [Cache.step, Option.map_eq_some', Prod.exists, exists_and_right,
      exists_eq_right] at h
    obtain ⟨r, hr⟩ := h
    unfold Cache.Write at hr
    simp only at hr
    split_ifs at hr with hcond
    · simp only [Option.some.injEq, Prod.mk.injEq] at hr
      rw [← hr.1]; exact Or.inl ⟨rfl, rfl⟩
    · cases hw : c.write key values with
      | none => simp [hw] at hr
      | some c1 =>
        simp only [hw, Option.some.injEq, Prod.mk.injEq] at hr
        have ha := (Cache.write_appended hwf.live hw).control
        rw [← hr.1]
        left
        simp only [Cache.updateMemSize]
        rw [ha.snapshot, ha.snapshotting]
        exact ⟨rfl, rfl⟩
  | WriteMulti values =>
    simp only [Cache.step, Option.map_eq_some', Prod.exists, exists_and_right,
      exists_eq_right] at h
    obtain ⟨r, hr⟩ := h
    unfold Cache.WriteMulti at hr
    simp only at hr
    split_ifs at hr with hcond
    · simp only [Option.some.injEq, Prod.mk.injEq] at hr
      rw [← hr.1]; exact Or.inl ⟨rfl, rfl⟩
    · cases hw : c.writeMultiLoop values with
      | none => simp [hw] at hr
      | some c1 =>
        simp only [hw, Option.some.injEq, Prod.mk.injEq] at hr
        have ha := (Cache.writeMultiLoop_spec hwf.live hop hw).2.1
        rw [← hr.1]
        left
        simp only [Cache.updateMemSize]
        rw [ha.snapshot, ha.snapshotting]
        exact ⟨rfl, rfl⟩
  | Values key =>
    simp only [Cache.step, Cache.Values, Cache.merged_eq hwf key, Option.map_some',
      Option.some.injEq] at h
    rw [← h]
    left
    refine ⟨?_, rfl⟩
    unfold Cache.dedupKey
    cases c.snapshot <;> rfl
  | Deduplicate =>
    simp only [Cache.step, Option.some.injEq] at h
    rw [← h]; exact Or.inl ⟨rfl, rfl⟩
  | DeduplicateSnapshot =>
    simp only [Cache.step, Option.some.injEq] at h
    rw [← h]
    left
    refine ⟨?_, rfl⟩
    show (c.snapshot.map SnapshotCache.Deduplicate).isSome = c.snapshot.isSome
    cases c.snapshot <;> rfl
  | Snapshot =>
    simp only [Cache.step, Option.map_eq_some', Prod.exists, exists_and_right,
      exists_eq_right] at h
    obtain ⟨r, hr⟩ := h
    cases r with
    | ok s =>
      have hs := Cache.Snapshot_spec hwf hr
      right; left
      exact ⟨by rw [hs.sibling]; rfl, hs.snapshotting⟩
    | error e =>
      have hsn := (Cache.Snapshot_error c).2 c' e hr
      rw [(Cache.Snapshot_error c).1 hsn] at hr
      simp only [Option.some.injEq, Prod.mk.injEq] at hr
      rw [← hr.1]; exact Or.inl ⟨rfl, rfl⟩
  | ClearSnapshot success =>
    simp only [Cache.step, Cache.ClearSnapshot] at h
    cases success with
    | false =>
      simp only [Bool.false_eq_true, if_false, Option.some.injEq] at h
      rw [← h]
      exact Or.inr (Or.inr (Or.inr ⟨rfl, rfl, rfl⟩))
    | true =>
      simp only [if_true] at h
      cases hs : c.snapshot with
      | none => simp [hs] at h
      | some s =>
        simp only [hs, Option.some.injEq] at h
        rw [← h]
        exact Or.inr (Or.inr (Or.inl ⟨rfl, rfl⟩))
  | Delete keys =>
    obtain ⟨c2, hc2, -, hs, -⟩ := Cache.DeleteRange_spec keys ⟨MinInt64, by decide⟩
      ⟨MaxInt64, by decide⟩ hwf
    have e : c' = c2 := by
      have h' : c.DeleteRange keys ⟨MinInt64, by decide⟩ ⟨MaxInt64, by decide⟩ = some c' := h
      rw [hc2] at h'
      exact (Option.some.inj h').symm
    rw [e, hs.snapshot, hs.snapshotting]
    exact Or.inl ⟨rfl, rfl⟩
  | DeleteRange keys min max =>
    obtain ⟨c2, hc2, -, hs, -⟩ := Cache.DeleteRange_spec keys min max hwf
    have e : c' = c2 := by
      have h' : c.DeleteRange keys min max = some c' := h
      rw [hc2] at h'
      exact (Option.some.inj h').symm
    rw [e, hs.snapshot, hs.snapshotting]
    exact Or.inl ⟨rfl, rfl⟩
  | SetMaxSize size =>
    simp only [Cache.step, Option.some.injEq] at h
    rw [← h]; exact Or.inl ⟨rfl, rfl⟩

/-- In every reachable cache state, `ClearSnapshot(false)` included, a cache
that is `snapshotting` holds a sibling. -/
theorem snapshotting_holds_sibling {c : Cache} (hr : Reachable c)
    (h : c.snapshotting = true) : c.snapshot.isSome = true := by
  induction hr with
  | init maxSize arena => simp [NewCache] at h
  | @step c c' op hreach hop hstep ih =>
    rcases Cache.step_flags (reachable_WF hreach) hop hstep with
      ⟨h1, h2⟩ | ⟨h1, -⟩ | ⟨-, h2⟩ | ⟨-, -, h2⟩
    · rw [h1]; exact ih (by rw [← h2]; exact h)
    · exact h1
    · rw [h2] at h; exact absurd h (by simp)
    · rw [h2] at h; exact absurd h (by simp)

/-- C21 fails after `ClearSnapshot(false)`: after a write, `Snapshot()` and
`ClearSnapshot(false)` the cache still holds the sibling of the failed
attempt, and `snapshotting` is false. -/
theorem sibling_kept_by_failed_clear_counterexample :
    (NewCache 0 []).run [Op.Write "k" [v1a, v5a], Op.Snapshot, Op.ClearSnapshot false]
      = some failedState ∧
    Reachable failedState ∧ failedState.snapshot.isSome = true ∧
    failedState.snapshotting = false :=
  ⟨by decide, failedState_reachable, by decide, by decide⟩

/-- C21, amended: in every state reached by calls other than
`ClearSnapshot(false)`, a cache that holds a sibling is `snapshotting`. -/
theorem sibling_held_implies_snapshotting (c : Cache) (hr : ReachableVia noFailedClear c)
    (h : c.snapshot.isSome = true) : c.snapshotting = true := by
  induction hr with
  | init maxSize arena => simp [NewCache] at h
  | @step c c' op hreach hop hallow hstep ih =>
    rcases Cache.step_flags (reachable_WF hreach.reachable) hop hstep with
      ⟨h1, h2⟩ | ⟨-, h2⟩ | ⟨h1, -⟩ | ⟨h1, -, -⟩
    · rw [h2]; exact ih (by rw [← h1]; exact h)
    · exact h2
    · rw [h1] at h; exact absurd h (by simp)
    · exact absurd h1 hallow

/-- C21 (amended) at the cache after a write and `Snapshot()`: the sibling is
held and `snapshotting` is true. -/
theorem sibling_held_implies_snapshotting_witness :
    ReachableVia noFailedClear snapshotState ∧ snapshotState.snapshot.isSome = true ∧
      snapshotState.snapshotting = true :=
  have hreach : ReachableVia noFailedClear snapshotState :=
    ReachableVia.step Op.Snapshot
      (ReachableVia.step (Op.Write "k" [v1a, v5a]) (ReachableVia.init 0 []) trivial
        (by decide) (by decide : (NewCache 0 []).step (Op.Write "k" [v1a, v5a])
          = some writtenState))
      trivial (by decide) (by decide)
  ⟨hreach, by decide, sibling_held_implies_snapshotting snapshotState hreach (by decide)⟩

/-! ## The size bound and the subtractions of `DeleteRange` -/

theorem entry_size_le_storeSize {store : List (OwnedStringID × entry)} {id : OwnedStringID}
    {e : entry} (h : mapGet store id = some e) : e.size ≤ storeSize store := by
  induction store with
  | nil => simp [mapGet] at h
  | cons p rest ih =>
    obtain ⟨id0, e0⟩ := p
    simp only [storeSize, List.map_cons, List.sum_cons]
    by_cases hid : id0 = id
    · simp only [mapGet, hid, if_true, Option.some.injEq] at h
      rw [h]; omega
    · simp only [mapGet, hid, if_false] at h
      have := ih h
      simp only [storeSize] at this
      omega

theorem entry.filter_size_le (e : entry) (min max : Int64) :
    (e.filter min max).size ≤ e.size := by
  have hadd := Size_filter_add e.values (inRange min max)
  have e1 : (e.filter min max).size
      = Values.Size (e.values.filter (fun v => !(inRange min max v))) := rfl
  have e2 : e.size = Values.Size e.values := rfl
  omega

/-- What the restriction `noWrap` keeps true: the store holds no more than
`size` says. -/
theorem noWrap_invariant {c : Cache} (hr : ReachableVia noWrap c) :
    storeSize c.store ≤ c.size := by
  induction hr with
  | init maxSize arena => exact Nat.le_refl _
  | @step c c' op hreach hop hallow hstep ih =>
    have hwf := reachable_WF hreach.reachable
    cases op with
    | Write key values =>
      simp only [Cache.step, Option.map_eq_some', Prod.exists, exists_and_right,
        exists_eq_right] at hstep
      obtain ⟨r, hr⟩ := hstep
      simp only [noWrap, Op.added] at hallow
      rcases Cache.Write_ledger hwf hr with h | ⟨h1, h2, -, -, -⟩
      · rw [h]; exact ih
      · rw [h1, h2, Nat.mod_eq_of_lt hallow]; omega
    | WriteMulti values =>
      simp only [Cache.step, Option.map_eq_some', Prod.exists, exists_and_right,
        exists_eq_right] at hstep
      obtain ⟨r, hr⟩ := hstep
      simp only [noWrap, Op.added] at hallow
      rcases Cache.WriteMulti_ledger hwf hr with h | ⟨h1, h2, -, -, -⟩
      · rw [h]; exact ih
      · rw [h1, h2, Nat.mod_eq_of_lt hallow]; omega
    | Values key =>
      simp only [Cache.step, Cache.Values, Cache.merged_eq hwf key, Option.map_some',
        Option.some.injEq] at hstep
      rw [← hstep]
      exact Nat.le_trans (storeSize_dedupAt_le c.store c.internedOwnedStrings key) ih
    | Deduplicate =>
      simp only [Cache.step, Option.some.injEq] at hstep
      rw [← hstep]
      exact Nat.le_trans (storeSize_deduplicate_le c.store) ih
    | DeduplicateSnapshot =>
      simp only [Cache.step, Option.some.injEq] at hstep
      rw [← hstep]; exact ih
    | Snapshot =>
      simp only [Cache.step, Option.map_eq_some', Prod.exists, exists_and_right,
        exists_eq_right] at hstep
      obtain ⟨r, hr⟩ := hstep
      rcases Cache.Snapshot_ledger hwf hr with h | ⟨h1, h2, -, -⟩
      · rw [h]; exact ih
      · rw [h1, h2]; exact Nat.le_refl _
    | ClearSnapshot success =>
      obtain ⟨h1, h2, -, -⟩ := Cache.ClearSnapshot_ledger hstep
      rw [h1, h2]; exact ih
    | Delete keys =>
      obtain ⟨r, h1, h2, -, -⟩ := Cache.DeleteRange_ledger hwf hstep
      have hb := hwf.sizeBound
      have e1 : c'.size = c.size - r := by
        rw [h2]; unfold uint64; omega
      omega
    | DeleteRange keys min max =>
      obtain ⟨r, h1, h2, -, -⟩ := Cache.DeleteRange_ledger hwf hstep
      have hb := hwf.sizeBound
      have e1 : c'.size = c.size - r := by
        rw [h2]; unfold uint64; omega
      omega
    | SetMaxSize size =>
      simp only [Cache.step, Option.some.injEq] at hstep
      rw [← hstep]; exact ih

theorem wrappedState_reachable : Reachable wrappedState :=
  Reachable.step (Op.Write "k" [v60]) overflowState_reachable trivial (by decide)

/-- C22 fails when the addition of a write wraps: with `size = 2 ^ 64 - 60`
booked for `a`, the accepted `Write("k", 60 bytes)` leaves `size = 0` while
the live entries hold `2 ^ 64` bytes, and `Delete(["k"])` then subtracts 60
from 0, which wraps to `2 ^ 64 - 60`. -/
theorem size_wraps_below_entries_counterexample :
    Reachable wrappedState ∧ wrappedState.size = 0 ∧
    storeSize wrappedState.store = 18446744073709551616 ∧
    ¬ (storeSize wrappedState.store ≤ wrappedState.size) ∧
    (wrappedState.liveEntry "k").map entry.size = some 60 ∧
    (wrappedState.Delete ["k"]).map Cache.size = some 18446744073709551556 :=
  ⟨wrappedState_reachable, by decide, by decide, by decide, by decide, by decide⟩

/-- C22, amended: in every state reached by calls of which every `Write` and
`WriteMulti` is made with `size` plus the footprint of its batches below
`2 ^ 64`, `size` is at least the sum of `entry.size()` over the live entries;
so for every live entry neither `size -= origSize` nor
`size -= origSize - e.size()` (after `filter`) wraps below zero, and every
round of the loop of `DeleteRange`, like the whole call, returns and leaves a
state of the same kind with a `size` that did not grow. -/
theorem size_covers_entries (c : Cache) (hr : ReachableVia noWrap c) :
    storeSize c.store ≤ c.size ∧
    (∀ k e, c.liveEntry k = some e →
      0 ≤ (c.size : Int) - (uint64 (e.size : Int) : Int) ∧
      ∀ min max : Int64,
        0 ≤ (e.size : Int) - ((e.filter min max).size : Int) ∧
        0 ≤ (c.size : Int)
          - (uint64 ((e.size : Int) - ((e.filter min max).size : Int)) : Int)) ∧
    (∀ (k : String) (min max : Int64), ∃ c1, c.deleteRangeKey k min max = some c1 ∧
      ReachableVia noWrap c1 ∧ c1.size ≤ c.size) ∧
    (∀ (keys : List String) (min max : Int64), ∃ c', c.DeleteRange keys min max = some c' ∧
      ReachableVia noWrap c' ∧ c'.size ≤ c.size) := by
  have hinv := noWrap_invariant hr
  have hwf := reachable_WF hr.reachable
  have hbound := hwf.sizeBound
  have hcall : ∀ (keys : List String) (min max : Int64),
      ∃ c', c.DeleteRange keys min max = some c' ∧ ReachableVia noWrap c' ∧
        c'.size ≤ c.size := by
    intro keys min max
    obtain ⟨c', hc', -⟩ := Cache.DeleteRange_spec keys min max hwf
    obtain ⟨r, h1, h2, -, -⟩ := Cache.DeleteRange_ledger hwf hc'
    refine ⟨c', hc', ?_, ?_⟩
    · refine ReachableVia.step (Op.DeleteRange keys min max) hr trivial ?_ hc'
      show c.size + 0 < 18446744073709551616
      omega
    · rw [h2]; unfold uint64; omega
  refine ⟨hinv, ?_, ?_, hcall⟩
  · intro k e he
    have hle : e.size ≤ storeSize c.store := by
      simp only [Cache.liveEntry, lookupEntry] at he
      cases hg : mapGet c.internedOwnedStrings k with
      | none => simp [hg] at he
      | some id =>
        simp only [hg, Option.bind] at he
        exact entry_size_le_storeSize he
    refine ⟨by unfold uint64; omega, ?_⟩
    intro min max
    have hf := entry.filter_size_le e min max
    exact ⟨by omega, by unfold uint64; omega⟩
  · intro k min max
    obtain ⟨c1, hc1, hreach, hsize⟩ := hcall [k] min max
    refine ⟨c1, ?_, hreach, hsize⟩
    simp only [Cache.DeleteRange] at hc1
    cases hk : c.deleteRangeKey k min max with
    | none => simp [hk] at hc1
    | some c2 =>
      simp only [hk] at hc1
      rw [hc1]

/-- C22 (amended) at the cache that took one write of three values of 10
bytes: `size` is 30 and the one entry holds 30 bytes. -/
theorem size_covers_entries_witness :
    ReachableVia noWrap tripleState ∧ tripleState.size = 30 ∧
      storeSize tripleState.store ≤ 30 :=
  have hreach : ReachableVia noWrap tripleState := tripleState_reachableVia noWrap (by decide)
  have hsize : tripleState.size = 30 := by decide
  ⟨hreach, hsize, hsize ▸ (size_covers_entries tripleState hreach).1⟩

/-! ## Where the exact size rules of `Write`, `WriteMulti` and `DeleteRange` fail -/

/-- C4, as stated, fails: in the reachable state with `size = 2 ^ 64 - 60`,
`Write("k", v)` with a batch of 60 bytes returns nil and leaves `size = 0`:
`size` has not grown by `v.size()`, the addition wrapped. -/
theorem Write_accepted_counterexample :
    Reachable overflowState ∧ [v60] ≠ [] ∧
    overflowState.size = 18446744073709551556 ∧ Values.Size [v60] = 60 ∧
    overflowState.Write "k" [v60] = some (wrappedState, none) ∧
    wrappedState.size = 0 ∧
    wrappedState.size ≠ overflowState.size + Values.Size [v60] :=
  ⟨overflowState_reachable, by decide, by decide, by decide, by decide, by decide, by decide⟩

/-- C5, as stated, fails: in the reachable state with `maxSize = 100`,
`size = 2 ^ 64 - 60` and `snapshotSize = 0`, the map with the one batch of 60
bytes has `size + T + snapshotSize = 2 ^ 64 > maxSize`, yet `WriteMulti`
returns nil, and it leaves `size = 0`, not `size + T`. -/
theorem WriteMulti_spec_counterexample :
    Reachable overflowState ∧ ([("k", [v60])].map Prod.fst).Nodup ∧
    overflowState.maxSize > 0 ∧
    overflowState.size + ([("k", [v60])].map (fun p => Values.Size p.2)).sum
      + overflowState.snapshotSize > overflowState.maxSize ∧
    (overflowState.WriteMulti [("k", [v60])]).map (fun r => (r.2, r.1.size))
      = some (none, 0) ∧
    0 ≠ overflowState.size + ([("k", [v60])].map (fun p => Values.Size p.2)).sum :=
  ⟨overflowState_reachable, by decide, by decide, by decide, by decide, by decide⟩

/-- C9, as stated, fails: in the reachable state `wrappedState`, where `size`
is 0 and the entry of `k` holds one value of 60 bytes,
`DeleteRange(["k"], 0, 10)` removes that value and leaves
`size = 2 ^ 64 - 60`: `size` has not decreased by the footprint removed, the
subtraction wrapped. -/
theorem DeleteRange_effect_counterexample :
    Reachable wrappedState ∧ wrappedState.size = 0 ∧
    wrappedState.liveValues "k" = [v60] ∧
    wrappedState.removedSize ["k"] ⟨0, by decide⟩ ⟨10, by decide⟩ = 60 ∧
    (wrappedState.DeleteRange ["k"] ⟨0, by decide⟩ ⟨10, by decide⟩).map
      (fun c => (c.liveEntry "k", c.size)) = some (none, 18446744073709551556) ∧
    ¬ (18446744073709551556 + 60 = wrappedState.size) :=
  ⟨wrappedState_reachable, by decide, by decide, by decide, by decide, by decide⟩

end Tsm1
